import Mathlib

/-!
# Index-scanning core of the query engine: key codec and paginated view walker

A shallow embedding of `datastore/couchbase/view_util.go`.

* Go strings are byte sequences (`GoString`); `for i, r := range s` and
  `string(rune)` follow the Go language definition of UTF-8 decoding/encoding.
* A Go `interface{}` is a `GoVal`, one constructor per dynamic type that the
  file creates or inspects.
* `float64` carries the exact rational value of a finite float.
* A Go panic is `Failure.panic`, a returned `error` is `Failure.error`.
-/

namespace Query

set_option linter.unusedVariables false

/-! ## Go strings -/

/-- A Go `string`: an immutable sequence of bytes. -/
abbrev GoString := List (Fin 256)

/-- The rune `utf8.RuneError` (U+FFFD). -/
def RuneError : Nat := 0xFFFD

/-- Continuation byte test `0x80 <= b <= 0xBF`. -/
def isCont (b : Fin 256) : Bool := decide (0x80 ≤ b.val ∧ b.val ≤ 0xBF)

/-- One step of `for i, r := range s`: the rune at the head of `s` and its
width in bytes.  An invalid or truncated encoding yields `(RuneError, 1)`,
as in `utf8.DecodeRuneInString`. -/
def decodeRune : GoString → Nat × Nat
  | [] => (RuneError, 0)
  | b0 :: rest =>
    let x := b0.val
    if x < 0x80 then (x, 1)
    else if 0xC2 ≤ x ∧ x ≤ 0xDF then
      match rest with
      | b1 :: _ =>
        if isCont b1 then ((x - 0xC0) * 64 + (b1.val - 0x80), 2) else (RuneError, 1)
      | _ => (RuneError, 1)
    else if 0xE0 ≤ x ∧ x ≤ 0xEF then
      let lo := if x = 0xE0 then 0xA0 else 0x80
      let hi := if x = 0xED then 0x9F else 0xBF
      match rest with
      | b1 :: b2 :: _ =>
        if lo ≤ b1.val ∧ b1.val ≤ hi ∧ isCont b2 then
          ((x - 0xE0) * 4096 + (b1.val - 0x80) * 64 + (b2.val - 0x80), 3)
        else (RuneError, 1)
      | _ => (RuneError, 1)
    else if 0xF0 ≤ x ∧ x ≤ 0xF4 then
      let lo := if x = 0xF0 then 0x90 else 0x80
      let hi := if x = 0xF4 then 0x8F else 0xBF
      match rest with
      | b1 :: b2 :: b3 :: _ =>
        if lo ≤ b1.val ∧ b1.val ≤ hi ∧ isCont b2 ∧ isCont b3 then
          ((x - 0xF0) * 262144 + (b1.val - 0x80) * 4096 + (b2.val - 0x80) * 64
            + (b3.val - 0x80), 4)
        else (RuneError, 1)
      | _ => (RuneError, 1)
    else (RuneError, 1)

/-- The iterations of `for i, r := range s`, as pairs (byte index, rune),
starting at byte index `i`.  Every step consumes at least one byte, so
`fuel = len(s)` iterations always reach the end of the string. -/
def rangeStringFrom : Nat → Nat → GoString → List (Nat × Nat)
  | 0, _, _ => []
  | _ + 1, _, [] => []
  | fuel + 1, i, b :: rest =>
    let rw := decodeRune (b :: rest)
    (i, rw.1) :: rangeStringFrom fuel (i + rw.2) ((b :: rest).drop rw.2)

/-- All iterations of `for i, r := range s`. -/
def rangeString (s : GoString) : List (Nat × Nat) :=
  rangeStringFrom s.length 0 s

/-- Conversion `string(r)` of a rune (an `int32`, here any integer): the UTF-8
encoding of `r`, or of U+FFFD when `r` is not a valid code point. -/
def stringOfRune (r : Int) : GoString :=
  if r < 0 ∨ 0x10FFFF < r ∨ (0xD800 ≤ r ∧ r ≤ 0xDFFF) then [0xEF, 0xBF, 0xBD]
  else
    let n := r.toNat
    if n < 0x80 then [Fin.ofNat n]
    else if n < 0x800 then [Fin.ofNat (0xC0 + n / 64), Fin.ofNat (0x80 + n % 64)]
    else if n < 0x10000 then
      [Fin.ofNat (0xE0 + n / 4096), Fin.ofNat (0x80 + n / 64 % 64), Fin.ofNat (0x80 + n % 64)]
    else
      [Fin.ofNat (0xF0 + n / 262144), Fin.ofNat (0x80 + n / 4096 % 64),
        Fin.ofNat (0x80 + n / 64 % 64), Fin.ofNat (0x80 + n % 64)]

/-- Conversion `rune(x)` of a `float64`: the fraction is discarded.  A result
outside the `int32` range is implementation-defined in Go; on every supported
platform it is not a valid code point, which is all `stringOfRune` looks at. -/
def runeOfFloat64 (x : ℚ) : Int := x.num.tdiv x.den

/-! ## Dynamic values -/

/-- A Go `interface{}` as this file meets it. -/
inductive GoVal where
  /-- the nil interface -/
  | nil
  /-- dynamic type `bool` -/
  | bool (b : Bool)
  /-- dynamic type `int` (an untyped integer constant stored in an interface) -/
  | int (n : Int)
  /-- dynamic type `int64` -/
  | int64 (n : Int)
  /-- dynamic type `float64` -/
  | float64 (x : ℚ)
  /-- dynamic type `string` -/
  | string (s : GoString)
  /-- dynamic type `cb.DocID` -/
  | docID (s : GoString)
  /-- dynamic type `[]float64` -/
  | floats (xs : List ℚ)
  /-- dynamic type `[]string` -/
  | strings (xs : List GoString)
  /-- dynamic type `[]interface{}` -/
  | slice (xs : List GoVal)
  /-- dynamic type `map[string]interface{}`: the entries in iteration order,
  the keys of a well-formed map being pairwise distinct -/
  | map (m : List (GoString × GoVal))
  /-- dynamic type `value.missingValue`, a defined string type with methods -/
  | missingValue (path : GoString)
  /-- any other dynamic type that implements `value.Value`: a defined type of
  the value package with methods, known by its `Actual()` projection -/
  | value (actual : GoVal)

instance : Inhabited GoVal := ⟨GoVal.nil⟩

/-- A non-nil `value.Value`.  The interface has methods (`Type`, `Actual`,
`Equals`, `Collate`, ...), so the dynamic type of a `Value` is a defined type
that carries them and never one of the built-in types `bool`, `float64`,
`string`, `[]interface{}`, `map[string]interface{}`. -/
inductive Value where
  /-- the type `missingValue` of `value/missing.go`, a string: the path of what
  was absent -/
  | missing (path : GoString)
  /-- Modelled from the spec: the implementations of `value.Value` for null,
  boolean, number, string, array and object are declared outside the sources at
  hand; each has a stable `Actual()` projection to a primitive representation -/
  | other (actual : GoVal)

/-- The method `Actual()`; `missingValue.Actual` returns nil. -/
def Value.Actual : Value → GoVal
  | .missing _ => GoVal.nil
  | .other actual => actual

/-- The conversion of a `Value` to `interface{}`, as in passing it to a
parameter of that type: the dynamic type stays what it is. -/
def Value.toInterface : Value → GoVal
  | .missing path => GoVal.missingValue path
  | .other actual => GoVal.value actual

/-- How a call ends when it does not return a result. -/
inductive Failure where
  /-- a returned `error` -/
  | error (msg : String)
  /-- a run-time panic -/
  | panic (msg : String)
  deriving DecidableEq, Repr

/-- The index expression `obj[key]` on a `map[string]interface{}`: the zero
value `nil` when the key is absent. -/
def mapIndex : List (GoString × GoVal) → GoString → GoVal
  | [], _ => GoVal.nil
  | (k, v) :: rest, key => if k = key then v else mapIndex rest key

/-- The assignment `rv[key] = val` on a `map[string]interface{}`. -/
def mapAssign : List (GoString × GoVal) → GoString → GoVal → List (GoString × GoVal)
  | [], key, val => [(key, val)]
  | (k, v) :: rest, key, val =>
    if k = key then (k, val) :: rest else (k, v) :: mapAssign rest key val

/-- The library call `sort.Strings(keys)`: ascending byte-wise order. -/
def sortStrings (keys : List GoString) : List GoString :=
  keys.insertionSort (fun a b => a ≤ b)

/-! ## Constants -/

def TYPE_NULL : Int := 64
def TYPE_BOOLEAN : Int := 96
def TYPE_NUMBER : Int := 128
def TYPE_STRING : Int := 160
def TYPE_ARRAY : Int := 192
def TYPE_OBJECT : Int := 224

/-- The identifier `MIN_ID = cb.DocID("")`. -/
def MIN_ID : GoString := []

/-- The identifier `MAX_ID`: the byte 0xff repeated 251 times, as a `cb.DocID`. -/
def MAX_ID : GoString := List.replicate 251 0xFF

/-! ## Key codec -/

/-- The function `encodeStringAsNumericArray`: a zeroed `[]float64` of `len(str)` entries
(the length in bytes), entry `i` set to the rune that starts at byte `i`. -/
def encodeStringAsNumericArray (str : GoString) : List ℚ :=
  (rangeString str).foldl (fun rv ir => rv.set ir.1 (ir.2 : ℚ)) (List.replicate str.length 0)

theorem sizeOf_mapIndex_le (obj : List (GoString × GoVal)) (key : GoString) :
    sizeOf (mapIndex obj key) ≤ sizeOf obj := by
  induction obj with
  | nil => simp [mapIndex]
  | cons p rest ih =>
    obtain ⟨k, v⟩ := p
    simp only [mapIndex]
    split
    · simp; omega
    · simp; omega

mutual
/-- The function `encodeValue`: the physical key of a value; panics on any dynamic type
other than nil, bool, float64, string, []interface{}, map[string]interface{}. -/
def encodeValue : GoVal → Except Failure GoVal
  | .nil => .ok (.slice [.int TYPE_NULL])
  | .bool b => .ok (.slice [.int TYPE_BOOLEAN, .bool b])
  | .float64 x => .ok (.slice [.int TYPE_NUMBER, .float64 x])
  | .string s => .ok (.slice [.int TYPE_STRING, .floats (encodeStringAsNumericArray s)])
  | .slice xs => .ok (.slice [.int TYPE_ARRAY, .slice xs])
  | .map obj =>
    match encodeObjectAsCompoundArray obj with
    | .ok ca => .ok (.slice [.int TYPE_OBJECT, .slice ca])
    | .error e => .error e
  | .int _ => .error (.panic "Unable to encode type int to map key")
  | .int64 _ => .error (.panic "Unable to encode type int64 to map key")
  | .docID _ => .error (.panic "Unable to encode type couchbase.DocID to map key")
  | .floats _ => .error (.panic "Unable to encode type []float64 to map key")
  | .strings _ => .error (.panic "Unable to encode type []string to map key")
  | .missingValue _ => .error (.panic "Unable to encode type value.missingValue to map key")
  | .value _ => .error (.panic "Unable to encode type value.Value to map key")
termination_by v => (sizeOf v, 0)
decreasing_by
  apply Prod.Lex.left
  simp_wf

/-- The loop `for i, key := range keys { vals[i] = encodeValue(obj[key]) }`. -/
def encodeObjectVals (obj : List (GoString × GoVal)) : List GoString → Except Failure (List GoVal)
  | [] => .ok []
  | key :: keys =>
    match encodeValue (mapIndex obj key) with
    | .ok v =>
      match encodeObjectVals obj keys with
      | .ok vs => .ok (v :: vs)
      | .error e => .error e
    | .error e => .error e
termination_by keys => (sizeOf obj, 1 + keys.length)
decreasing_by
  · have := sizeOf_mapIndex_le obj key
    rcases Nat.lt_or_ge (sizeOf (mapIndex obj key)) (sizeOf obj) with h | h
    · exact Prod.Lex.left _ _ h
    · have : sizeOf (mapIndex obj key) = sizeOf obj := by omega
      rw [this]; apply Prod.Lex.right; omega
  · apply Prod.Lex.right; simp

/-- The function `encodeObjectAsCompoundArray`: the two-element array `[keys, vals]` of the
sorted field names and the encoded field values in that order. -/
def encodeObjectAsCompoundArray (obj : List (GoString × GoVal)) : Except Failure (List GoVal) :=
  let keys := sortStrings (obj.map Prod.fst)
  match encodeObjectVals obj keys with
  | .ok vals => .ok [.strings keys, .slice vals]
  | .error e => .error e
termination_by (sizeOf obj, 2 + obj.length)
decreasing_by
  apply Prod.Lex.right
  simp [sortStrings]
end

/-- Modelled from the spec: `value.NewValue` is declared in the value package,
which is outside the sources at hand; it returns the `Value` whose `Actual()`
projection is its argument. -/
def NewValue (v : GoVal) : Value := Value.other v

/-- The loop of `decodeNumericArrayAsString`, `rv` being the string built so far. -/
def decodeNumericArrayLoop (rv : GoString) : List GoVal → Except Failure GoString
  | [] => .ok rv
  | .float64 num :: rest => decodeNumericArrayLoop (rv ++ stringOfRune (runeOfFloat64 num)) rest
  | _ :: _ => .error (.error "numeric array contained non-number")

/-- The function `decodeNumericArrayAsString`. -/
def decodeNumericArrayAsString (na : List GoVal) : Except Failure GoString :=
  decodeNumericArrayLoop [] na

/-- The index expression `xs[i]` on a `[]interface{}`; `none` stands for the
run-time panic "index out of range". -/
def sliceIndex (xs : List GoVal) (i : Nat) : Option GoVal := xs[i]?

theorem sizeOf_lt_of_sliceIndex {xs : List GoVal} {i : Nat} {v : GoVal}
    (h : sliceIndex xs i = some v) : sizeOf v < sizeOf xs := by
  have hm : v ∈ xs := List.getElem?_mem h
  exact List.sizeOf_lt_of_mem hm

mutual
/-- The function `convertCouchbaseViewKeyEntryToValue`.  Every index expression of the
source is an explicit lookup whose failure is a panic. -/
def convertCouchbaseViewKeyEntryToValue : GoVal → Except Failure Value
  | .slice keyEntry =>
    if keyEntry.length ≠ 2 then
      .error (.error "Key entries array must have length 2")
    else
      match sliceIndex keyEntry 0 with
      | none => .error (.panic "index out of range")
      | some (.float64 keyEntryType) =>
        if keyEntryType = (TYPE_NULL : ℚ) then .ok (NewValue .nil)
        else if keyEntryType = (TYPE_BOOLEAN : ℚ) ∨ keyEntryType = (TYPE_NUMBER : ℚ)
            ∨ keyEntryType = (TYPE_ARRAY : ℚ) then
          match sliceIndex keyEntry 1 with
          | none => .error (.panic "index out of range")
          | some payload => .ok (NewValue payload)
        else if keyEntryType = (TYPE_STRING : ℚ) then
          match sliceIndex keyEntry 1 with
          | none => .error (.panic "index out of range")
          | some (.slice keyStringValue) =>
            match decodeNumericArrayAsString keyStringValue with
            | .ok decodedString => .ok (NewValue (.string decodedString))
            | .error err => .error err
          | some _ => .error (.error "key entry type string value must be array")
        else if keyEntryType = (TYPE_OBJECT : ℚ) then
          match h : sliceIndex keyEntry 1 with
          | none => .error (.panic "index out of range")
          | some (.slice keyObjectValue) =>
            match decodeCompoundArrayAsObject keyObjectValue with
            | .ok decodedObject => .ok (NewValue (.map decodedObject))
            | .error err => .error err
          | some _ => .error (.error "key entry type object value must be array")
        else .error (.error "Unkown type of key entry")
      | some _ => .error (.error "Key entry type must be number")
  | _ => .error (.error "Key entries top-level MUST be an array")
termination_by v => (sizeOf v, 0)
decreasing_by
  simp_wf
  apply Prod.Lex.left
  have := sizeOf_lt_of_sliceIndex h
  simp at this
  omega

/-- The loop `for i := 0; i < midpoint; i++` of `decodeCompoundArrayAsObject`,
`rv` being the map built so far. -/
def decodeCompoundLoop (ca : List GoVal) (midpoint : Nat) (i : Nat)
    (rv : List (GoString × GoVal)) : Except Failure (List (GoString × GoVal)) :=
  if hi : i < midpoint then
    match sliceIndex ca i with
    | none => .error (.panic "index out of range")
    | some (.string key) =>
      match h : sliceIndex ca (i + midpoint) with
      | none => .error (.panic "index out of range")
      | some val =>
        match convertCouchbaseViewKeyEntryToValue val with
        | .error err => .error err
        | .ok decodedVal =>
          decodeCompoundLoop ca midpoint (i + 1) (mapAssign rv key decodedVal.toInterface)
    | some _ => .error (.error "compound object array contains non-string in key position")
  else .ok rv
termination_by (sizeOf ca, 1 + (midpoint - i))
decreasing_by
  all_goals first
    | exact Prod.Lex.left _ _ (sizeOf_lt_of_sliceIndex h)
    | exact Prod.Lex.right _ (by omega)

/-- The function `decodeCompoundArrayAsObject`. -/
def decodeCompoundArrayAsObject (ca : List GoVal) : Except Failure (List (GoString × GoVal)) :=
  if ca.length % 2 ≠ 0 then
    .error (.error "compound object array must be even length")
  else
    decodeCompoundLoop ca (ca.length / 2) 0 []
termination_by (sizeOf ca, 2 + ca.length)
decreasing_by
  simp_wf
  apply Prod.Lex.right
  omega
end

/-- The JSON transport of a string (`json.Marshal`, then `json.Unmarshal`):
valid UTF-8 runs are kept, each invalid byte is replaced by U+FFFD. -/
def viaJSONString (s : GoString) : GoString :=
  (rangeString s).flatMap (fun ir => stringOfRune ir.2)

mutual
/-- The JSON transport of a key (`json.Marshal` on the way to the view engine,
`json.Unmarshal` into an `interface{}` on the way back): every number arrives
as a `float64` and every array as a `[]interface{}`. -/
def viaJSON : GoVal → GoVal
  | .nil => .nil
  | .bool b => .bool b
  | .int n => .float64 n
  | .int64 n => .float64 n
  | .float64 x => .float64 x
  | .string s => .string (viaJSONString s)
  | .docID s => .string (viaJSONString s)
  | .floats xs => .slice (xs.map GoVal.float64)
  | .strings xs => .slice (xs.map (fun s => GoVal.string (viaJSONString s)))
  | .slice xs => .slice (viaJSONList xs)
  | .map m => .map (viaJSONFields m)
  | .missingValue _ => .nil
  | .value actual => viaJSON actual
/-- The JSON transport of the elements of an array. -/
def viaJSONList : List GoVal → List GoVal
  | [] => []
  | x :: xs => viaJSON x :: viaJSONList xs
/-- The JSON transport of the fields of an object. -/
def viaJSONFields : List (GoString × GoVal) → List (GoString × GoVal)
  | [] => []
  | (k, v) :: rest => (viaJSONString k, viaJSON v) :: viaJSONFields rest
end

/-! ## Range requests -/

/-- The integer type `datastore.Inclusion`. -/
abbrev Inclusion := Int

def NEITHER : Inclusion := 0
def LOW : Inclusion := 1
def HIGH : Inclusion := 2
def BOTH : Inclusion := 3

/-- A `map[string]interface{}` of view options, keyed by option name. -/
abbrev Options := List (String × GoVal)

/-- The lookup `options[name]` with its presence flag. -/
def Options.get : Options → String → Option GoVal
  | [], _ => none
  | (k, v) :: rest, name => if k = name then some v else Options.get rest name

/-- The assignment `options[name] = val`. -/
def Options.set : Options → String → GoVal → Options
  | [], name, val => [(name, val)]
  | (k, v) :: rest, name, val =>
    if k = name then (k, val) :: rest else (k, v) :: Options.set rest name val

/-- The function `generateViewOptions`; `none` is a nil `value.Value`.  The
bounds are handed to `encodeValue` as they are, and a panic of `encodeValue`
ends the call. -/
def generateViewOptions (low high : Option Value) (inclusion : Inclusion) :
    Except Failure Options := do
  let mut viewOptions : Options := []
  if let some low := low then
    viewOptions := viewOptions.set "startkey" (← encodeValue low.toInterface)
    if inclusion = NEITHER ∨ inclusion = HIGH then
      viewOptions := viewOptions.set "startkey_docid" (.docID MAX_ID)
  if let some high := high then
    viewOptions := viewOptions.set "endkey" (← encodeValue high.toInterface)
    if inclusion = NEITHER ∨ inclusion = LOW then
      viewOptions := viewOptions.set "endkey_docid" (.docID MIN_ID)
  return viewOptions

/-! ## Paginated view walker -/

/-- A `cb.ViewRow`. -/
structure ViewRow where
  ID : GoString
  Key : GoVal
  Value : GoVal

/-- How a call `bucket.View(ddoc, view, options)` ends. -/
inductive ViewResult where
  /-- the result `vres, nil` with `vres.Rows = rows` -/
  | rows (rows : List ViewRow)
  /-- a non-nil `err` -/
  | failed (err : String)
  /-- the call panics -/
  | panicked (msg : String)

/-- A delivery on one of the walker's two channels. -/
inductive Event where
  /-- the send `result <- row` -/
  | result (row : ViewRow)
  /-- the send `errs <- errors.NewError(_, msg)` -/
  | errs (msg : String)

/-- How the body of the walker ends. -/
inductive Exit where
  /-- the loop ended with `ok = false` -/
  | done
  /-- the `return` after a failed fetch -/
  | fetchFailed
  /-- a panic, on its way to the deferred `recover` -/
  | panicked
  /-- still looping when the step budget ran out -/
  | running
  deriving DecidableEq, Repr

/-- Two's-complement wrap-around of `int64` arithmetic. -/
def wrapInt64 (n : Int) : Int := (n + 2 ^ 63) % 2 ^ 64 - 2 ^ 63

/-- The loop `for i, row := range vres.Rows { if int64(i) < batchSize {
result <- row; numRead += 1 } }`, from index `i` on: the rows sent and the
new `numRead`. -/
def emitRows (batchSize : Int) : Nat → List ViewRow → Int → List ViewRow × Int
  | _, [], numRead => ([], numRead)
  | i, row :: rest, numRead =>
    if (i : Int) < batchSize then
      let r := emitRows batchSize (i + 1) rest (wrapInt64 (numRead + 1))
      (row :: r.1, r.2)
    else emitRows batchSize (i + 1) rest numRead

/-- The index expression `vres.Rows[batchSize]`; `none` stands for the
run-time panic "index out of range". -/
def rowIndex (rows : List ViewRow) (batchSize : Int) : Option ViewRow :=
  if batchSize < 0 then none else rows[batchSize.toNat]?

/-- The loop `for ok { ... }` of `WalkViewInBatches`, at most `fuel`
iterations of it.  `View call options` is the outcome of the fetch number
`call` of the walk; `bucket.ViewURL` only feeds the log. -/
def walkLoop (View : Nat → Options → ViewResult) (batchSize limit : Int) :
    Nat → Nat → Options → Int → List Event × Exit
  | 0, _, _, _ => ([], Exit.running)
  | fuel + 1, call, options, numRead =>
    match View call options with
    | .panicked _ => ([], Exit.panicked)
    | .failed _ => ([Event.errs "Unable to access view"], Exit.fetchFailed)
    | .rows rows =>
      let sent := emitRows batchSize 0 rows numRead
      if (rows.length : Int) > batchSize ∧ (limit = 0 ∨ (limit ≠ 0 ∧ sent.2 < limit)) then
        match rowIndex rows batchSize with
        | none => (sent.1.map Event.result, Exit.panicked)
        | some next =>
          let r := walkLoop View batchSize limit fuel (call + 1)
            ((options.set "startkey" next.Key).set "startkey_docid" (.docID next.ID)) sent.2
          (sent.1.map Event.result ++ r.1, r.2)
      else (sent.1.map Event.result, Exit.done)

/-- The batch size after `if limit != 0 && limit < batchSize { batchSize = limit }`. -/
def effectiveBatchSize (batchSize limit : Int) : Int :=
  if limit ≠ 0 ∧ limit < batchSize then limit else batchSize

/-- The body of `WalkViewInBatches` below its deferred calls; `options = none`
is a nil map, on which `options["limit"] = ...` panics. -/
def walkBody (View : Nat → Options → ViewResult) (options : Option Options)
    (batchSize limit : Int) (fuel : Nat) : List Event × Exit :=
  match options with
  | none => ([], Exit.panicked)
  | some options =>
    walkLoop View (effectiveBatchSize batchSize limit) limit fuel 0
      (options.set "limit" (.int64 (wrapInt64 (effectiveBatchSize batchSize limit + 1)))) 0

/-- What a walk delivered, and whether it returned (both channels closed). -/
structure Walk where
  events : List Event
  closed : Bool

/-- The function `WalkViewInBatches`: the body, then the deferred `recover`, which sends one
error when the body panicked, then the two deferred `close` calls. -/
def WalkViewInBatches (View : Nat → Options → ViewResult) (options : Option Options)
    (batchSize limit : Int) (fuel : Nat) : Walk :=
  match walkBody View options batchSize limit fuel with
  | (sent, Exit.panicked) => ⟨sent ++ [Event.errs "Panic In View Walking"], true⟩
  | (sent, Exit.running) => ⟨sent, false⟩
  | (sent, _) => ⟨sent, true⟩

/-- The rows among a list of deliveries, in order. -/
def resultsOf : List Event → List ViewRow
  | [] => []
  | Event.result row :: rest => row :: resultsOf rest
  | Event.errs _ :: rest => resultsOf rest

/-- The errors among a list of deliveries, in order. -/
def errorsOf : List Event → List String
  | [] => []
  | Event.result _ :: rest => errorsOf rest
  | Event.errs msg :: rest => msg :: errorsOf rest

/-! ## The view engine, as the walker and the range request see it -/

/-- Comparison of (key, document id) pairs: by key under the engine's
collation `cmp`, then by document id, byte-wise. -/
def cmpKeyID (cmp : GoVal → GoVal → Ordering) (k₁ : GoVal) (id₁ : GoString)
    (k₂ : GoVal) (id₂ : GoString) : Ordering :=
  (cmp k₁ k₂).then (compare id₁ id₂)

/-- The view engine, an external service, read as its request parameters say:
a row is at or after (`startkey`, `startkey_docid`); an absent `startkey`
leaves the side open, an absent `startkey_docid` puts no tiebreak on it. -/
def atOrAfterStart (cmp : GoVal → GoVal → Ordering) (options : Options) (row : ViewRow) : Bool :=
  match options.get "startkey" with
  | none => true
  | some sk =>
    match options.get "startkey_docid" with
    | some (.docID d) => decide (cmpKeyID cmp row.Key row.ID sk d ≠ Ordering.lt)
    | _ => decide (cmp row.Key sk ≠ Ordering.lt)

/-- The view engine, an external service: a row is at or before (`endkey`,
`endkey_docid`), read as in `atOrAfterStart`. -/
def atOrBeforeEnd (cmp : GoVal → GoVal → Ordering) (options : Options) (row : ViewRow) : Bool :=
  match options.get "endkey" with
  | none => true
  | some ek =>
    match options.get "endkey_docid" with
    | some (.docID d) => decide (cmpKeyID cmp row.Key row.ID ek d ≠ Ordering.gt)
    | _ => decide (cmp row.Key ek ≠ Ordering.gt)

/-- The view engine, an external service: the rows that an inclusive range
request selects. -/
def selects (cmp : GoVal → GoVal → Ordering) (options : Options) (row : ViewRow) : Bool :=
  atOrAfterStart cmp options row && atOrBeforeEnd cmp options row

/-- The view engine, an external service, over a fixed list of rows: a fetch
never fails and returns, in store order, the first `limit` rows at or after
(`startkey`, `startkey_docid`). -/
def storeView (cmp : GoVal → GoVal → Ordering) (store : List ViewRow) :
    Nat → Options → ViewResult :=
  fun _ options =>
    match options.get "limit" with
    | some (.int64 n) => ViewResult.rows ((store.filter (atOrAfterStart cmp options)).take n.toNat)
    | _ => ViewResult.rows (store.filter (atOrAfterStart cmp options))

/-- Strict order of two rows by (key, document id). -/
def rowLT (cmp : GoVal → GoVal → Ordering) (r s : ViewRow) : Prop :=
  cmpKeyID cmp r.Key r.ID s.Key s.ID = Ordering.lt

instance (cmp : GoVal → GoVal → Ordering) : DecidableRel (rowLT cmp) :=
  fun r s => inferInstanceAs (Decidable (cmpKeyID cmp r.Key r.ID s.Key s.ID = Ordering.lt))

/-- The number carried by a physical key `[tag, n]`, 0 for any other shape. -/
def keyNumber : GoVal → ℚ
  | .slice [_, .float64 x] => x
  | _ => 0

/-- A collation that orders the physical keys of numbers by their number. -/
def cmpKeyNumber (a b : GoVal) : Ordering := compare (keyNumber a) (keyNumber b)

/-- The row of a document `id` indexed under the number `n`. -/
def numberRow (n : ℚ) (id : GoString) : ViewRow :=
  ⟨id, .slice [.float64 128, .float64 n], .nil⟩

/-! ## Statement vocabulary -/

mutual
/-- The supported values: null, boolean, number, string, array and object,
nested to any depth, the field names of every object pairwise distinct. -/
def supported : GoVal → Bool
  | .nil => true
  | .bool _ => true
  | .float64 _ => true
  | .string _ => true
  | .slice xs => supportedList xs
  | .map m => supportedFields m
  | _ => false
/-- Every element of an array is supported. -/
def supportedList : List GoVal → Bool
  | [] => true
  | x :: xs => supported x && supportedList xs
/-- Every field value of an object is supported, under distinct names. -/
def supportedFields : List (GoString × GoVal) → Bool
  | [] => true
  | (k, v) :: rest =>
    decide (k ∉ rest.map Prod.fst) && supported v && supportedFields rest
end

/-- The position of a value's kind in the order
null < boolean < number < string < array < object. -/
def kindRank : GoVal → Nat
  | .nil => 0
  | .bool _ => 1
  | .float64 _ => 2
  | .string _ => 3
  | .slice _ => 4
  | .map _ => 5
  | _ => 6

/-- Element-by-element comparison of two sequences under `cmpElem`, a proper
prefix sorting first. -/
def compareElementwise (cmpElem : GoVal → GoVal → Ordering) :
    List GoVal → List GoVal → Ordering
  | [], [] => Ordering.eq
  | [], _ :: _ => Ordering.lt
  | _ :: _, [] => Ordering.gt
  | x :: xs, y :: ys => (cmpElem x y).then (compareElementwise cmpElem xs ys)

/-- A comparison of elements that orders integer tags by their number. -/
def cmpTagFirst : GoVal → GoVal → Ordering
  | .int m, .int n => compare m n
  | _, _ => Ordering.eq

/-- The loop `for i, lv := range keys { val := lv.Actual(); rv[i] = encodeValue(val) }`
of `encodeValueAsMapKey`. -/
def encodeValueAsMapKeyLoop : List Value → Except Failure (List GoVal)
  | [] => .ok []
  | lv :: rest =>
    match encodeValue lv.Actual with
    | .ok k =>
      match encodeValueAsMapKeyLoop rest with
      | .ok ks => .ok (k :: ks)
      | .error e => .error e
    | .error e => .error e

/-- The function `encodeValueAsMapKey`. -/
def encodeValueAsMapKey (keys : List Value) : Except Failure GoVal :=
  match encodeValueAsMapKeyLoop keys with
  | .ok rv => .ok (.slice rv)
  | .error e => .error e

/-- The panic of `encodeValue` on the dynamic type of a `value.Value`.  The
message prints that type with the verb `%T`; for the types declared outside the
sources at hand, whose names are not known here, `value.Value` stands in the
place of the name. -/
def valuePanic : Value → Failure
  | .missing _ => Failure.panic "Unable to encode type value.missingValue to map key"
  | .other _ => Failure.panic "Unable to encode type value.Value to map key"

/-- A store of ten rows in (key, document id) order, several rows to a key. -/
def sampleStore : List ViewRow :=
  [numberRow 1 [97], numberRow 1 [98], numberRow 1 [99], numberRow 2 [97], numberRow 2 [100],
    numberRow 3 [101], numberRow 4 [97], numberRow 4 [98], numberRow 4 [99], numberRow 4 [100]]

/-! ## The missing value -/

/-- Modelled from the spec: the type tags of the value package, in the order
missing < null < boolean < number < string < array < object. -/
inductive ValueType where
  | MISSING
  | NULL
  | BOOLEAN
  | NUMBER
  | STRING
  | ARRAY
  | OBJECT
  deriving DecidableEq, Repr

/-- Modelled from the spec: the integer of a type tag, ascending in the order of
the tags. -/
def ValueType.toInt : ValueType → Int
  | .MISSING => 0
  | .NULL => 1
  | .BOOLEAN => 2
  | .NUMBER => 3
  | .STRING => 4
  | .ARRAY => 5
  | .OBJECT => 6

/-- Modelled from the spec: the tag of a non-missing value, read off its
`Actual()` projection; a projection of no JSON kind counts as an object. -/
def typeOfActual : GoVal → ValueType
  | .nil => .NULL
  | .bool _ => .BOOLEAN
  | .int _ => .NUMBER
  | .int64 _ => .NUMBER
  | .float64 _ => .NUMBER
  | .string _ => .STRING
  | .docID _ => .STRING
  | .floats _ => .ARRAY
  | .strings _ => .ARRAY
  | .slice _ => .ARRAY
  | .map _ => .OBJECT
  | .missingValue _ => .OBJECT
  | .value _ => .OBJECT

/-- The method `Type()`: `missingValue.Type` returns `MISSING`; the other
implementations are modelled from the spec by `typeOfActual`. -/
def Value.Type : Value → ValueType
  | .missing _ => ValueType.MISSING
  | .other actual => typeOfActual actual

/-- The method `missingValue.Equals`. -/
def missingValue.Equals (_this : GoString) (other : Value) : Bool :=
  decide (other.Type = ValueType.MISSING)

/-- The method `missingValue.Collate`: `int(MISSING - other.Type())`. -/
def missingValue.Collate (_this : GoString) (other : Value) : Int :=
  ValueType.MISSING.toInt - other.Type.toInt

/-- The bytes of a string literal of one-byte characters. -/
def goString (s : String) : GoString := s.toList.map (fun c => Fin.ofNat c.toNat)

/-- The method `missingValue.Error`; `fmt.Sprintf` with the verb `%s` puts the
string in as it is. -/
def missingValue.Error (this : GoString) : GoString :=
  if this ≠ [] then goString "Missing field or index " ++ this ++ goString "."
  else goString "Missing field or index."

/-- The function `missingField`: the conversion `missingValue(field)`. -/
def missingField (field : GoString) : GoString := field

/-- The function `missingIndex`: `missingValue(string(index))`, where the
conversion of an integer to a string gives the UTF-8 form of the code point of
that number, U+FFFD when it is none. -/
def missingIndex (index : Int) : GoString := stringOfRune index

/-- The method `missingValue.Field`. -/
def missingValue.Field (_this : GoString) (field : GoString) : Value × Bool :=
  (Value.missing (missingField field), false)

/-- The method `missingValue.Index`. -/
def missingValue.Index (_this : GoString) (index : Int) : Value × Bool :=
  (Value.missing (missingIndex index), false)

/-- The variable `MISSING_VALUE`, the missing value without annotation. -/
def MISSING_VALUE : Value := Value.missing []

/-- The method `Error()` of a value that is a `missingValue`. -/
def Value.Error : Value → Option GoString
  | .missing path => some (missingValue.Error path)
  | .other _ => none

/-- Modelled from the spec: an integer written in decimal. -/
def decimal (i : Int) : GoString := goString (toString i)

/-! ## The fetches of a walk -/

/-- One iteration of the loop of `WalkViewInBatches`: the options its fetch was
issued with, how the fetch ended, and the rows of its page sent on `result`. -/
structure Fetch where
  options : Options
  outcome : ViewResult
  sent : List ViewRow

/-- The loop of `WalkViewInBatches` as in `walkLoop`, keeping a record of every
iteration instead of the deliveries. -/
def walkFetches (View : Nat → Options → ViewResult) (batchSize limit : Int) :
    Nat → Nat → Options → Int → List Fetch
  | 0, _, _, _ => []
  | fuel + 1, call, options, numRead =>
    match View call options with
    | .panicked msg => [⟨options, .panicked msg, []⟩]
    | .failed err => [⟨options, .failed err, []⟩]
    | .rows rows =>
      let sent := emitRows batchSize 0 rows numRead
      if (rows.length : Int) > batchSize ∧ (limit = 0 ∨ (limit ≠ 0 ∧ sent.2 < limit)) then
        match rowIndex rows batchSize with
        | none => [⟨options, .rows rows, sent.1⟩]
        | some next =>
          ⟨options, .rows rows, sent.1⟩ ::
            walkFetches View batchSize limit fuel (call + 1)
              ((options.set "startkey" next.Key).set "startkey_docid" (.docID next.ID)) sent.2
      else [⟨options, .rows rows, sent.1⟩]

/-- The iterations of the loop in a call of `WalkViewInBatches`, as in
`walkBody`; none when `options` is a nil map. -/
def fetchesOf (View : Nat → Options → ViewResult) (options : Option Options)
    (batchSize limit : Int) (fuel : Nat) : List Fetch :=
  match options with
  | none => []
  | some options =>
    walkFetches View (effectiveBatchSize batchSize limit) limit fuel 0
      (options.set "limit" (.int64 (wrapInt64 (effectiveBatchSize batchSize limit + 1)))) 0

/-! ## Strings as code points -/

/-- The code points of a string in order, as `for _, r := range s` yields them. -/
def runesOf (s : GoString) : List Nat := (rangeString s).map Prod.snd

/-- Whether the first `fuel` steps of `range` over `s` meet no invalid byte: a
step at an invalid byte is the one that yields `(RuneError, 1)`. -/
def validUTF8From : Nat → GoString → Bool
  | 0, _ => true
  | _ + 1, [] => true
  | fuel + 1, b :: rest =>
    let rw := decodeRune (b :: rest)
    decide (rw ≠ (RuneError, 1)) && validUTF8From fuel ((b :: rest).drop rw.2)

/-- Validity of a string as UTF-8, as `utf8.ValidString` decides it. -/
def validUTF8 (s : GoString) : Bool := validUTF8From s.length s

/-- The number of bytes in the UTF-8 form of a code point, as `utf8.RuneLen`. -/
def runeLen (r : Nat) : Nat :=
  if r < 0x80 then 1 else if r < 0x800 then 2 else if r < 0x10000 then 3 else 4

/-- Each code point followed by one zero for every further byte of its UTF-8
form. -/
def paddedRunes : List Nat → List ℚ
  | [] => []
  | r :: rest => (r : ℚ) :: (List.replicate (runeLen r - 1) 0 ++ paddedRunes rest)

/-- Lexicographic comparison of two sequences, element by element under `cmp`,
a proper prefix sorting first. -/
def lexCompare {α : Type} (cmp : α → α → Ordering) : List α → List α → Ordering
  | [], [] => Ordering.eq
  | [], _ :: _ => Ordering.lt
  | _ :: _, [] => Ordering.gt
  | x :: xs, y :: ys => (cmp x y).then (lexCompare cmp xs ys)

/-! ## The Distinct operator -/

/-- Modelled from the spec: the type `value.Set` is declared in the value
package, outside the sources at hand; a set is known here by the capacity it
was made with and the values put into it. -/
structure value.Set where
  capacity : Nat
  values : List Value

/-- The allocated sets, a `*value.Set` being the position of its set. -/
structure Heap where
  sets : List value.Set

/-- Modelled from the spec: `value.NewSet` is declared in the value package,
outside the sources at hand; it allocates an empty set of the given capacity
and returns the pointer to it. -/
def value.NewSet (h : Heap) (capacity : Nat) : Heap × Nat :=
  (⟨h.sets ++ [⟨capacity, []⟩]⟩, h.sets.length)

/-- The struct `Distinct`.  The embedded `base` is declared outside the sources
at hand and is a parameter; `set` is a pointer, `none` being nil. -/
structure Distinct (Base : Type) where
  base : Base
  set : Option Nat
  collect : Bool

/-- The constant `_DISTINCT_CAP`. -/
def _DISTINCT_CAP : Nat := 1024

/-- The function `NewDistinct`; `newBase` is the result of `newBase()` and
`outputSelf` the assignment `rv.output = rv` on the embedded base. -/
def NewDistinct {Base : Type} (newBase : Base) (outputSelf : Base → Base) (h : Heap)
    (collect : Bool) : Heap × Distinct Base :=
  let s := value.NewSet h _DISTINCT_CAP
  (s.1, { base := outputSelf newBase, set := some s.2, collect := collect })

/-- The method `Distinct.Copy`; `copy` is `base.copy`.  The composite literal
names `base` and `set` only, so `collect` is the zero value `false`. -/
def Distinct.Copy {Base : Type} (copy : Base → Base) (h : Heap) (this : Distinct Base) :
    Heap × Distinct Base :=
  let s := value.NewSet h _DISTINCT_CAP
  (s.1, { base := copy this.base, set := some s.2, collect := false })

/-! ## Helper lemmas -/

theorem Options.get_set_self (o : Options) (name : String) (v : GoVal) :
    (o.set name v).get name = some v := by
  induction o with
  | nil => simp [Options.set, Options.get]
  | cons p rest ih =>
    obtain ⟨k, w⟩ := p
    by_cases h : k = name
    · simp [Options.set, Options.get, h]
    · simp [Options.set, Options.get, h, ih]

theorem Options.get_set_other (o : Options) (name other : String) (v : GoVal)
    (h : name ≠ other) : (o.set name v).get other = o.get other := by
  induction o with
  | nil => simp [Options.set, Options.get, h]
  | cons p rest ih =>
    obtain ⟨k, w⟩ := p
    by_cases hk : k = name
    · subst hk
      simp [Options.set, Options.get, h]
    · by_cases hk2 : k = other
      · subst hk2
        simp [Options.set, Options.get, hk]
      · simp [Options.set, Options.get, hk, hk2, ih]



/-! ### Inclusion semantics -/

theorem compare_docid_max {id : GoString} (h : id < MAX_ID) : compare id MAX_ID = Ordering.lt :=
  compare_lt_iff_lt.mpr h

theorem compare_docid_min {id : GoString} (h : id ≠ []) : compare id MIN_ID = Ordering.gt := by
  apply compare_gt_iff_gt.mpr
  cases id with
  | nil => exact absurd rfl h
  | cons x xs => exact List.Lex.nil

theorem lowerBound_exclusive (cmp : GoVal → GoVal → Ordering) (k sk : GoVal) {id : GoString}
    (h : id < MAX_ID) :
    cmpKeyID cmp k id sk MAX_ID ≠ Ordering.lt ↔ cmp k sk = Ordering.gt := by
  unfold cmpKeyID
  rw [compare_docid_max h]
  cases cmp k sk <;> simp [Ordering.then]

theorem upperBound_exclusive (cmp : GoVal → GoVal → Ordering) (k ek : GoVal) {id : GoString}
    (h : id ≠ []) :
    cmpKeyID cmp k id ek MIN_ID ≠ Ordering.gt ↔ cmp k ek = Ordering.lt := by
  unfold cmpKeyID
  rw [compare_docid_min h]
  cases cmp k ek <;> simp [Ordering.then]

theorem selects_both (cmp : GoVal → GoVal → Ordering) (sk ek : GoVal) (row : ViewRow) :
    selects cmp [("startkey", sk), ("endkey", ek)] row = true ↔
      cmp row.Key sk ≠ Ordering.lt ∧ cmp row.Key ek ≠ Ordering.gt := by
  simp [selects, atOrAfterStart, atOrBeforeEnd, Options.get]

theorem selects_neither (cmp : GoVal → GoVal → Ordering) (sk ek : GoVal) (row : ViewRow)
    (h₁ : row.ID ≠ []) (h₂ : row.ID < MAX_ID) :
    selects cmp [("startkey", sk), ("startkey_docid", .docID MAX_ID), ("endkey", ek),
      ("endkey_docid", .docID MIN_ID)] row = true ↔
      cmp row.Key sk = Ordering.gt ∧ cmp row.Key ek = Ordering.lt := by
  have a := lowerBound_exclusive cmp row.Key sk h₂
  have b := upperBound_exclusive cmp row.Key ek h₁
  simp only [selects, atOrAfterStart, atOrBeforeEnd, Options.get, Bool.and_eq_true]
  simp [a, b]

theorem selects_low (cmp : GoVal → GoVal → Ordering) (sk ek : GoVal) (row : ViewRow)
    (h₁ : row.ID ≠ []) :
    selects cmp [("startkey", sk), ("endkey", ek), ("endkey_docid", .docID MIN_ID)] row = true ↔
      cmp row.Key sk ≠ Ordering.lt ∧ cmp row.Key ek = Ordering.lt := by
  have b := upperBound_exclusive cmp row.Key ek h₁
  simp only [selects, atOrAfterStart, atOrBeforeEnd, Options.get, Bool.and_eq_true]
  simp [b]

theorem selects_high (cmp : GoVal → GoVal → Ordering) (sk ek : GoVal) (row : ViewRow)
    (h₂ : row.ID < MAX_ID) :
    selects cmp [("startkey", sk), ("startkey_docid", .docID MAX_ID), ("endkey", ek)] row = true ↔
      cmp row.Key sk = Ordering.gt ∧ cmp row.Key ek ≠ Ordering.gt := by
  have a := lowerBound_exclusive cmp row.Key sk h₂
  simp only [selects, atOrAfterStart, atOrBeforeEnd, Options.get, Bool.and_eq_true]
  simp [a]

/-! ### The encoder on supported values -/

theorem supported_mapIndex (obj : List (GoString × GoVal)) (key : GoString)
    (h : supportedFields obj = true) : supported (mapIndex obj key) = true := by
  induction obj with
  | nil => simp [mapIndex, supported]
  | cons p rest ih =>
    obtain ⟨k, v⟩ := p
    simp only [supportedFields, Bool.and_eq_true] at h
    simp only [mapIndex]
    split
    · exact h.1.2
    · exact ih h.2

theorem encodeObjectVals_ok (obj : List (GoString × GoVal))
    (h : ∀ key, ∃ k, encodeValue (mapIndex obj key) = .ok k) (keys : List GoString) :
    ∃ vals, encodeObjectVals obj keys = .ok vals ∧ vals.length = keys.length := by
  induction keys with
  | nil => exact ⟨[], by simp [encodeObjectVals]⟩
  | cons key keys ih =>
    obtain ⟨k, hk⟩ := h key
    obtain ⟨vals, hv, hl⟩ := ih
    exact ⟨k :: vals, by simp [encodeObjectVals, hk, hv], by simp [hl]⟩

theorem encodeValue_ok_aux (n : Nat) : ∀ v : GoVal, sizeOf v ≤ n → supported v = true →
    ∃ rest, encodeValue v = .ok (.slice (.int (64 + 32 * (kindRank v : Int)) :: rest)) := by
  induction n with
  | zero =>
    intro v hv
    cases v <;> simp at hv
  | succ n ih =>
    intro v hv hs
    cases v with
    | nil => exact ⟨[], by simp [encodeValue, kindRank, TYPE_NULL]⟩
    | bool b => exact ⟨_, by simp [encodeValue, kindRank, TYPE_BOOLEAN]; rfl⟩
    | float64 x => exact ⟨_, by simp [encodeValue, kindRank, TYPE_NUMBER]; rfl⟩
    | string s => exact ⟨_, by simp [encodeValue, kindRank, TYPE_STRING]; rfl⟩
    | slice xs => exact ⟨_, by simp [encodeValue, kindRank, TYPE_ARRAY]; rfl⟩
    | map obj =>
      have hf : supportedFields obj = true := by simpa [supported] using hs
      have hall : ∀ key, ∃ k, encodeValue (mapIndex obj key) = .ok k := by
        intro key
        have h1 := sizeOf_mapIndex_le obj key
        have h2 : sizeOf (GoVal.map obj) = 1 + sizeOf obj := by simp
        obtain ⟨rest, hr⟩ := ih (mapIndex obj key) (by omega) (supported_mapIndex obj key hf)
        exact ⟨_, hr⟩
      obtain ⟨vals, hv', _⟩ := encodeObjectVals_ok obj hall (sortStrings (obj.map Prod.fst))
      exact ⟨_, by simp [encodeValue, encodeObjectAsCompoundArray, hv', kindRank, TYPE_OBJECT]; rfl⟩
    | int _ => simp [supported] at hs
    | int64 _ => simp [supported] at hs
    | docID _ => simp [supported] at hs
    | floats _ => simp [supported] at hs
    | strings _ => simp [supported] at hs
    | missingValue _ => simp [supported] at hs
    | value _ => simp [supported] at hs

/-- On a supported value the encoder returns a key that starts with the tag of
the value's kind. -/
theorem encodeValue_ok_of_supported (v : GoVal) (h : supported v = true) :
    ∃ rest, encodeValue v = .ok (.slice (.int (64 + 32 * (kindRank v : Int)) :: rest)) :=
  encodeValue_ok_aux (sizeOf v) v (le_refl _) h

/-! ### Type order -/

/-- C8: for two supported values of different kinds the type tag heading the
key of the first is smaller than the tag heading the key of the second exactly
when the first kind precedes the second in null < boolean < number < string <
array < object, and an element-by-element comparison of the two keys is
decided by the kinds alone. -/
theorem C8_type_order (a b : GoVal) (ha : supported a = true) (hb : supported b = true)
    (hk : kindRank a ≠ kindRank b) :
    ∃ ta ra tb rb, encodeValue a = .ok (.slice (.int ta :: ra)) ∧
      encodeValue b = .ok (.slice (.int tb :: rb)) ∧
      (ta < tb ↔ kindRank a < kindRank b) ∧
      ∀ cmpElem : GoVal → GoVal → Ordering,
        (∀ m n : Int, cmpElem (.int m) (.int n) = compare m n) →
        compareElementwise cmpElem (.int ta :: ra) (.int tb :: rb) =
          compare (kindRank a) (kindRank b) := by
  obtain ⟨ra, hra⟩ := encodeValue_ok_of_supported a ha
  obtain ⟨rb, hrb⟩ := encodeValue_ok_of_supported b hb
  refine ⟨_, ra, _, rb, hra, hrb, by omega, ?_⟩
  intro cmpElem hc
  simp only [compareElementwise, hc]
  rcases Nat.lt_or_gt_of_ne hk with h | h
  · have h1 : compare (64 + 32 * (kindRank a : Int)) (64 + 32 * (kindRank b : Int)) = .lt :=
      compare_lt_iff_lt.mpr (by omega)
    have h2 : compare (kindRank a) (kindRank b) = .lt := compare_lt_iff_lt.mpr h
    rw [h1, h2]; rfl
  · have h1 : compare (64 + 32 * (kindRank a : Int)) (64 + 32 * (kindRank b : Int)) = .gt :=
      compare_gt_iff_gt.mpr (by omega)
    have h2 : compare (kindRank a) (kindRank b) = .gt := compare_gt_iff_gt.mpr h
    rw [h1, h2]; rfl

/-- C8 at a concrete input: the string "b" against the array [null]. -/
theorem C8_type_order_witness :
    ∃ ta ra tb rb, encodeValue (.string [98]) = .ok (.slice (.int ta :: ra)) ∧
      encodeValue (.slice [.nil]) = .ok (.slice (.int tb :: rb)) ∧
      (ta < tb ↔ kindRank (.string [98]) < kindRank (.slice [.nil])) ∧
      ∀ cmpElem : GoVal → GoVal → Ordering,
        (∀ m n : Int, cmpElem (.int m) (.int n) = compare m n) →
        compareElementwise cmpElem (.int ta :: ra) (.int tb :: rb) =
          compare (kindRank (.string [98])) (kindRank (.slice [.nil])) :=
  C8_type_order (.string [98]) (.slice [.nil]) (by simp [supported])
    (by simp [supported, supportedList]) (by decide)

/-! ### Object field order -/

theorem mapIndex_of_not_mem (obj : List (GoString × GoVal)) (key : GoString)
    (h : key ∉ obj.map Prod.fst) : mapIndex obj key = GoVal.nil := by
  induction obj with
  | nil => rfl
  | cons p rest ih =>
    obtain ⟨k, v⟩ := p
    simp only [List.map_cons, List.mem_cons, not_or] at h
    simp [mapIndex, Ne.symm h.1, ih h.2]

theorem mapIndex_of_mem (obj : List (GoString × GoVal)) (key : GoString) (v : GoVal)
    (hn : (obj.map Prod.fst).Nodup) (h : (key, v) ∈ obj) : mapIndex obj key = v := by
  induction obj with
  | nil => simp at h
  | cons p rest ih =>
    obtain ⟨k, w⟩ := p
    simp only [List.map_cons, List.nodup_cons] at hn
    simp only [List.mem_cons, Prod.mk.injEq] at h
    rcases h with ⟨rfl, rfl⟩ | h
    · simp [mapIndex]
    · have hk : k ≠ key := by
        rintro rfl
        exact hn.1 (List.mem_map_of_mem Prod.fst h)
      simp [mapIndex, hk, ih hn.2 h]

theorem mapIndex_perm (o₁ o₂ : List (GoString × GoVal)) (hn : (o₁.map Prod.fst).Nodup)
    (hp : o₁.Perm o₂) (key : GoString) : mapIndex o₁ key = mapIndex o₂ key := by
  have hn₂ : (o₂.map Prod.fst).Nodup := (hp.map Prod.fst).nodup_iff.mp hn
  by_cases hk : key ∈ o₁.map Prod.fst
  · obtain ⟨⟨k, v⟩, hm, rfl⟩ := List.mem_map.mp hk
    rw [mapIndex_of_mem o₁ k v hn hm, mapIndex_of_mem o₂ k v hn₂ (hp.mem_iff.mp hm)]
  · have hk₂ : key ∉ o₂.map Prod.fst := fun h => hk ((hp.map Prod.fst).mem_iff.mpr h)
    rw [mapIndex_of_not_mem o₁ key hk, mapIndex_of_not_mem o₂ key hk₂]

theorem sortStrings_perm (k₁ k₂ : List GoString) (hp : k₁.Perm k₂) :
    sortStrings k₁ = sortStrings k₂ := by
  unfold sortStrings
  apply List.eq_of_perm_of_sorted (r := fun a b : GoString => a ≤ b)
  · exact (List.perm_insertionSort _ k₁).trans (hp.trans (List.perm_insertionSort _ k₂).symm)
  · exact List.sorted_insertionSort _ k₁
  · exact List.sorted_insertionSort _ k₂

theorem encodeObjectVals_congr (o₁ o₂ : List (GoString × GoVal))
    (h : ∀ key, mapIndex o₁ key = mapIndex o₂ key) (keys : List GoString) :
    encodeObjectVals o₁ keys = encodeObjectVals o₂ keys := by
  induction keys with
  | nil => simp [encodeObjectVals]
  | cons key keys ih =>
    rw [encodeObjectVals, encodeObjectVals, h key, ih]

/-- C9: two objects that hold the same fields with the same values, listed in
any two orders, have the same physical key. -/
theorem C9_object_field_order (o₁ o₂ : List (GoString × GoVal))
    (hn : (o₁.map Prod.fst).Nodup) (hp : o₁.Perm o₂) :
    encodeValue (.map o₁) = encodeValue (.map o₂) := by
  have hk := sortStrings_perm _ _ (hp.map Prod.fst)
  have hv := encodeObjectVals_congr o₁ o₂ (mapIndex_perm o₁ o₂ hn hp)
  simp only [encodeValue, encodeObjectAsCompoundArray, hk, hv]

/-- C9 at a concrete input: the object with the fields b = null, a = true in its two
field orders, with the key both orders produce. -/
theorem C9_object_field_order_witness :
    encodeValue (.map [([98], .nil), ([97], .bool true)]) =
        encodeValue (.map [([97], .bool true), ([98], .nil)]) ∧
      encodeValue (.map [([97], .bool true), ([98], .nil)]) =
        .ok (.slice [.int 224, .slice [.strings [[97], [98]],
          .slice [.slice [.int 96, .bool true], .slice [.int 64]]]]) := by
  refine ⟨C9_object_field_order [([98], .nil), ([97], .bool true)]
    [([97], .bool true), ([98], .nil)] (by decide) (List.Perm.swap _ _ _), ?_⟩
  have hs : sortStrings [[97], [98]] = [[97], [98]] := by decide
  simp [encodeValue, encodeObjectAsCompoundArray, encodeObjectVals, mapIndex, hs,
    TYPE_OBJECT, TYPE_BOOLEAN, TYPE_NULL]

/-! ### Error delivery of the walker -/

theorem resultsOf_map_result (rows : List ViewRow) :
    resultsOf (rows.map Event.result) = rows := by
  induction rows with
  | nil => rfl
  | cons r rs ih => simp [resultsOf, ih]

theorem resultsOf_append (xs ys : List Event) :
    resultsOf (xs ++ ys) = resultsOf xs ++ resultsOf ys := by
  induction xs with
  | nil => rfl
  | cons e es ih => cases e <;> simp [resultsOf, ih]

theorem errorsOf_map_result (rows : List ViewRow) :
    errorsOf (rows.map Event.result) = [] := by
  induction rows with
  | nil => rfl
  | cons r rs ih => simp [errorsOf, ih]

theorem errorsOf_append (xs ys : List Event) :
    errorsOf (xs ++ ys) = errorsOf xs ++ errorsOf ys := by
  induction xs with
  | nil => rfl
  | cons e es ih => cases e <;> simp [errorsOf, ih]

/-- The deliveries of the loop are rows, followed by the error of a failed
fetch when that is how the loop ended. -/
theorem walkLoop_shape (View : Nat → Options → ViewResult) (batchSize limit : Int) (fuel : Nat) :
    ∀ (call : Nat) (options : Options) (numRead : Int),
      ∃ rows : List ViewRow,
        (walkLoop View batchSize limit fuel call options numRead).1 =
          rows.map Event.result ++
            (if (walkLoop View batchSize limit fuel call options numRead).2 = Exit.fetchFailed
              then [Event.errs "Unable to access view"] else []) := by
  induction fuel with
  | zero => intro call options numRead; exact ⟨[], by simp [walkLoop]⟩
  | succ fuel ih =>
    intro call options numRead
    rw [walkLoop]
    cases hv : View call options with
    | panicked msg => exact ⟨[], by simp⟩
    | failed err => exact ⟨[], by simp⟩
    | rows rows =>
      simp only
      split
      · cases hi : rowIndex rows batchSize with
        | none => exact ⟨(emitRows batchSize 0 rows numRead).1, by simp⟩
        | some next =>
          simp only
          obtain ⟨more, hm⟩ := ih (call + 1)
            ((options.set "startkey" next.Key).set "startkey_docid" (.docID next.ID))
            (emitRows batchSize 0 rows numRead).2
          refine ⟨(emitRows batchSize 0 rows numRead).1 ++ more, ?_⟩
          rw [hm]
          simp
      · exact ⟨(emitRows batchSize 0 rows numRead).1, by simp⟩

theorem rowIndex_isSome (rows : List ViewRow) (batchSize : Int) (h₀ : 0 ≤ batchSize)
    (h : (rows.length : Int) > batchSize) : ∃ next, rowIndex rows batchSize = some next := by
  have hlt : batchSize.toNat < rows.length := by omega
  exact ⟨rows[batchSize.toNat], by simp [rowIndex, not_lt.mpr h₀, List.getElem?_eq_getElem hlt]⟩

/-- What lies behind the two failing ends of the loop: a fetch that returned an
error, and a fetch that panicked or a negative batch size at the index
expression `vres.Rows[batchSize]`. -/
theorem walkLoop_exit_cause (View : Nat → Options → ViewResult) (batchSize limit : Int)
    (fuel : Nat) : ∀ (call : Nat) (options : Options) (numRead : Int),
      ((walkLoop View batchSize limit fuel call options numRead).2 = Exit.fetchFailed →
        ∃ c o err, View c o = ViewResult.failed err) ∧
      ((walkLoop View batchSize limit fuel call options numRead).2 = Exit.panicked →
        (∃ c o msg, View c o = ViewResult.panicked msg) ∨ batchSize < 0) := by
  induction fuel with
  | zero => intro call options numRead; simp [walkLoop]
  | succ fuel ih =>
    intro call options numRead
    rw [walkLoop]
    cases hv : View call options with
    | panicked msg => exact ⟨by simp, fun _ => Or.inl ⟨call, options, msg, hv⟩⟩
    | failed err => exact ⟨fun _ => ⟨call, options, err, hv⟩, by simp⟩
    | rows rows =>
      simp only
      split
      · rename_i hc
        cases hi : rowIndex rows batchSize with
        | none =>
          refine ⟨by simp, fun _ => Or.inr ?_⟩
          by_contra hneg
          obtain ⟨next, hn⟩ := rowIndex_isSome rows batchSize (not_lt.mp hneg) hc.1
          rw [hn] at hi
          exact absurd hi (by simp)
        | some next => exact ih _ _ _
      · simp

/-- A walk delivers rows and then at most one error, never a row after an
error.  When the body ends on a failed fetch or on a panic, exactly one error
follows the rows sent up to then and the walk has returned; when the body ends
otherwise, no error is delivered.  A failed-fetch end comes from a fetch that
returned an error; a panicking end from a nil option map, a fetch that
panicked, or a negative batch size at `vres.Rows[batchSize]`. -/
theorem walk_single_error (View : Nat → Options → ViewResult) (options : Option Options)
    (batchSize limit : Int) (fuel : Nat) :
    ∃ (rows : List ViewRow) (errs : List String),
      (WalkViewInBatches View options batchSize limit fuel).events =
        rows.map Event.result ++ errs.map Event.errs ∧
      errs.length ≤ 1 ∧
      rows = resultsOf (walkBody View options batchSize limit fuel).1 ∧
      (((walkBody View options batchSize limit fuel).2 = Exit.fetchFailed ∨
          (walkBody View options batchSize limit fuel).2 = Exit.panicked) →
        errs.length = 1 ∧ (WalkViewInBatches View options batchSize limit fuel).closed = true) ∧
      (((walkBody View options batchSize limit fuel).2 = Exit.done ∨
          (walkBody View options batchSize limit fuel).2 = Exit.running) → errs = []) ∧
      ((walkBody View options batchSize limit fuel).2 = Exit.fetchFailed →
        ∃ c o err, View c o = ViewResult.failed err) ∧
      ((walkBody View options batchSize limit fuel).2 = Exit.panicked →
        options = none ∨ (∃ c o msg, View c o = ViewResult.panicked msg) ∨
          effectiveBatchSize batchSize limit < 0) := by
  cases options with
  | none =>
    exact ⟨[], ["Panic In View Walking"], by simp [WalkViewInBatches, walkBody],
      by simp, by simp [walkBody, resultsOf], by simp [WalkViewInBatches, walkBody],
      by simp [walkBody], by simp [walkBody], by simp⟩
  | some options =>
    obtain ⟨rows, hr⟩ := walkLoop_shape View (effectiveBatchSize batchSize limit) limit fuel 0
      (options.set "limit" (.int64 (wrapInt64 (effectiveBatchSize batchSize limit + 1)))) 0
    have hc := walkLoop_exit_cause View (effectiveBatchSize batchSize limit) limit fuel 0
      (options.set "limit" (.int64 (wrapInt64 (effectiveBatchSize batchSize limit + 1)))) 0
    simp only [WalkViewInBatches, walkBody]
    generalize walkLoop View (effectiveBatchSize batchSize limit) limit fuel 0
      (options.set "limit" (.int64 (wrapInt64 (effectiveBatchSize batchSize limit + 1)))) 0
      = out at hr hc
    obtain ⟨sent, exit⟩ := out
    simp only at hr
    cases exit with
    | done =>
      simp only [reduceIte, reduceCtorEq, List.append_nil] at hr
      subst hr
      exact ⟨rows, [], by simp, by simp, by simp [resultsOf_map_result], by simp, by simp, by simp, by simp⟩
    | running =>
      simp only [reduceIte, reduceCtorEq, List.append_nil] at hr
      subst hr
      exact ⟨rows, [], by simp, by simp, by simp [resultsOf_map_result], by simp, by simp, by simp, by simp⟩
    | fetchFailed =>
      simp only [reduceIte] at hr
      subst hr
      exact ⟨rows, ["Unable to access view"], by simp, by simp,
        by simp [resultsOf_append, resultsOf_map_result, resultsOf], by simp, by simp,
        fun _ => hc.1 rfl, by simp⟩
    | panicked =>
      simp only [reduceIte, reduceCtorEq, List.append_nil] at hr
      subst hr
      exact ⟨rows, ["Panic In View Walking"], by simp, by simp,
        by simp [resultsOf_map_result], by simp, by simp, by simp,
        fun _ => Or.inr (hc.2 rfl)⟩

/-! ### The decoder -/

theorem convert_pair (t : ℚ) (p : GoVal) :
    convertCouchbaseViewKeyEntryToValue (.slice [.float64 t, p]) =
      if t = 64 then .ok (NewValue GoVal.nil)
      else if t = 96 ∨ t = 128 ∨ t = 192 then .ok (NewValue p)
      else if t = 160 then
        match p with
        | .slice keyStringValue =>
          match decodeNumericArrayAsString keyStringValue with
          | .ok decodedString => .ok (NewValue (.string decodedString))
          | .error err => .error err
        | _ => .error (.error "key entry type string value must be array")
      else if t = 224 then
        match p with
        | .slice keyObjectValue =>
          match decodeCompoundArrayAsObject keyObjectValue with
          | .ok decodedObject => .ok (NewValue (.map decodedObject))
          | .error err => .error err
        | _ => .error (.error "key entry type object value must be array")
      else .error (.error "Unkown type of key entry") := by
  rw [convertCouchbaseViewKeyEntryToValue]
  simp only [List.length_cons, List.length_nil, sliceIndex, TYPE_NULL, TYPE_BOOLEAN,
    TYPE_NUMBER, TYPE_STRING, TYPE_ARRAY, TYPE_OBJECT]
  by_cases h64 : t = 64
  · simp [h64]
  by_cases h3 : t = 96 ∨ t = 128 ∨ t = 192
  · simp [h64, h3]
  by_cases h160 : t = 160
  · subst h160
    norm_num
    cases p <;> simp
  by_cases h224 : t = 224
  · subst h224
    norm_num
    split
    · rename_i h; simp at h
    · rename_i h; simp at h; subst h; simp
    · rename_i h1 h2
      simp at h2
      subst h2
      cases p <;> simp at h1 ⊢
  · simp [h64, h3, h160, h224]

theorem decodeNumericArrayLoop_total (na : List GoVal) : ∀ rv : GoString,
    (∃ s, decodeNumericArrayLoop rv na = .ok s) ∨
      decodeNumericArrayLoop rv na = .error (.error "numeric array contained non-number") := by
  induction na with
  | nil => intro rv; exact Or.inl ⟨rv, rfl⟩
  | cons x xs ih =>
    intro rv
    cases x <;> simp [decodeNumericArrayLoop]
    exact ih _

theorem decodeCompoundLoop_total (ca : List GoVal) (midpoint : Nat)
    (hlen : ca.length = 2 * midpoint)
    (hall : ∀ v ∈ ca, (∃ d, convertCouchbaseViewKeyEntryToValue v = .ok d) ∨
      ∃ msg, convertCouchbaseViewKeyEntryToValue v = .error (.error msg)) :
    ∀ (k i : Nat) (rv : List (GoString × GoVal)), midpoint - i = k →
      (∃ m, decodeCompoundLoop ca midpoint i rv = .ok m) ∨
        ∃ msg, decodeCompoundLoop ca midpoint i rv = .error (.error msg) := by
  intro k
  induction k with
  | zero =>
    intro i rv hk
    rw [decodeCompoundLoop]
    have : ¬ i < midpoint := by omega
    simp [this]
  | succ k ih =>
    intro i rv hk
    rw [decodeCompoundLoop]
    have hi : i < midpoint := by omega
    simp only [hi, dite_true]
    have h1 : i < ca.length := by omega
    have h2 : i + midpoint < ca.length := by omega
    have e1 : sliceIndex ca i = some ca[i] := by simp [sliceIndex, List.getElem?_eq_getElem h1]
    have e2 : sliceIndex ca (i + midpoint) = some ca[i + midpoint] := by
      simp [sliceIndex, List.getElem?_eq_getElem h2]
    rw [e1]
    cases hx : ca[i] with
    | string key =>
      simp only
      split
      · rename_i h; rw [e2] at h; simp at h
      · rename_i val h
        rcases hall val (List.getElem?_mem h) with ⟨d, hd⟩ | ⟨msg, hm⟩
        · rw [hd]
          exact ih (i + 1) _ (by omega)
        · rw [hm]
          exact Or.inr ⟨msg, rfl⟩
    | _ => exact Or.inr ⟨_, rfl⟩

theorem convert_total_aux (n : Nat) : ∀ keyEntry : GoVal, sizeOf keyEntry ≤ n →
    (∃ d, convertCouchbaseViewKeyEntryToValue keyEntry = .ok d) ∨
      ∃ msg, convertCouchbaseViewKeyEntryToValue keyEntry = .error (.error msg) := by
  induction n with
  | zero =>
    intro v hv
    cases v <;> simp at hv
  | succ n ih =>
    intro v hv
    cases v with
    | slice xs =>
      by_cases hl : xs.length = 2
      · match xs, hl with
        | [t, p], _ =>
          cases t with
          | float64 x =>
            rw [convert_pair]
            by_cases h64 : x = 64
            · exact Or.inl ⟨NewValue GoVal.nil, by simp [h64]⟩
            by_cases h3 : x = 96 ∨ x = 128 ∨ x = 192
            · exact Or.inl ⟨NewValue p, by simp [h64, h3]⟩
            by_cases h160 : x = 160
            · subst h160
              norm_num
              cases p with
              | slice ks =>
                rcases decodeNumericArrayLoop_total ks [] with ⟨s, hs⟩ | he
                · simp [decodeNumericArrayAsString, hs]
                · simp [decodeNumericArrayAsString, he]
              | _ => simp
            by_cases h224 : x = 224
            · subst h224
              norm_num
              cases p with
              | slice ca =>
                have hsz : ∀ v ∈ ca, sizeOf v ≤ n := by
                  intro v hm
                  have := List.sizeOf_lt_of_mem hm
                  simp at hv
                  omega
                simp only
                rw [decodeCompoundArrayAsObject]
                by_cases hpar : ca.length % 2 = 1
                · simp [hpar]
                · have hlen : ca.length = 2 * (ca.length / 2) := by omega
                  rcases decodeCompoundLoop_total ca (ca.length / 2) hlen
                    (fun v hm => ih v (hsz v hm)) _ 0 [] rfl with ⟨m, hm⟩ | ⟨msg, hm⟩
                  · simp [hm, hpar]
                  · simp [hm, hpar]
              | _ => simp
            · exact Or.inr ⟨"Unkown type of key entry", by simp [h64, h3, h160, h224]⟩
          | _ =>
            exact Or.inr ⟨"Key entry type must be number",
              by simp [convertCouchbaseViewKeyEntryToValue, sliceIndex]⟩
      · exact Or.inr ⟨"Key entries array must have length 2",
          by simp [convertCouchbaseViewKeyEntryToValue, hl]⟩
    | _ =>
      exact Or.inr ⟨"Key entries top-level MUST be an array",
        by simp [convertCouchbaseViewKeyEntryToValue]⟩

/-- C7: `convertCouchbaseViewKeyEntryToValue` returns a value or a decoding
error on every input and never panics; it returns an error on an entry that is
not an array, on an array whose length is not 2, on a first element that is not
a number, on a tag outside 64, 96, 128, 160, 192, 224, and on a string or
object tag whose payload is not an array. -/
theorem C7_decode_total :
    (∀ keyEntry : GoVal,
      (∃ d, convertCouchbaseViewKeyEntryToValue keyEntry = .ok d) ∨
        ∃ msg, convertCouchbaseViewKeyEntryToValue keyEntry = .error (.error msg)) ∧
    (∀ keyEntry : GoVal, (∀ xs, keyEntry ≠ .slice xs) →
      convertCouchbaseViewKeyEntryToValue keyEntry =
        .error (.error "Key entries top-level MUST be an array")) ∧
    (∀ xs : List GoVal, xs.length ≠ 2 →
      convertCouchbaseViewKeyEntryToValue (.slice xs) =
        .error (.error "Key entries array must have length 2")) ∧
    (∀ t p : GoVal, (∀ x, t ≠ .float64 x) →
      convertCouchbaseViewKeyEntryToValue (.slice [t, p]) =
        .error (.error "Key entry type must be number")) ∧
    (∀ (x : ℚ) (p : GoVal), x ≠ 64 → x ≠ 96 → x ≠ 128 → x ≠ 160 → x ≠ 192 → x ≠ 224 →
      convertCouchbaseViewKeyEntryToValue (.slice [.float64 x, p]) =
        .error (.error "Unkown type of key entry")) ∧
    (∀ p : GoVal, (∀ xs, p ≠ .slice xs) →
      convertCouchbaseViewKeyEntryToValue (.slice [.float64 160, p]) =
          .error (.error "key entry type string value must be array") ∧
        convertCouchbaseViewKeyEntryToValue (.slice [.float64 224, p]) =
          .error (.error "key entry type object value must be array")) := by
  refine ⟨fun k => convert_total_aux (sizeOf k) k (le_refl _), ?_, ?_, ?_, ?_, ?_⟩
  · intro k hk
    cases k <;> simp [convertCouchbaseViewKeyEntryToValue]
    exact (hk _ rfl).elim
  · intro xs hl
    simp [convertCouchbaseViewKeyEntryToValue, hl]
  · intro t p ht
    cases t <;> simp [convertCouchbaseViewKeyEntryToValue, sliceIndex]
    exact (ht _ rfl).elim
  · intro x p h1 h2 h3 h4 h5 h6
    rw [convert_pair]
    simp [h1, h2, h3, h4, h5, h6]
  · intro p hp
    constructor
    · rw [convert_pair]
      norm_num
      cases p <;> simp
      exact (hp _ rfl).elim
    · rw [convert_pair]
      norm_num
      cases p <;> simp
      exact (hp _ rfl).elim

/-! ### Pagination over a sorted store -/

theorem emitRows_fst (batchSize : Int) (rows : List ViewRow) : ∀ (i : Nat) (numRead : Int),
    (emitRows batchSize i rows numRead).1 = rows.take (batchSize - i).toNat := by
  induction rows with
  | nil => intro i numRead; simp [emitRows]
  | cons row rest ih =>
    intro i numRead
    rw [emitRows]
    split
    · rename_i h
      have e : (batchSize - (i : Int)).toNat = (batchSize - ((i + 1 : Nat) : Int)).toNat + 1 := by
        omega
      simp only [ih, e, List.take_succ_cons]
    · rename_i h
      have e : (batchSize - (i : Int)).toNat = 0 := by omega
      have e' : (batchSize - ((i + 1 : Nat) : Int)).toNat = 0 := by omega
      rw [ih, e, e']
      simp

theorem cmpKeyID_swap (cmp : GoVal → GoVal → Ordering) [Batteries.OrientedCmp cmp]
    (k₁ : GoVal) (id₁ : GoString) (k₂ : GoVal) (id₂ : GoString) :
    (cmpKeyID cmp k₁ id₁ k₂ id₂).swap = cmpKeyID cmp k₂ id₂ k₁ id₁ := by
  unfold cmpKeyID
  rw [Ordering.swap_then, @Batteries.OrientedCmp.symm _ cmp _ k₁ k₂,
    @Batteries.OrientedCmp.symm _ (compare : GoString → GoString → Ordering) _ id₁ id₂]

theorem cmpKeyID_self (cmp : GoVal → GoVal → Ordering) [Batteries.OrientedCmp cmp]
    (k : GoVal) (id : GoString) : cmpKeyID cmp k id k id = Ordering.eq := by
  unfold cmpKeyID
  rw [@Batteries.OrientedCmp.cmp_refl _ cmp k _, compare_eq_iff_eq.mpr rfl]
  rfl

theorem cmpKeyID_gt_of_lt (cmp : GoVal → GoVal → Ordering) [Batteries.OrientedCmp cmp]
    {k₁ : GoVal} {id₁ : GoString} {k₂ : GoVal} {id₂ : GoString}
    (h : cmpKeyID cmp k₁ id₁ k₂ id₂ = Ordering.lt) :
    cmpKeyID cmp k₂ id₂ k₁ id₁ = Ordering.gt := by
  rw [← cmpKeyID_swap, h]
  rfl

/-- The predicate "at or after the row `next`", as the options of a follow-up
fetch state it. -/
theorem atOrAfterStart_next (cmp : GoVal → GoVal → Ordering) (options : Options)
    (next row : ViewRow) :
    atOrAfterStart cmp
        ((options.set "startkey" next.Key).set "startkey_docid" (.docID next.ID)) row =
      decide (cmpKeyID cmp row.Key row.ID next.Key next.ID ≠ Ordering.lt) := by
  unfold atOrAfterStart
  rw [Options.get_set_other _ "startkey_docid" "startkey" _ (by decide),
    Options.get_set_self, Options.get_set_self]

/-- On a sorted store the rows at or after one of its rows are that row and
the rows behind it. -/
theorem filter_from_row (cmp : GoVal → GoVal → Ordering) [Batteries.OrientedCmp cmp]
    (pre post : List ViewRow) (next : ViewRow)
    (hs : (pre ++ next :: post).Pairwise (rowLT cmp)) :
    (pre ++ next :: post).filter
        (fun row => decide (cmpKeyID cmp row.Key row.ID next.Key next.ID ≠ Ordering.lt)) =
      next :: post := by
  rw [List.pairwise_append] at hs
  obtain ⟨_, hpost, hpre⟩ := hs
  rw [List.pairwise_cons] at hpost
  rw [List.filter_append]
  have h1 : pre.filter
      (fun row => decide (cmpKeyID cmp row.Key row.ID next.Key next.ID ≠ Ordering.lt)) = [] := by
    rw [List.filter_eq_nil_iff]
    intro r hr
    have : rowLT cmp r next := hpre r hr next (List.mem_cons_self _ _)
    simp [rowLT] at this
    simp [this]
  have h2 : (next :: post).filter
      (fun row => decide (cmpKeyID cmp row.Key row.ID next.Key next.ID ≠ Ordering.lt)) =
        next :: post := by
    rw [List.filter_eq_self]
    intro r hr
    rcases List.mem_cons.mp hr with rfl | hr
    · simp [cmpKeyID_self]
    · have : rowLT cmp next r := hpost.1 r hr
      simp [rowLT] at this
      simp [cmpKeyID_gt_of_lt cmp this]
  rw [h1, h2]
  rfl

theorem cmpKeyID_ge_trans (cmp : GoVal → GoVal → Ordering) [Batteries.TransCmp cmp]
    {a b c : GoVal} {ia ib ic : GoString}
    (h₁ : cmpKeyID cmp a ia b ib ≠ Ordering.lt) (h₂ : cmpKeyID cmp b ib c ic ≠ Ordering.lt) :
    cmpKeyID cmp a ia c ic ≠ Ordering.lt := by
  have i₁ : Batteries.TransCmp (fun x y : GoVal × GoString => cmp x.1 y.1) :=
    { symm := fun x y => @Batteries.OrientedCmp.symm _ cmp _ x.1 y.1
      le_trans := fun h h' => @Batteries.TransCmp.le_trans _ cmp _ _ _ _ h h' }
  have i₂ : Batteries.TransCmp (compareLex (fun x y : GoVal × GoString => cmp x.1 y.1)
      (compareOn (fun x : GoVal × GoString => x.2))) := inferInstance
  exact @Batteries.TransCmp.ge_trans _ _ i₂ (a, ia) (b, ib) (c, ic) h₁ h₂

/-- Being at or after the start of a request passes from a row to every later
row of the order. -/
theorem atOrAfterStart_mono (cmp : GoVal → GoVal → Ordering) [Batteries.TransCmp cmp]
    (options : Options) (r s : ViewRow) (hrs : rowLT cmp r s)
    (hr : atOrAfterStart cmp options r = true) : atOrAfterStart cmp options s = true := by
  have hsr : cmpKeyID cmp s.Key s.ID r.Key r.ID ≠ Ordering.lt := by
    rw [cmpKeyID_gt_of_lt cmp hrs]; decide
  have hk : cmp s.Key r.Key ≠ Ordering.lt := by
    have h := Ordering.then_eq_lt.mp hrs
    rw [← Batteries.OrientedCmp.cmp_ne_gt]
    rcases h with h | ⟨h, _⟩ <;> rw [h] <;> decide
  unfold atOrAfterStart at hr ⊢
  cases hsk : options.get "startkey" with
  | none => rfl
  | some sk =>
    rw [hsk] at hr
    simp only at hr ⊢
    cases hd : options.get "startkey_docid" with
    | none =>
      rw [hd] at hr
      simp only [decide_eq_true_eq] at hr ⊢
      exact @Batteries.TransCmp.ge_trans _ cmp _ _ _ _ hk hr
    | some v =>
      rw [hd] at hr
      cases v with
      | docID d =>
        simp only [decide_eq_true_eq] at hr ⊢
        exact cmpKeyID_ge_trans cmp hsr hr
      | _ =>
        simp only [decide_eq_true_eq] at hr ⊢
        exact @Batteries.TransCmp.ge_trans _ cmp _ _ _ _ hk hr

/-- On a sorted store the rows at or after the start of a request are the rows
from some position on. -/
theorem filter_is_suffix (cmp : GoVal → GoVal → Ordering) [Batteries.TransCmp cmp]
    (options : Options) (store : List ViewRow) (hs : store.Pairwise (rowLT cmp)) :
    ∃ pre, store = pre ++ store.filter (atOrAfterStart cmp options) := by
  induction store with
  | nil => exact ⟨[], rfl⟩
  | cons a t ih =>
    rw [List.pairwise_cons] at hs
    by_cases ha : atOrAfterStart cmp options a = true
    · refine ⟨[], ?_⟩
      have : (a :: t).filter (atOrAfterStart cmp options) = a :: t := by
        rw [List.filter_eq_self]
        intro r hr
        rcases List.mem_cons.mp hr with rfl | hr
        · exact ha
        · exact atOrAfterStart_mono cmp options a r (hs.1 r hr) ha
      rw [this]
      rfl
    · obtain ⟨pre, hp⟩ := ih hs.2
      refine ⟨a :: pre, ?_⟩
      rw [List.filter_cons_of_neg ha]
      simp only [List.cons_append]
      rw [← hp]

/-- With no limit, the loop over a sorted store sends every row at or after the
start of its first request, once and in order, and ends normally. -/
theorem walkLoop_store_all (cmp : GoVal → GoVal → Ordering) [Batteries.OrientedCmp cmp]
    (store : List ViewRow) (hs : store.Pairwise (rowLT cmp)) (b : Int) (hb : 1 ≤ b) :
    ∀ (n : Nat) (R pre : List ViewRow) (opts : Options) (call : Nat) (numRead : Int)
      (fuel : Nat), R.length ≤ n → n < fuel → store = pre ++ R →
      store.filter (atOrAfterStart cmp opts) = R →
      opts.get "limit" = some (.int64 (b + 1)) →
      walkLoop (storeView cmp store) b 0 fuel call opts numRead =
        (R.map Event.result, Exit.done) := by
  intro n
  induction n with
  | zero =>
    intro R pre opts call numRead fuel hR hf hstore hfilter hlimit
    obtain ⟨fuel, rfl⟩ : ∃ f, fuel = f + 1 := ⟨fuel - 1, by omega⟩
    have hnil : R = [] := List.length_eq_zero.mp (by omega)
    subst hnil
    rw [walkLoop]
    have hview : storeView cmp store call opts = ViewResult.rows [] := by
      simp [storeView, hlimit, hfilter]
    rw [hview]
    have : ¬ ((0 : Int) > b) := by omega
    simp [emitRows, this]
  | succ n ih =>
    intro R pre opts call numRead fuel hR hf hstore hfilter hlimit
    obtain ⟨fuel, rfl⟩ : ∃ f, fuel = f + 1 := ⟨fuel - 1, by omega⟩
    obtain ⟨bn, rfl⟩ : ∃ m : Nat, b = (m : Int) := ⟨b.toNat, by omega⟩
    have hbn : 1 ≤ bn := by omega
    rw [walkLoop]
    have hview : storeView cmp store call opts = ViewResult.rows (R.take (bn + 1)) := by
      have : ((bn : Int) + 1).toNat = bn + 1 := by omega
      simp [storeView, hlimit, hfilter, this]
    rw [hview]
    simp only [emitRows_fst, Nat.cast_zero, sub_zero, Int.toNat_ofNat, List.take_take,
      List.length_take, true_or, and_true]
    have hmin : min bn (bn + 1) = bn := by omega
    rw [hmin]
    by_cases hlen : bn < R.length
    · have hcond : ((min (bn + 1) R.length : Nat) : Int) > (bn : Int) := by
        have : min (bn + 1) R.length = bn + 1 := by omega
        rw [this]; omega
      rw [if_pos hcond]
      have hidx : rowIndex (R.take (bn + 1)) (bn : Int) = some R[bn] := by
        have h0 : ¬ ((bn : Int) < 0) := by omega
        simp [rowIndex, h0, List.getElem?_take, hlen]
      rw [hidx]
      simp only
      have hsplit : R = R.take bn ++ R[bn] :: R.drop (bn + 1) := by
        conv_lhs => rw [← List.take_append_drop bn R]
        rw [List.drop_eq_getElem_cons hlen]
      have hdrop : R.drop bn = R[bn] :: R.drop (bn + 1) := List.drop_eq_getElem_cons hlen
      have hstore' : store = (pre ++ R.take bn) ++ R[bn] :: R.drop (bn + 1) := by
        rw [List.append_assoc, ← hsplit]; exact hstore
      have hfilter' : store.filter (atOrAfterStart cmp
          ((opts.set "startkey" R[bn].Key).set "startkey_docid" (.docID R[bn].ID))) =
            R.drop bn := by
        have hfun : atOrAfterStart cmp
            ((opts.set "startkey" R[bn].Key).set "startkey_docid" (.docID R[bn].ID)) =
              fun row => decide (cmpKeyID cmp row.Key row.ID R[bn].Key R[bn].ID ≠ Ordering.lt) :=
          funext (atOrAfterStart_next cmp opts R[bn])
        rw [hfun, hdrop]
        have hs' := hs
        rw [hstore'] at hs'
        have := filter_from_row cmp (pre ++ R.take bn) (R.drop (bn + 1)) R[bn] hs'
        rw [← hstore'] at this
        exact this
      have hlimit' : ((opts.set "startkey" R[bn].Key).set "startkey_docid"
          (.docID R[bn].ID)).get "limit" = some (.int64 ((bn : Int) + 1)) := by
        rw [Options.get_set_other _ _ _ _ (by decide),
          Options.get_set_other _ _ _ _ (by decide), hlimit]
      have hrec := ih (R.drop bn) (pre ++ R.take bn) _ (call + 1)
        (emitRows (bn : Int) 0 (R.take (bn + 1)) numRead).2 fuel
        (by rw [List.length_drop]; omega) (by omega)
        (by rw [List.append_assoc, List.take_append_drop]; exact hstore) hfilter' hlimit'
      rw [hrec]
      simp only
      rw [← List.map_append, List.take_append_drop]
    · have hcond : ¬ (((min (bn + 1) R.length : Nat) : Int) > (bn : Int)) := by
        omega
      rw [if_neg hcond]
      rw [List.take_of_length_le (by omega)]

theorem wrapInt64_id (n : Int) (h₁ : -(2 ^ 63) ≤ n) (h₂ : n < 2 ^ 63) : wrapInt64 n = n := by
  unfold wrapInt64
  rw [Int.emod_eq_of_lt (by omega) (by omega)]
  omega

theorem atOrAfterStart_set_limit (cmp : GoVal → GoVal → Ordering) (options : Options)
    (v : GoVal) : atOrAfterStart cmp (options.set "limit" v) = atOrAfterStart cmp options := by
  funext row
  unfold atOrAfterStart
  rw [Options.get_set_other _ "limit" "startkey" _ (by decide),
    Options.get_set_other _ "limit" "startkey_docid" _ (by decide)]

/-- A walk with no limit over a sorted store, for any batch size from 1 on. -/
theorem walk_store_all (cmp : GoVal → GoVal → Ordering) [Batteries.TransCmp cmp]
    (store : List ViewRow) (options : Options) (b : Int) (fuel : Nat)
    (hsorted : store.Pairwise (rowLT cmp)) (hb : 1 ≤ b) (hb' : b + 1 < 2 ^ 63)
    (hfuel : store.length < fuel) :
    WalkViewInBatches (storeView cmp store) (some options) b 0 fuel =
      ⟨(store.filter (atOrAfterStart cmp options)).map Event.result, true⟩ := by
  have heff : effectiveBatchSize b 0 = b := by simp [effectiveBatchSize]
  have hwrap : wrapInt64 (b + 1) = b + 1 := wrapInt64_id _ (by omega) hb'
  obtain ⟨pre, hpre⟩ := filter_is_suffix cmp options store hsorted
  have hloop := walkLoop_store_all cmp store hsorted b hb store.length
    (store.filter (atOrAfterStart cmp options)) pre
    (options.set "limit" (.int64 (b + 1))) 0 0 fuel (List.length_filter_le _ _) hfuel hpre
    (by rw [atOrAfterStart_set_limit]) (Options.get_set_self _ _ _)
  simp only [WalkViewInBatches, walkBody, heff, hwrap, hloop]

/-- C2: over a store sorted by (key, document id) with pairwise distinct pairs,
whose fetches return the first `limit` rows at or after (`startkey`,
`startkey_docid`), a walk with limit 0 and a batch size `k`, `1 ≤ k < N`,
delivers what the walk with batch size `N` delivers: every row at or after the
start of the request (every row of the store when the request has no
`startkey`), once and in store order, and no error.  `N + 1` fits an `int64`. -/
theorem C2_pagination_transparency (cmp : GoVal → GoVal → Ordering) [Batteries.TransCmp cmp]
    (store : List ViewRow) (options : Options) (k : Int) (fuel : Nat)
    (hsorted : store.Pairwise (rowLT cmp)) (hk : 1 ≤ k) (hkN : k < store.length)
    (hN : (store.length : Int) + 1 < 2 ^ 63) (hfuel : store.length < fuel) :
    WalkViewInBatches (storeView cmp store) (some options) k 0 fuel =
        WalkViewInBatches (storeView cmp store) (some options) store.length 0 fuel ∧
      (WalkViewInBatches (storeView cmp store) (some options) k 0 fuel).events =
        (store.filter (atOrAfterStart cmp options)).map Event.result ∧
      (options.get "startkey" = none →
        (WalkViewInBatches (storeView cmp store) (some options) k 0 fuel).events =
          store.map Event.result) ∧
      errorsOf (WalkViewInBatches (storeView cmp store) (some options) k 0 fuel).events = [] ∧
      (WalkViewInBatches (storeView cmp store) (some options) k 0 fuel).closed = true := by
  have hk' := walk_store_all cmp store options k fuel hsorted hk (by omega) hfuel
  have hN' := walk_store_all cmp store options store.length fuel hsorted (by omega) hN hfuel
  refine ⟨by rw [hk', hN'], by rw [hk'], ?_, by rw [hk']; exact errorsOf_map_result _,
    by rw [hk']⟩
  intro hnone
  rw [hk']
  have : store.filter (atOrAfterStart cmp options) = store := by
    rw [List.filter_eq_self]
    intro r _
    simp [atOrAfterStart, hnone]
  simp only [this]

theorem transCmp_cmpKeyNumber : Batteries.TransCmp cmpKeyNumber :=
  inferInstanceAs (Batteries.TransCmp (compareOn keyNumber))

/-- C2 at a concrete input: the ten-row sample store, where keys repeat, walked
three rows at a time. -/
theorem C2_pagination_transparency_witness :
    WalkViewInBatches (storeView cmpKeyNumber sampleStore) (some []) 3 0 11 =
        WalkViewInBatches (storeView cmpKeyNumber sampleStore) (some [])
          sampleStore.length 0 11 ∧
      (WalkViewInBatches (storeView cmpKeyNumber sampleStore) (some []) 3 0 11).events =
        sampleStore.map Event.result := by
  have h := @C2_pagination_transparency cmpKeyNumber transCmp_cmpKeyNumber sampleStore [] 3 11
    (by decide) (by decide) (by decide) (by decide) (by decide)
  exact ⟨h.1, h.2.2.1 rfl⟩

/-! ### The codec at the inputs where the round trip breaks -/

theorem encodeString_two_byte_rune : encodeStringAsNumericArray [0xC3, 0xA9] = [233, 0] := by
  have hr : rangeString [0xC3, 0xA9] = [(0, 233)] := by decide
  simp [encodeStringAsNumericArray, hr]

/-- C10 (the code at a failing input): the string "é", one code point in two
bytes, is encoded as the two numbers 233, 0 and decoded back as the three
bytes of "é" followed by a NUL. -/
theorem C10_string_roundtrip_fails :
    encodeStringAsNumericArray [0xC3, 0xA9] = [233, 0] ∧
    decodeNumericArrayAsString
        ((encodeStringAsNumericArray [0xC3, 0xA9]).map GoVal.float64) =
      .ok [0xC3, 0xA9, 0x00] := by
  refine ⟨encodeString_two_byte_rune, ?_⟩
  rw [encodeString_two_byte_rune]
  rfl

/-- C1 (the code at three failing inputs): null is encoded as the one-element
key [64], which the decoder rejects for its length; the empty object is
encoded as [224, [[], []]], which the decoder rejects because it reads the
payload as one flat array of names followed by values; the string "é" comes
back as "é" followed by a NUL. -/
theorem C1_roundtrip_fails :
    encodeValue .nil = .ok (.slice [.int 64]) ∧
    convertCouchbaseViewKeyEntryToValue (viaJSON (.slice [.int 64])) =
      .error (.error "Key entries array must have length 2") ∧
    convertCouchbaseViewKeyEntryToValue (.slice [.int 64]) =
      .error (.error "Key entries array must have length 2") ∧
    encodeValue (.map []) = .ok (.slice [.int 224, .slice [.strings [], .slice []]]) ∧
    convertCouchbaseViewKeyEntryToValue
        (viaJSON (.slice [.int 224, .slice [.strings [], .slice []]])) =
      .error (.error "compound object array contains non-string in key position") ∧
    encodeValue (.string [0xC3, 0xA9]) = .ok (.slice [.int 160, .floats [233, 0]]) ∧
    convertCouchbaseViewKeyEntryToValue (viaJSON (.slice [.int 160, .floats [233, 0]])) =
      .ok (NewValue (.string [0xC3, 0xA9, 0x00])) := by
  refine ⟨?_, ?_, ?_, ?_, ?_, ?_, ?_⟩
  · simp [encodeValue, TYPE_NULL]
  · simp [viaJSON, viaJSONList, convertCouchbaseViewKeyEntryToValue]
  · simp [convertCouchbaseViewKeyEntryToValue]
  · have hs : sortStrings [] = [] := by decide
    simp [encodeValue, encodeObjectAsCompoundArray, encodeObjectVals, hs, TYPE_OBJECT]
  · simp only [viaJSON, viaJSONList, List.map_nil, Int.cast_ofNat]
    rw [convert_pair]
    norm_num
    rw [decodeCompoundArrayAsObject]
    simp only [List.length_cons, List.length_nil]
    norm_num
    rw [decodeCompoundLoop]
    simp [sliceIndex]
  · rw [encodeValue, encodeString_two_byte_rune]
    rfl
  · simp only [viaJSON, viaJSONList, List.map_cons, List.map_nil, Int.cast_ofNat]
    rw [convert_pair]
    norm_num
    rfl

/-! ### The limit -/

/-- C3 (the code at a failing input): over the ten-row sample store, with
limit 5 and batch size 3, the walk delivers the first six rows, not five, and
returns without an error. -/
theorem C3_limit_overshoot :
    (WalkViewInBatches (storeView cmpKeyNumber sampleStore) (some []) 3 5 11).events =
      (sampleStore.take 6).map Event.result ∧
    (resultsOf (WalkViewInBatches (storeView cmpKeyNumber sampleStore) (some [])
      3 5 11).events).length = 6 ∧
    errorsOf (WalkViewInBatches (storeView cmpKeyNumber sampleStore) (some []) 3 5 11).events
      = [] ∧
    (WalkViewInBatches (storeView cmpKeyNumber sampleStore) (some []) 3 5 11).closed = true := by
  refine ⟨?_, ?_, ?_, ?_⟩
  · rfl
  · decide
  · decide
  · decide

/-! ### Where the round trip holds, and where it never does -/

/-- Booleans, numbers and arrays come back from the decoder as they went in
(an array with its elements as the JSON transport hands them over). -/
theorem roundtrip_bool_number_array (b : Bool) (x : ℚ) (xs : List GoVal) :
    (∃ k, encodeValue (.bool b) = .ok k ∧
      convertCouchbaseViewKeyEntryToValue (viaJSON k) = .ok (NewValue (.bool b))) ∧
    (∃ k, encodeValue (.float64 x) = .ok k ∧
      convertCouchbaseViewKeyEntryToValue (viaJSON k) = .ok (NewValue (.float64 x))) ∧
    (∃ k, encodeValue (.slice xs) = .ok k ∧
      convertCouchbaseViewKeyEntryToValue (viaJSON k) =
        .ok (NewValue (.slice (viaJSONList xs)))) := by
  refine ⟨⟨_, by rw [encodeValue], ?_⟩, ⟨_, by rw [encodeValue], ?_⟩,
    ⟨_, by rw [encodeValue], ?_⟩⟩
  · simp only [viaJSON, viaJSONList, TYPE_BOOLEAN, Int.cast_ofNat]
    rw [convert_pair]
    norm_num
  · simp only [viaJSON, viaJSONList, TYPE_NUMBER, Int.cast_ofNat]
    rw [convert_pair]
    norm_num
  · simp only [viaJSON, viaJSONList, TYPE_ARRAY, Int.cast_ofNat]
    rw [convert_pair]
    norm_num

/-- The key of an object is never decoded: the encoder nests the names and the
values in two arrays, the decoder reads one flat array. -/
theorem object_key_never_decodes (obj : List (GoString × GoVal)) (k : GoVal)
    (h : encodeValue (.map obj) = .ok k) :
    convertCouchbaseViewKeyEntryToValue (viaJSON k) =
      .error (.error "compound object array contains non-string in key position") := by
  rw [encodeValue, encodeObjectAsCompoundArray] at h
  cases hv : encodeObjectVals obj (sortStrings (obj.map Prod.fst)) with
  | error e => simp [hv] at h
  | ok vals =>
    simp only [hv, Except.ok.injEq] at h
    subst h
    simp only [viaJSON, viaJSONList, TYPE_OBJECT, Int.cast_ofNat]
    rw [convert_pair]
    norm_num
    rw [decodeCompoundArrayAsObject]
    simp only [List.length_cons, List.length_nil]
    norm_num
    rw [decodeCompoundLoop]
    simp [sliceIndex]

theorem decodeRune_ascii (b : Fin 256) (rest : GoString) (h : b.val < 128) :
    decodeRune (b :: rest) = (b.val, 1) := by
  simp [decodeRune, h]

theorem rangeStringFrom_ascii (s : GoString) : ∀ (fuel i : Nat), s.length ≤ fuel →
    (∀ b ∈ s, b.val < 128) →
    rangeStringFrom fuel i s = (s.enumFrom i).map (fun p => (p.1, p.2.val)) := by
  induction s with
  | nil => intro fuel i _ _; cases fuel <;> simp [rangeStringFrom]
  | cons b rest ih =>
    intro fuel i hf ha
    obtain ⟨fuel, rfl⟩ : ∃ f, fuel = f + 1 := ⟨fuel - 1, by simp at hf; omega⟩
    have hb : b.val < 128 := ha b (List.mem_cons_self _ _)
    rw [rangeStringFrom, decodeRune_ascii b rest hb]
    simp only [List.drop_succ_cons, List.drop_zero, List.enumFrom_cons, List.map_cons]
    rw [ih fuel (i + 1) (by simp at hf; omega) (fun c hc => ha c (List.mem_cons_of_mem _ hc))]

theorem foldl_set_enumFrom (f : Fin 256 → ℚ) (vs : GoString) : ∀ (pre : List ℚ),
    ((vs.enumFrom pre.length).map (fun p => (p.1, p.2.val))).foldl
        (fun rv ir => rv.set ir.1 (ir.2 : ℚ)) (pre ++ List.replicate vs.length 0) =
      pre ++ vs.map (fun b => (b.val : ℚ)) := by
  induction vs with
  | nil => intro pre; simp
  | cons v rest ih =>
    intro pre
    simp only [List.enumFrom_cons, List.map_cons, List.foldl_cons, List.length_cons,
      List.replicate_succ]
    have hset : (pre ++ (0 : ℚ) :: List.replicate rest.length 0).set pre.length (v.val : ℚ) =
        (pre ++ [(v.val : ℚ)]) ++ List.replicate rest.length 0 := by
      simp [List.set_append]
    rw [hset]
    have := ih (pre ++ [(v.val : ℚ)])
    simp only [List.length_append, List.length_singleton] at this
    rw [this]
    simp

theorem encodeString_ascii (s : GoString) (ha : ∀ b ∈ s, b.val < 128) :
    encodeStringAsNumericArray s = s.map (fun b => (b.val : ℚ)) := by
  unfold encodeStringAsNumericArray rangeString
  rw [rangeStringFrom_ascii s s.length 0 (le_refl _) ha]
  have := foldl_set_enumFrom (fun b => (b.val : ℚ)) s []
  simpa using this

theorem stringOfRune_ascii (b : Fin 256) (h : b.val < 128) :
    stringOfRune (runeOfFloat64 (b.val : ℚ)) = [b] := by
  have hr : runeOfFloat64 (b.val : ℚ) = (b.val : Int) := by
    simp [runeOfFloat64]
  rw [hr]
  unfold stringOfRune
  have h1 : ¬ ((b.val : Int) < 0 ∨ (0x10FFFF : Int) < b.val ∨
      ((0xD800 : Int) ≤ b.val ∧ (b.val : Int) ≤ 0xDFFF)) := by omega
  rw [if_neg h1]
  simp only [Int.toNat_ofNat, h, if_true]
  congr 1
  apply Fin.ext
  simp [Fin.ofNat]

theorem decodeNumericArrayLoop_ascii (s : GoString) : ∀ (rv : GoString),
    (∀ b ∈ s, b.val < 128) →
    decodeNumericArrayLoop rv (s.map (fun b => GoVal.float64 (b.val : ℚ))) = .ok (rv ++ s) := by
  induction s with
  | nil => intro rv _; simp [decodeNumericArrayLoop]
  | cons b rest ih =>
    intro rv ha
    simp only [List.map_cons, decodeNumericArrayLoop]
    rw [stringOfRune_ascii b (ha b (List.mem_cons_self _ _)),
      ih _ (fun c hc => ha c (List.mem_cons_of_mem _ hc))]
    simp

/-- A string of one-byte code points comes back from the decoder as it went in. -/
theorem roundtrip_ascii_string (s : GoString) (ha : ∀ b ∈ s, b.val < 128) :
    decodeNumericArrayAsString ((encodeStringAsNumericArray s).map GoVal.float64) = .ok s := by
  rw [encodeString_ascii s ha, List.map_map]
  have := decodeNumericArrayLoop_ascii s [] ha
  simpa [decodeNumericArrayAsString, Function.comp_def] using this

/-! ### The range request on a `value.Value` -/

/-- The type switch of `encodeValue` has no case for the dynamic type of a
`value.Value`: the call panics. -/
theorem encodeValue_toInterface_panics (v : Value) :
    encodeValue v.toInterface = .error (valuePanic v) := by
  cases v <;> simp [Value.toInterface, encodeValue, valuePanic]

theorem generateViewOptions_absent (inclusion : Inclusion) :
    generateViewOptions none none inclusion = .ok [] := by
  simp [generateViewOptions, pure, Except.pure, bind, Except.bind]

theorem generateViewOptions_low_panics (lo : Value) (high : Option Value)
    (inclusion : Inclusion) :
    generateViewOptions (some lo) high inclusion = .error (valuePanic lo) := by
  unfold generateViewOptions
  simp only [bind, Except.bind, encodeValue_toInterface_panics]

theorem generateViewOptions_high_panics (hi : Value) (inclusion : Inclusion) :
    generateViewOptions none (some hi) inclusion = .error (valuePanic hi) := by
  unfold generateViewOptions
  simp only [bind, Except.bind, pure, Except.pure, encodeValue_toInterface_panics]

/-- C15 (the code on every present bound): `generateViewOptions` hands a bound
to `encodeValue` as the `value.Value` it is, so the type switch falls through
to its fatal branch whatever the bound holds, while the sibling
`encodeValueAsMapKey`, which takes `Actual()` first, encodes every supported
value. -/
theorem C15_encoder_panic_reached :
    (∀ (lo : Value) (high : Option Value) (inclusion : Inclusion),
      generateViewOptions (some lo) high inclusion = .error (valuePanic lo)) ∧
    (∀ (hi : Value) (inclusion : Inclusion),
      generateViewOptions none (some hi) inclusion = .error (valuePanic hi)) ∧
    generateViewOptions (some (NewValue (.float64 4))) none BOTH =
      .error (.panic "Unable to encode type value.Value to map key") ∧
    (∀ v : Value, supported v.Actual = true →
      ∃ k, encodeValue v.Actual = .ok k ∧ encodeValueAsMapKey [v] = .ok (.slice [k])) := by
  refine ⟨generateViewOptions_low_panics, generateViewOptions_high_panics,
    generateViewOptions_low_panics _ _ _, ?_⟩
  intro v hv
  obtain ⟨rest, hk⟩ := encodeValue_ok_of_supported v.Actual hv
  exact ⟨_, hk, by simp [encodeValueAsMapKey, encodeValueAsMapKeyLoop, hk]⟩

/-- C5 (the code at failing inputs): with the missing value, or the number 4,
as its low bound `generateViewOptions` panics in `encodeValue` and returns no
option map; only with both bounds absent does it return one, the empty map. -/
theorem C5_generateViewOptions_panics :
    generateViewOptions (some (Value.missing [])) none BOTH =
      .error (.panic "Unable to encode type value.missingValue to map key") ∧
    generateViewOptions (some (NewValue (.float64 4))) none BOTH =
      .error (.panic "Unable to encode type value.Value to map key") ∧
    generateViewOptions none (some (NewValue (.float64 6))) NEITHER =
      .error (.panic "Unable to encode type value.Value to map key") ∧
    (∀ inclusion : Inclusion, generateViewOptions none none inclusion = .ok []) :=
  ⟨generateViewOptions_low_panics _ _ _, generateViewOptions_low_panics _ _ _,
    generateViewOptions_high_panics _ _, generateViewOptions_absent⟩

/-- C4 (the code at the failing input): for the range [4, 6] the call of
`generateViewOptions` panics in `encodeValue`, with BOTH as with NEITHER, and
builds no request.  The request it was to build, with the bounds encoded from
their `Actual()` projections, does select the three rows of keys 4, 5, 6 with
BOTH and the row of key 5 with NEITHER. -/
theorem C4_range_request_panics :
    generateViewOptions (some (NewValue (.float64 4))) (some (NewValue (.float64 6))) BOTH =
      .error (.panic "Unable to encode type value.Value to map key") ∧
    generateViewOptions (some (NewValue (.float64 4))) (some (NewValue (.float64 6))) NEITHER =
      .error (.panic "Unable to encode type value.Value to map key") ∧
    (([numberRow 4 [52], numberRow 5 [53], numberRow 6 [54]].filter
      (selects cmpKeyNumber [("startkey", .slice [.int 128, .float64 4]),
        ("endkey", .slice [.int 128, .float64 6])])).map (fun r => r.ID) =
          [[52], [53], [54]]) ∧
    (([numberRow 4 [52], numberRow 5 [53], numberRow 6 [54]].filter
      (selects cmpKeyNumber [("startkey", .slice [.int 128, .float64 4]),
        ("startkey_docid", .docID MAX_ID), ("endkey", .slice [.int 128, .float64 6]),
        ("endkey_docid", .docID MIN_ID)])).map (fun r => r.ID) = [[53]]) :=
  ⟨generateViewOptions_low_panics _ _ _, generateViewOptions_low_panics _ _ _,
    by decide, by decide⟩

/-! ### Document id sentinels -/

/-- An identifier shorter than a run of bytes 0xFF sorts before it. -/
theorem lt_replicate_max (n : Nat) (id : GoString) (h : id.length < n) :
    id < List.replicate n (0xFF : Fin 256) := by
  induction id generalizing n with
  | nil =>
    cases n with
    | zero => simp at h
    | succ m => exact List.Lex.nil
  | cons a t ih =>
    cases n with
    | zero => simp at h
    | succ m =>
      rw [List.replicate_succ]
      by_cases ha : a = 0xFF
      · subst ha
        exact List.Lex.cons (ih m (by simpa using h))
      · refine List.Lex.rel ?_
        have : a.val < 256 := a.isLt
        have h2 : a.val ≠ 255 := fun hv => ha (Fin.ext hv)
        show a.val < 255
        omega

/-- C12: `MIN_ID` is the empty identifier and `MAX_ID` is 251 bytes 0xFF; in
byte-wise lexicographic order `MIN_ID` is at or before every identifier and every
identifier of at most 250 bytes is strictly before `MAX_ID`. -/
theorem C12_docid_sentinels (id : GoString) :
    MIN_ID = [] ∧ MAX_ID = List.replicate 251 (0xFF : Fin 256) ∧ MAX_ID.length = 251 ∧
    MIN_ID ≤ id ∧ (id.length ≤ 250 → id < MAX_ID) := by
  refine ⟨rfl, rfl, List.length_replicate 251 _, List.nil_le, fun h => ?_⟩
  exact lt_replicate_max 251 id (by omega)

theorem C12_docid_sentinels_witness :
    ([0xFF, 0xFF] : GoString).length ≤ 250 ∧ ([0xFF, 0xFF] : GoString) < MAX_ID :=
  ⟨by decide, (C12_docid_sentinels [0xFF, 0xFF]).2.2.2.2 (by decide)⟩

/-! ### The missing value -/

/-- C13: on the missing value, `Collate` with `other` is 0 exactly when `other`
is missing and negative when `other` is of any other kind, and `Equals` holds
exactly when that `Collate` result is 0. -/
theorem C13_missing_collate (this : GoString) (other : Value) :
    (missingValue.Collate this other = 0 ↔ ∃ path, other = Value.missing path) ∧
    ((∀ path, other ≠ Value.missing path) → missingValue.Collate this other < 0) ∧
    missingValue.Collate this other ≤ 0 ∧
    (missingValue.Equals this other = true ↔ missingValue.Collate this other = 0) := by
  cases other with
  | missing p =>
    simp [missingValue.Collate, missingValue.Equals, Value.Type, ValueType.toInt]
  | other a =>
    cases a <;>
      simp [missingValue.Collate, missingValue.Equals, Value.Type, ValueType.toInt, typeOfActual]

theorem C13_missing_collate_witness :
    (∀ path, NewValue (.float64 3) ≠ Value.missing path) ∧
    missingValue.Collate [] (NewValue (.float64 3)) < 0 :=
  ⟨by simp [NewValue], (C13_missing_collate [] (NewValue (.float64 3))).2.1 (by simp [NewValue])⟩

/-- C14 (the code at the inputs where the text differs): `Index(5)` annotates
the missing value with the one byte 0x05, the code point of number 5, not with
the digit "5", so its text is not "Missing field or index 5."; and `Field("")`
returns the unannotated missing value, whose text "Missing field or index." is
not "Missing field or index ." with the empty name substituted. -/
theorem C14_missing_text_differs :
    missingValue.Index [] 5 = (Value.missing [5], false) ∧
    missingValue.Error [5] = goString "Missing field or index \x05." ∧
    missingValue.Error [5] ≠ goString "Missing field or index " ++ decimal 5 ++ goString "." ∧
    decimal 5 = goString "5" ∧
    missingValue.Index [] 65 = (Value.missing (goString "A"), false) ∧
    missingValue.Index [] (-1) = (Value.missing [0xEF, 0xBF, 0xBD], false) ∧
    missingValue.Field [] [] = (MISSING_VALUE, false) ∧
    missingValue.Error [] = goString "Missing field or index." ∧
    missingValue.Error [] ≠ goString "Missing field or index " ++ [] ++ goString "." :=
  ⟨rfl, by decide, by decide, by decide, rfl, rfl, rfl, by decide, by decide⟩

/-- C14 (amended): a lookup on a missing value never succeeds and returns a
missing value; for a non-empty field name `f` the text of `Field(f)` is
"Missing field or index f.", and the text of the unannotated missing value is
"Missing field or index.". -/
theorem C14_missing_lookup (this f : GoString) (i : Int) :
    missingValue.Field this f = (Value.missing f, false) ∧
    (f ≠ [] → (missingValue.Field this f).1.Error =
      some (goString "Missing field or index " ++ f ++ goString ".")) ∧
    (∃ path, missingValue.Index this i = (Value.missing path, false)) ∧
    MISSING_VALUE.Error = some (goString "Missing field or index.") := by
  refine ⟨rfl, fun hf => ?_, ⟨_, rfl⟩, by decide⟩
  simp [missingValue.Field, missingField, Value.Error, missingValue.Error, hf]

theorem C14_missing_lookup_witness :
    goString "name" ≠ [] ∧
    (missingValue.Field [] (goString "name")).1.Error =
      some (goString "Missing field or index name.") :=
  ⟨by decide, by
    have h := (C14_missing_lookup [] (goString "name") 0).2.1 (by decide)
    rw [h]; decide⟩


/-! ### The encoder, kind by kind -/

theorem supportedFields_nodup (obj : List (GoString × GoVal)) (h : supportedFields obj = true) :
    (obj.map Prod.fst).Nodup := by
  induction obj with
  | nil => simp
  | cons p rest ih =>
    obtain ⟨k, v⟩ := p
    simp only [supportedFields, Bool.and_eq_true, decide_eq_true_eq] at h
    simp only [List.map_cons, List.nodup_cons]
    exact ⟨h.1.1, ih h.2⟩

theorem encodeObjectAsCompoundArray_ok (obj : List (GoString × GoVal))
    (h : supportedFields obj = true) :
    ∃ vals, encodeObjectVals obj (sortStrings (obj.map Prod.fst)) = .ok vals ∧
      vals.length = obj.length ∧
      encodeObjectAsCompoundArray obj =
        .ok [.strings (sortStrings (obj.map Prod.fst)), .slice vals] := by
  have hall : ∀ key, ∃ k, encodeValue (mapIndex obj key) = .ok k := by
    intro key
    obtain ⟨rest, hr⟩ := encodeValue_ok_of_supported _ (supported_mapIndex obj key h)
    exact ⟨_, hr⟩
  obtain ⟨vals, hv, hl⟩ := encodeObjectVals_ok obj hall (sortStrings (obj.map Prod.fst))
  refine ⟨vals, hv, ?_, by simp [encodeObjectAsCompoundArray, hv]⟩
  rw [hl, sortStrings, List.length_insertionSort, List.length_map]

theorem encodeObjectVals_get (obj : List (GoString × GoVal)) :
    ∀ (keys : List GoString) (vals : List GoVal), encodeObjectVals obj keys = .ok vals →
      ∀ (i : Nat) (name : GoString), keys[i]? = some name →
        ∃ v, vals[i]? = some v ∧ encodeValue (mapIndex obj name) = .ok v := by
  intro keys
  induction keys with
  | nil => intro vals _ i name hi; simp at hi
  | cons key keys ih =>
    intro vals hv i name hi
    rw [encodeObjectVals] at hv
    cases hk : encodeValue (mapIndex obj key) with
    | error e => rw [hk] at hv; simp at hv
    | ok v =>
      rw [hk] at hv
      simp only at hv
      cases hr : encodeObjectVals obj keys with
      | error e => rw [hr] at hv; simp at hv
      | ok vs =>
        rw [hr] at hv
        simp only [Except.ok.injEq] at hv
        subst hv
        cases i with
        | zero =>
          simp only [List.getElem?_cons_zero, Option.some.injEq] at hi
          subst hi
          exact ⟨v, by simp, hk⟩
        | succ i =>
          simp only [List.getElem?_cons_succ] at hi ⊢
          exact ih vs hr i name hi

/-- C16: `encodeValue` returns on each of the six supported kinds: [64] for
null, [96, b] for a boolean, [128, n] for a number, [160, numeric array of the
string] for a string, [192, a] for an array, its elements left as they are, and
[224, compound array of the object] for an object of supported field values. -/
theorem C16_encodeValue_kinds (b : Bool) (n : ℚ) (s : GoString) (a : List GoVal)
    (obj : List (GoString × GoVal)) (hobj : supportedFields obj = true) :
    encodeValue .nil = .ok (.slice [.int 64]) ∧
    encodeValue (.bool b) = .ok (.slice [.int 96, .bool b]) ∧
    encodeValue (.float64 n) = .ok (.slice [.int 128, .float64 n]) ∧
    encodeValue (.string s) = .ok (.slice [.int 160, .floats (encodeStringAsNumericArray s)]) ∧
    encodeValue (.slice a) = .ok (.slice [.int 192, .slice a]) ∧
    ∃ ca, encodeObjectAsCompoundArray obj = .ok ca ∧
      encodeValue (.map obj) = .ok (.slice [.int 224, .slice ca]) := by
  refine ⟨by simp [encodeValue, TYPE_NULL], by simp [encodeValue, TYPE_BOOLEAN],
    by simp [encodeValue, TYPE_NUMBER], by simp [encodeValue, TYPE_STRING],
    by simp [encodeValue, TYPE_ARRAY], ?_⟩
  obtain ⟨vals, -, -, hca⟩ := encodeObjectAsCompoundArray_ok obj hobj
  exact ⟨_, hca, by simp [encodeValue, hca, TYPE_OBJECT]⟩

/-- C16 at a concrete input: the array [7, "x"] keeps its elements as they
are, and the object with the fields b = null, a = true has the key it has. -/
theorem C16_encodeValue_kinds_witness :
    supportedFields [([98], .nil), ([97], .bool true)] = true ∧
    encodeValue (.slice [.float64 7, .string [120]]) =
      .ok (.slice [.int 192, .slice [.float64 7, .string [120]]]) ∧
    ∃ ca, encodeObjectAsCompoundArray [([98], .nil), ([97], .bool true)] = .ok ca ∧
      encodeValue (.map [([98], .nil), ([97], .bool true)]) =
        .ok (.slice [.int 224, .slice ca]) :=
  ⟨by decide,
    (C16_encodeValue_kinds true 0 [] [.float64 7, .string [120]]
      [([98], .nil), ([97], .bool true)] (by decide)).2.2.2.2.1,
    (C16_encodeValue_kinds true 0 [] [.float64 7, .string [120]]
      [([98], .nil), ([97], .bool true)] (by decide)).2.2.2.2.2⟩

/-- C17: for an object of n fields of supported values,
`encodeObjectAsCompoundArray` returns the two-element sequence [names, values]:
names are the n field names in strictly ascending order, values has length n,
and values[i] is `encodeValue` of the field names[i]. -/
theorem C17_compound_array (obj : List (GoString × GoVal)) (hobj : supportedFields obj = true) :
    ∃ names vals, encodeObjectAsCompoundArray obj = .ok [.strings names, .slice vals] ∧
      names.length = obj.length ∧ vals.length = obj.length ∧
      names.Perm (obj.map Prod.fst) ∧ names.Sorted (fun x y => x < y) ∧
      ∀ (i : Nat) (name : GoString), names[i]? = some name →
        ∃ v, vals[i]? = some v ∧ encodeValue (mapIndex obj name) = .ok v := by
  obtain ⟨vals, hv, hl, hca⟩ := encodeObjectAsCompoundArray_ok obj hobj
  have hperm : (sortStrings (obj.map Prod.fst)).Perm (obj.map Prod.fst) :=
    List.perm_insertionSort _ _
  refine ⟨sortStrings (obj.map Prod.fst), vals, hca, ?_, hl, hperm, ?_,
    encodeObjectVals_get obj _ vals hv⟩
  · rw [hperm.length_eq, List.length_map]
  · have hs : (sortStrings (obj.map Prod.fst)).Sorted (fun x y => x ≤ y) :=
      List.sorted_insertionSort _ _
    exact hs.lt_of_le (hperm.nodup_iff.mpr (supportedFields_nodup obj hobj))

/-- C17 at a concrete input: the object with the fields b = null, a = true. -/
theorem C17_compound_array_witness :
    supportedFields [([98], .nil), ([97], .bool true)] = true ∧
    ∃ names vals, encodeObjectAsCompoundArray [([98], .nil), ([97], .bool true)] =
        .ok [.strings names, .slice vals] ∧
      names.length = 2 ∧ vals.length = 2 ∧ names.Sorted (fun x y => x < y) := by
  refine ⟨by decide, ?_⟩
  obtain ⟨names, vals, h1, h2, h3, -, h5, -⟩ :=
    C17_compound_array [([98], .nil), ([97], .bool true)] (by decide)
  exact ⟨names, vals, h1, h2, h3, h5⟩


/-! ### The object decoder -/

theorem mapAssign_keys (rv : List (GoString × GoVal)) (key : GoString) (val : GoVal) :
    (mapAssign rv key val).map Prod.fst =
      if key ∈ rv.map Prod.fst then rv.map Prod.fst else rv.map Prod.fst ++ [key] := by
  induction rv with
  | nil => simp [mapAssign]
  | cons p rest ih =>
    obtain ⟨k, v⟩ := p
    by_cases hk : k = key
    · subst hk
      simp [mapAssign]
    · have hk' : ¬ key = k := fun h => hk h.symm
      by_cases hm : key ∈ rest.map Prod.fst
      · simp only [mapAssign, hk, if_false, List.map_cons, ih, hm, if_true, List.mem_cons,
          or_true]
      · simp only [mapAssign, hk, if_false, List.map_cons, ih, hm, List.mem_cons, hk',
          or_self, List.cons_append]

theorem mapIndex_mapAssign (rv : List (GoString × GoVal)) (key other : GoString) (val : GoVal) :
    mapIndex (mapAssign rv key val) other = if key = other then val else mapIndex rv other := by
  induction rv with
  | nil => simp [mapAssign, mapIndex]
  | cons p rest ih =>
    obtain ⟨k, v⟩ := p
    by_cases hk : k = key
    · subst hk
      by_cases ho : k = other
      · simp [mapAssign, mapIndex, ho]
      · simp [mapAssign, mapIndex, ho]
    · by_cases ho : k = other
      · subst ho
        have : ¬ key = k := fun h => hk h.symm
        simp [mapAssign, mapIndex, hk, this]
      · simp [mapAssign, mapIndex, hk, ho, ih]

theorem mem_of_mapIndex (obj : List (GoString × GoVal)) (key : GoString)
    (h : key ∈ obj.map Prod.fst) : (key, mapIndex obj key) ∈ obj := by
  induction obj with
  | nil => simp at h
  | cons p rest ih =>
    obtain ⟨k, v⟩ := p
    by_cases hk : k = key
    · subst hk
      simp [mapIndex]
    · have hm : key ∈ rest.map Prod.fst := by
        simp only [List.map_cons, List.mem_cons] at h
        rcases h with h | h
        · exact absurd h.symm hk
        · exact h
      simp only [mapIndex, hk, if_false, List.mem_cons]
      exact Or.inr (ih hm)

theorem foldl_mapAssign_keys (ps : List (GoString × Value)) :
    ∀ (rv : List (GoString × GoVal)) (key : GoString),
      key ∈ (ps.foldl (fun rv p => mapAssign rv p.1 p.2.toInterface) rv).map Prod.fst ↔
        key ∈ rv.map Prod.fst ∨ key ∈ ps.map Prod.fst := by
  induction ps with
  | nil => intro rv key; simp
  | cons p rest ih =>
    intro rv key
    rw [List.foldl_cons, ih, mapAssign_keys]
    by_cases hm : p.1 ∈ rv.map Prod.fst
    · rw [if_pos hm]
      simp only [List.map_cons, List.mem_cons]
      constructor
      · rintro (h | h)
        · exact Or.inl h
        · exact Or.inr (Or.inr h)
      · rintro (h | h | h)
        · exact Or.inl h
        · exact Or.inl (h ▸ hm)
        · exact Or.inr h
    · rw [if_neg hm]
      simp only [List.map_cons, List.mem_cons, List.mem_append, List.mem_singleton]
      tauto

theorem foldl_mapAssign_nodup (ps : List (GoString × Value)) :
    ∀ rv : List (GoString × GoVal), (rv.map Prod.fst).Nodup →
      ((ps.foldl (fun rv p => mapAssign rv p.1 p.2.toInterface) rv).map Prod.fst).Nodup := by
  induction ps with
  | nil => intro rv h; simpa using h
  | cons p rest ih =>
    intro rv h
    rw [List.foldl_cons]
    apply ih
    rw [mapAssign_keys]
    split
    · exact h
    · rename_i hm
      exact List.Nodup.append h (List.nodup_singleton _) (by simpa using hm)

theorem foldl_mapAssign_other (ps : List (GoString × Value)) :
    ∀ (rv : List (GoString × GoVal)) (key : GoString), key ∉ ps.map Prod.fst →
      mapIndex (ps.foldl (fun rv p => mapAssign rv p.1 p.2.toInterface) rv) key =
        mapIndex rv key := by
  induction ps with
  | nil => intro rv key _; rfl
  | cons p rest ih =>
    intro rv key hk
    simp only [List.map_cons, List.mem_cons, not_or] at hk
    rw [List.foldl_cons, ih _ _ hk.2, mapIndex_mapAssign, if_neg (fun h => hk.1 h.symm)]

/-- The assignment at the last position of a name is the one that stays. -/
theorem foldl_mapAssign_last (keys : List GoString) :
    ∀ (ds : List Value) (rv : List (GoString × GoVal)) (i : Nat) (key : GoString) (d : Value),
      keys[i]? = some key → ds[i]? = some d →
      (∀ j, i < j → keys[j]? ≠ some key) →
        mapIndex ((keys.zip ds).foldl (fun rv p => mapAssign rv p.1 p.2.toInterface) rv) key =
          d.toInterface := by
  induction keys with
  | nil => intro ds rv i key d hk; simp at hk
  | cons a keys ih =>
    intro ds rv i key d hk hd hlast
    cases ds with
    | nil => simp at hd
    | cons b ds =>
      rw [List.zip_cons_cons, List.foldl_cons]
      cases i with
      | zero =>
        simp only [List.getElem?_cons_zero, Option.some.injEq] at hk hd
        subst hk hd
        have hnot : a ∉ (keys.zip ds).map Prod.fst := by
          intro hm
          obtain ⟨⟨k, v⟩, hp, hk⟩ := List.mem_map.mp hm
          simp only at hk
          subst hk
          obtain ⟨j, hj⟩ := List.mem_iff_getElem?.mp (List.of_mem_zip hp).1
          exact hlast (j + 1) (by omega) (by simpa using hj)
        rw [foldl_mapAssign_other _ _ _ hnot, mapIndex_mapAssign, if_pos rfl]
      | succ i =>
        simp only [List.getElem?_cons_succ] at hk hd
        apply ih ds _ i key d hk hd
        intro j hj
        have := hlast (j + 1) (by omega)
        simpa using this

theorem decodeCompoundLoop_done (ca : List GoVal) (midpoint i : Nat)
    (rv : List (GoString × GoVal)) (hi : ¬ i < midpoint) :
    decodeCompoundLoop ca midpoint i rv = .ok rv := by
  rw [decodeCompoundLoop]
  simp [hi]

theorem decodeCompoundLoop_string (ca : List GoVal) (midpoint i : Nat)
    (rv : List (GoString × GoVal)) (hi : i < midpoint) (key : GoString) (y : GoVal)
    (hx : ca[i]? = some (.string key)) (hy : ca[i + midpoint]? = some y) :
    decodeCompoundLoop ca midpoint i rv =
      match convertCouchbaseViewKeyEntryToValue y with
      | .error err => .error err
      | .ok decodedVal =>
        decodeCompoundLoop ca midpoint (i + 1) (mapAssign rv key decodedVal.toInterface) := by
  rw [decodeCompoundLoop]
  simp only [hi, dite_true]
  have e1 : sliceIndex ca i = some (.string key) := hx
  have e2 : sliceIndex ca (i + midpoint) = some y := hy
  rw [e1]
  simp only
  split
  · rename_i h; rw [e2] at h; simp at h
  · rename_i val h
    rw [e2] at h
    simp only [Option.some.injEq] at h
    subst h
    rfl

theorem decodeCompoundLoop_nonstring (ca : List GoVal) (midpoint i : Nat)
    (rv : List (GoString × GoVal)) (hi : i < midpoint) (x : GoVal)
    (hx : ca[i]? = some x) (hns : ∀ s, x ≠ .string s) :
    decodeCompoundLoop ca midpoint i rv =
      .error (.error "compound object array contains non-string in key position") := by
  rw [decodeCompoundLoop]
  simp only [hi, dite_true]
  have e1 : sliceIndex ca i = some x := hx
  rw [e1]
  cases x with
  | string key => exact absurd rfl (hns key)
  | _ => rfl

theorem convert_error_kind (v : GoVal) (e : Failure)
    (h : convertCouchbaseViewKeyEntryToValue v = .error e) : ∃ msg, e = .error msg := by
  rcases convert_total_aux (sizeOf v) v (le_refl _) with ⟨d, hd⟩ | ⟨msg, hm⟩
  · rw [hd] at h; simp at h
  · rw [hm] at h
    simp only [Except.error.injEq] at h
    exact ⟨msg, h.symm⟩

theorem decodeCompoundLoop_error (ca : List GoVal) (midpoint : Nat)
    (hlen : ca.length = 2 * midpoint) (j : Nat) (hj : j < midpoint)
    (hbad : (∀ s, ca[j]? ≠ some (.string s)) ∨
      ∃ x e, ca[j + midpoint]? = some x ∧ convertCouchbaseViewKeyEntryToValue x = .error e) :
    ∀ (k i : Nat) (rv : List (GoString × GoVal)), midpoint - i = k → i ≤ j →
      ∃ msg, decodeCompoundLoop ca midpoint i rv = .error (.error msg) := by
  intro k
  induction k with
  | zero => intro i rv hk hij; omega
  | succ k ih =>
    intro i rv hk hij
    have hi : i < midpoint := by omega
    have h1 : i < ca.length := by omega
    have h2 : i + midpoint < ca.length := by omega
    obtain ⟨x, hx⟩ : ∃ x, ca[i]? = some x := ⟨_, List.getElem?_eq_getElem h1⟩
    obtain ⟨y, hy⟩ : ∃ y, ca[i + midpoint]? = some y := ⟨_, List.getElem?_eq_getElem h2⟩
    by_cases hs : ∃ key, x = .string key
    · obtain ⟨key, rfl⟩ := hs
      rw [decodeCompoundLoop_string ca midpoint i rv hi key y hx hy]
      cases hc : convertCouchbaseViewKeyEntryToValue y with
      | error e =>
        obtain ⟨msg, rfl⟩ := convert_error_kind _ _ hc
        exact ⟨msg, rfl⟩
      | ok d =>
        simp only
        apply ih (i + 1) _ (by omega)
        by_contra hne
        have hij' : i = j := by omega
        subst hij'
        rcases hbad with hb | ⟨x', e, hx', he⟩
        · exact hb key hx
        · rw [hy] at hx'
          simp only [Option.some.injEq] at hx'
          subst hx'
          rw [hc] at he
          simp at he
    · rw [decodeCompoundLoop_nonstring ca midpoint i rv hi x hx
        (fun s h => hs ⟨s, h⟩)]
      exact ⟨_, rfl⟩

theorem decodeCompoundLoop_ok (keys : List GoString) (xs : List GoVal) (ds : List Value)
    (hlen : keys.length = xs.length)
    (hx : List.Forall₂ (fun x d => convertCouchbaseViewKeyEntryToValue x = .ok d) xs ds) :
    ∀ (k i : Nat) (rv : List (GoString × GoVal)), keys.length - i = k →
      decodeCompoundLoop (keys.map GoVal.string ++ xs) keys.length i rv =
        .ok (((keys.zip ds).drop i).foldl
          (fun rv p => mapAssign rv p.1 p.2.toInterface) rv) := by
  have hds : xs.length = ds.length := hx.length_eq
  intro k
  induction k with
  | zero =>
    intro i rv hk
    rw [decodeCompoundLoop_done _ _ _ _ (by omega),
      List.drop_eq_nil_of_le (by simp; omega)]
    rfl
  | succ k ih =>
    intro i rv hk
    have hi : i < keys.length := by omega
    have hix : i < xs.length := by omega
    have hid : i < ds.length := by omega
    have e1 : (keys.map GoVal.string ++ xs)[i]? = some (.string keys[i]) := by
      rw [List.getElem?_append_left (by simpa using hi)]
      simp [List.getElem?_eq_getElem hi]
    have e2 : (keys.map GoVal.string ++ xs)[i + keys.length]? = some xs[i] := by
      rw [List.getElem?_append_right (by simp)]
      simp [List.getElem?_eq_getElem hix]
    have hconv : convertCouchbaseViewKeyEntryToValue xs[i] = .ok ds[i] := by
      have := hx.get hix hid
      simpa using this
    rw [decodeCompoundLoop_string _ _ i rv hi _ _ e1 e2]
    simp only [hconv]
    rw [ih (i + 1) _ (by omega)]
    have hz : i < (keys.zip ds).length := by simp; omega
    rw [List.drop_eq_getElem_cons hz, List.foldl_cons]
    simp

theorem all_strings (l : List GoVal) (h : ∀ x ∈ l, ∃ s, x = GoVal.string s) :
    ∃ keys : List GoString, l = keys.map GoVal.string := by
  induction l with
  | nil => exact ⟨[], rfl⟩
  | cons x rest ih =>
    obtain ⟨s, rfl⟩ := h x (List.mem_cons_self _ _)
    obtain ⟨keys, rfl⟩ := ih (fun y hy => h y (List.mem_cons_of_mem _ hy))
    exact ⟨s :: keys, rfl⟩

theorem all_decode (l : List GoVal)
    (h : ∀ x ∈ l, ∃ d, convertCouchbaseViewKeyEntryToValue x = .ok d) :
    ∃ ds : List Value,
      List.Forall₂ (fun x d => convertCouchbaseViewKeyEntryToValue x = .ok d) l ds := by
  induction l with
  | nil => exact ⟨[], List.Forall₂.nil⟩
  | cons x rest ih =>
    obtain ⟨d, hd⟩ := h x (List.mem_cons_self _ _)
    obtain ⟨ds, hds⟩ := ih (fun y hy => h y (List.mem_cons_of_mem _ hy))
    exact ⟨d :: ds, List.Forall₂.cons hd hds⟩


/-- C18: `decodeCompoundArrayAsObject` returns an error on an array of odd
length, on an element of the first half that is not a string, and on an
element of the second half that `convertCouchbaseViewKeyEntryToValue` fails to
decode; on every other array, [k1..kn, v1..vn], it returns the object whose
names are the ki, each name mapped to the decoded vi of its last position. -/
theorem C18_decode_compound (ca : List GoVal) :
    (ca.length % 2 ≠ 0 → decodeCompoundArrayAsObject ca =
      .error (.error "compound object array must be even length")) ∧
    (ca.length % 2 = 0 → (∃ i, i < ca.length / 2 ∧ ∀ s, ca[i]? ≠ some (.string s)) →
      ∃ msg, decodeCompoundArrayAsObject ca = .error (.error msg)) ∧
    (ca.length % 2 = 0 →
      (∃ i x e, ca.length / 2 ≤ i ∧ ca[i]? = some x ∧
        convertCouchbaseViewKeyEntryToValue x = .error e) →
      ∃ msg, decodeCompoundArrayAsObject ca = .error (.error msg)) ∧
    (ca.length % 2 = 0 → (∀ i, i < ca.length / 2 → ∃ s, ca[i]? = some (.string s)) →
      (∀ i x, ca.length / 2 ≤ i → ca[i]? = some x →
        ∃ d, convertCouchbaseViewKeyEntryToValue x = .ok d) →
      ∃ (keys : List GoString) (xs : List GoVal) (ds : List Value),
        ca = keys.map GoVal.string ++ xs ∧ keys.length = xs.length ∧
        List.Forall₂ (fun x d => convertCouchbaseViewKeyEntryToValue x = .ok d) xs ds) ∧
    (∀ (keys : List GoString) (xs : List GoVal) (ds : List Value),
      ca = keys.map GoVal.string ++ xs → keys.length = xs.length →
      List.Forall₂ (fun x d => convertCouchbaseViewKeyEntryToValue x = .ok d) xs ds →
      ∃ obj, decodeCompoundArrayAsObject ca = .ok obj ∧
        obj = (keys.zip ds).foldl (fun rv p => mapAssign rv p.1 p.2.toInterface) [] ∧
        (obj.map Prod.fst).Nodup ∧
        (∀ key, key ∈ obj.map Prod.fst ↔ key ∈ keys) ∧
        ∀ (i : Nat) (key : GoString) (d : Value), keys[i]? = some key → ds[i]? = some d →
          (∀ j, i < j → keys[j]? ≠ some key) →
            mapIndex obj key = d.toInterface ∧ (key, d.toInterface) ∈ obj) := by
  refine ⟨?_, ?_, ?_, ?_, ?_⟩
  · intro h
    rw [decodeCompoundArrayAsObject]
    simp [h]
  · rintro hpar ⟨j, hj, hns⟩
    rw [decodeCompoundArrayAsObject]
    simp only [hpar, ne_eq, not_true_eq_false, if_false]
    exact decodeCompoundLoop_error ca (ca.length / 2) (by omega) j hj (Or.inl hns) _ 0 [] rfl
      (Nat.zero_le _)
  · rintro hpar ⟨i, x, e, hi, hx, he⟩
    rw [decodeCompoundArrayAsObject]
    simp only [hpar, ne_eq, not_true_eq_false, if_false]
    have hil : i < ca.length := by
      by_contra hge
      rw [List.getElem?_eq_none (by omega)] at hx
      simp at hx
    refine decodeCompoundLoop_error ca (ca.length / 2) (by omega) (i - ca.length / 2)
      (by omega) (Or.inr ⟨x, e, ?_, he⟩) _ 0 [] rfl (Nat.zero_le _)
    rw [Nat.sub_add_cancel hi]
    exact hx
  · intro hpar hkeys hvals
    have hk : ∀ x ∈ ca.take (ca.length / 2), ∃ s, x = GoVal.string s := by
      intro x hx
      obtain ⟨i, hi⟩ := List.mem_iff_getElem?.mp hx
      have hil : i < ca.length / 2 := by
        by_contra hge
        rw [List.getElem?_eq_none (by simp; omega)] at hi
        simp at hi
      rw [List.getElem?_take_of_lt hil] at hi
      obtain ⟨s, hs⟩ := hkeys i hil
      rw [hs] at hi
      simp only [Option.some.injEq] at hi
      exact ⟨s, hi.symm⟩
    have hv : ∀ x ∈ ca.drop (ca.length / 2),
        ∃ d, convertCouchbaseViewKeyEntryToValue x = .ok d := by
      intro x hx
      obtain ⟨i, hi⟩ := List.mem_iff_getElem?.mp hx
      rw [List.getElem?_drop] at hi
      exact hvals _ x (by omega) hi
    obtain ⟨keys, hkeys'⟩ := all_strings _ hk
    obtain ⟨ds, hds⟩ := all_decode _ hv
    refine ⟨keys, ca.drop (ca.length / 2), ds, ?_, ?_, hds⟩
    · rw [← hkeys', List.take_append_drop]
    · have h1 : (ca.take (ca.length / 2)).length = keys.length := by rw [hkeys']; simp
      rw [List.length_take] at h1
      rw [List.length_drop]
      omega
  · intro keys xs ds hca hlen hx
    have hds : xs.length = ds.length := hx.length_eq
    have hmid : ca.length / 2 = keys.length := by rw [hca]; simp; omega
    have hpar : ca.length % 2 = 0 := by rw [hca]; simp; omega
    refine ⟨_, ?_, rfl, ?_, ?_, ?_⟩
    · rw [decodeCompoundArrayAsObject]
      simp only [hpar, ne_eq, not_true_eq_false, if_false, hmid]
      rw [hca, decodeCompoundLoop_ok keys xs ds hlen hx _ 0 [] rfl]
      rfl
    · exact foldl_mapAssign_nodup _ _ (by simp)
    · intro key
      rw [foldl_mapAssign_keys, List.map_fst_zip _ _ (by omega)]
      simp
    · intro i key d hk hd hlast
      have hm := foldl_mapAssign_last keys ds [] i key d hk hd hlast
      refine ⟨hm, ?_⟩
      rw [← hm]
      apply mem_of_mapIndex
      rw [foldl_mapAssign_keys, List.map_fst_zip _ _ (by omega)]
      exact Or.inr (List.mem_iff_getElem?.mpr ⟨i, hk⟩)

/-- C18 at a concrete input: in [a, a, key of 1, key of 2] the name a repeats,
and the decoded object maps it to 2, the value of its later position. -/
theorem C18_decode_compound_witness :
    decodeCompoundArrayAsObject [.string [97], .string [97],
        .slice [.float64 128, .float64 1], .slice [.float64 128, .float64 2]] =
      .ok [([97], .value (.float64 2))] := by
  obtain ⟨obj, h, ho, -⟩ := (C18_decode_compound [.string [97], .string [97],
      .slice [.float64 128, .float64 1], .slice [.float64 128, .float64 2]]).2.2.2.2
    [[97], [97]] [.slice [.float64 128, .float64 1], .slice [.float64 128, .float64 2]]
    [NewValue (.float64 1), NewValue (.float64 2)] rfl rfl
    (List.Forall₂.cons (by rw [convert_pair]; norm_num)
      (List.Forall₂.cons (by rw [convert_pair]; norm_num) List.Forall₂.nil))
  rw [h, ho]
  rfl


/-! ### The fetches of a walk -/

/-- The rows a walk delivers are the rows its iterations sent, in order. -/
theorem walkLoop_results_eq_fetches (View : Nat → Options → ViewResult) (batchSize limit : Int) :
    ∀ (fuel call : Nat) (options : Options) (numRead : Int),
      resultsOf (walkLoop View batchSize limit fuel call options numRead).1 =
        (walkFetches View batchSize limit fuel call options numRead).flatMap Fetch.sent := by
  intro fuel
  induction fuel with
  | zero => intro call options numRead; simp [walkLoop, walkFetches, resultsOf]
  | succ fuel ih =>
    intro call options numRead
    rw [walkLoop, walkFetches]
    cases hv : View call options with
    | panicked msg => simp [resultsOf]
    | failed err => simp [resultsOf]
    | rows rows =>
      simp only
      split
      · cases hr : rowIndex rows batchSize with
        | none => simp [resultsOf_map_result]
        | some next =>
          simp only [resultsOf_append, resultsOf_map_result, ih, List.flatMap_cons]
      · simp [resultsOf_map_result]

theorem walk_results_eq_fetches (View : Nat → Options → ViewResult) (options : Option Options)
    (batchSize limit : Int) (fuel : Nat) :
    resultsOf (WalkViewInBatches View options batchSize limit fuel).events =
      (fetchesOf View options batchSize limit fuel).flatMap Fetch.sent := by
  cases options with
  | none => simp [WalkViewInBatches, walkBody, fetchesOf, resultsOf]
  | some o =>
    have h := walkLoop_results_eq_fetches View (effectiveBatchSize batchSize limit) limit fuel 0
      (o.set "limit" (.int64 (wrapInt64 (effectiveBatchSize batchSize limit + 1)))) 0
    simp only [WalkViewInBatches, walkBody, fetchesOf]
    rw [← h]
    generalize walkLoop View (effectiveBatchSize batchSize limit) limit fuel 0
      (o.set "limit" (.int64 (wrapInt64 (effectiveBatchSize batchSize limit + 1)))) 0 = r
    obtain ⟨sent, exit⟩ := r
    cases exit <;> simp [resultsOf_append, resultsOf]

/-- The first iteration is issued with the options the loop starts from. -/
theorem walkFetches_head (View : Nat → Options → ViewResult) (batchSize limit : Int)
    (fuel call : Nat) (options : Options) (numRead : Int) (f : Fetch)
    (h : (walkFetches View batchSize limit fuel call options numRead)[0]? = some f) :
    f.options = options := by
  cases fuel with
  | zero => simp [walkFetches] at h
  | succ fuel =>
    rw [walkFetches] at h
    cases hv : View call options with
    | panicked msg => rw [hv] at h; simp at h; rw [← h]
    | failed err => rw [hv] at h; simp at h; rw [← h]
    | rows rows =>
      rw [hv] at h
      simp only at h
      split at h
      · cases hr : rowIndex rows batchSize with
        | none => rw [hr] at h; simp at h; rw [← h]
        | some next => rw [hr] at h; simp at h; rw [← h]
      · simp at h; rw [← h]

/-- Every iteration: its outcome is what the fetch of its number returned on
its options, and it sent the first `batchSize` rows of the page. -/
theorem walkFetches_each (View : Nat → Options → ViewResult) (batchSize limit : Int) :
    ∀ (fuel call : Nat) (options : Options) (numRead : Int) (k : Nat) (f : Fetch),
      (walkFetches View batchSize limit fuel call options numRead)[k]? = some f →
        f.outcome = View (call + k) f.options ∧
        (∀ name, name ≠ "startkey" → name ≠ "startkey_docid" →
          f.options.get name = options.get name) ∧
        (∀ rows, f.outcome = .rows rows → f.sent = rows.take batchSize.toNat) ∧
        ((∀ rows, f.outcome ≠ .rows rows) → f.sent = []) := by
  intro fuel
  induction fuel with
  | zero => intro call options numRead k f h; simp [walkFetches] at h
  | succ fuel ih =>
    intro call options numRead k f h
    have hsent : ∀ rows : List ViewRow,
        (emitRows batchSize 0 rows numRead).1 = rows.take batchSize.toNat := by
      intro rows
      rw [emitRows_fst]
      simp
    rw [walkFetches] at h
    cases hv : View call options with
    | panicked msg =>
      rw [hv] at h
      cases k with
      | zero => simp at h; subst h; simp [hv]
      | succ k => simp at h
    | failed err =>
      rw [hv] at h
      cases k with
      | zero => simp at h; subst h; simp [hv]
      | succ k => simp at h
    | rows rows =>
      rw [hv] at h
      simp only at h
      have hone : ∀ k : Nat, [Fetch.mk options (.rows rows)
          (emitRows batchSize 0 rows numRead).1][k]? = some f →
          f.outcome = View (call + k) f.options ∧
          (∀ name, name ≠ "startkey" → name ≠ "startkey_docid" →
            f.options.get name = options.get name) ∧
          (∀ rows, f.outcome = .rows rows → f.sent = rows.take batchSize.toNat) ∧
          ((∀ rows, f.outcome ≠ .rows rows) → f.sent = []) := by
        intro k hk
        cases k with
        | zero =>
          simp at hk
          subst hk
          refine ⟨by simp [hv], fun _ _ _ => rfl, ?_, ?_⟩
          · intro rows' hr
            simp at hr
            subst hr
            exact hsent _
          · intro hn
            exact absurd rfl (hn rows)
        | succ k => simp at hk
      split at h
      · cases hr : rowIndex rows batchSize with
        | none => rw [hr] at h; exact hone k h
        | some next =>
          rw [hr] at h
          cases k with
          | zero => exact hone 0 (by simpa using h)
          | succ k =>
            simp only [List.getElem?_cons_succ] at h
            obtain ⟨h1, h2, h3, h4⟩ := ih _ _ _ _ _ h
            refine ⟨by rw [h1]; congr 1; omega, ?_, h3, h4⟩
            intro name hn1 hn2
            rw [h2 name hn1 hn2, Options.get_set_other _ _ _ _ (Ne.symm hn2),
              Options.get_set_other _ _ _ _ (Ne.symm hn1)]
      · exact hone k h

/-- Two consecutive iterations: the page of the first has a row at index
`batchSize`, and the second is issued with the options of the first, `startkey`
and `startkey_docid` set from that row. -/
theorem walkFetches_next (View : Nat → Options → ViewResult) (batchSize limit : Int) :
    ∀ (fuel call : Nat) (options : Options) (numRead : Int) (k : Nat) (f g : Fetch),
      (walkFetches View batchSize limit fuel call options numRead)[k]? = some f →
      (walkFetches View batchSize limit fuel call options numRead)[k + 1]? = some g →
        ∃ rows next, f.outcome = .rows rows ∧ (rows.length : Int) > batchSize ∧
          rowIndex rows batchSize = some next ∧
          g.options = (f.options.set "startkey" next.Key).set "startkey_docid"
            (.docID next.ID) := by
  intro fuel
  induction fuel with
  | zero => intro call options numRead k f g h; simp [walkFetches] at h
  | succ fuel ih =>
    intro call options numRead k f g hf hg
    rw [walkFetches] at hf hg
    cases hv : View call options with
    | panicked msg => rw [hv] at hg; simp at hg
    | failed err => rw [hv] at hg; simp at hg
    | rows rows =>
      rw [hv] at hf hg
      simp only at hf hg
      split at hf
      · rename_i hc
        rw [if_pos hc] at hg
        cases hr : rowIndex rows batchSize with
        | none => rw [hr] at hg; simp at hg
        | some next =>
          rw [hr] at hf hg
          simp only [List.getElem?_cons_succ] at hg
          cases k with
          | zero =>
            simp at hf
            subst hf
            exact ⟨rows, next, rfl, hc.1, hr, walkFetches_head _ _ _ _ _ _ _ _ hg⟩
          | succ k =>
            simp only [List.getElem?_cons_succ] at hf
            exact ih _ _ _ _ _ _ hf hg
      · rename_i hc
        rw [if_neg hc] at hg
        simp at hg


theorem take_min_length (rows : List ViewRow) (b : Int) :
    rows.take (min b (rows.length : Int)).toNat = rows.take b.toNat := by
  rcases le_total b (rows.length : Int) with h | h
  · rw [min_eq_left h]
  · rw [min_eq_right h, Int.toNat_ofNat, List.take_length,
      List.take_of_length_le (by omega)]

/-- C19 (amended): every fetch of a walk is issued with `limit` set to b + 1 in
`int64` arithmetic, which is b + 1 itself whenever b is an `int64` below the
largest, where b is the batch size, replaced by the limit when that is non-zero
and smaller; and out of every fetched page the walk sends, in page order, the
first min(b, number of rows returned) rows and no others; what the walk
delivers is what its fetches sent. -/
theorem C19_fetch_size_and_emission (View : Nat → Options → ViewResult)
    (options : Option Options) (batchSize limit : Int) (fuel : Nat) :
    effectiveBatchSize batchSize limit =
      (if limit ≠ 0 ∧ limit < batchSize then limit else batchSize) ∧
    resultsOf (WalkViewInBatches View options batchSize limit fuel).events =
      (fetchesOf View options batchSize limit fuel).flatMap Fetch.sent ∧
    ∀ (k : Nat) (f : Fetch), (fetchesOf View options batchSize limit fuel)[k]? = some f →
      f.outcome = View k f.options ∧
      f.options.get "limit" =
        some (.int64 (wrapInt64 (effectiveBatchSize batchSize limit + 1))) ∧
      (-(2 ^ 63) ≤ effectiveBatchSize batchSize limit →
        effectiveBatchSize batchSize limit + 1 < 2 ^ 63 →
        f.options.get "limit" = some (.int64 (effectiveBatchSize batchSize limit + 1))) ∧
      (∀ rows, f.outcome = .rows rows →
        f.sent = rows.take (min (effectiveBatchSize batchSize limit) (rows.length : Int)).toNat) ∧
      ((∀ rows, f.outcome ≠ .rows rows) → f.sent = []) := by
  refine ⟨rfl, walk_results_eq_fetches View options batchSize limit fuel, ?_⟩
  intro k f hf
  cases options with
  | none => simp [fetchesOf] at hf
  | some o =>
    simp only [fetchesOf] at hf
    obtain ⟨e1, e2, e3, e4⟩ := walkFetches_each View _ limit fuel 0 _ 0 k f hf
    have hlim : f.options.get "limit" =
        some (.int64 (wrapInt64 (effectiveBatchSize batchSize limit + 1))) := by
      rw [e2 "limit" (by decide) (by decide), Options.get_set_self]
    refine ⟨by simpa using e1, hlim, ?_, ?_, e4⟩
    · intro h1 h2
      rw [hlim, wrapInt64_id _ (by omega) h2]
    · intro rows hr
      rw [take_min_length]
      exact e3 rows hr

/-- C19 (amended) at a concrete input: the ten-row sample store walked three
rows at a time takes four fetches, each asking for four rows; and with the
largest `int64` as batch size and limit 5, b is 5 and the fetch asks for six. -/
theorem C19_fetch_size_and_emission_witness :
    (fetchesOf (storeView cmpKeyNumber sampleStore) (some []) 3 0 11).length = 4 ∧
    ((fetchesOf (storeView cmpKeyNumber sampleStore) (some []) 3 0 11).map
      (fun f => f.sent.length)) = [3, 3, 3, 1] ∧
    (∀ (k : Nat) (f : Fetch),
      (fetchesOf (storeView cmpKeyNumber sampleStore) (some []) 3 0 11)[k]? = some f →
        f.options.get "limit" = some (.int64 4)) ∧
    (∀ (k : Nat) (f : Fetch),
      (fetchesOf (storeView cmpKeyNumber sampleStore) (some []) 9223372036854775807 5 11)[k]?
        = some f → f.options.get "limit" = some (.int64 6)) := by
  refine ⟨by decide, by decide, fun k f hf => ?_, fun k f hf => ?_⟩
  · exact ((C19_fetch_size_and_emission (storeView cmpKeyNumber sampleStore) (some []) 3 0 11).2.2
      k f hf).2.2.1 (by decide) (by decide)
  · exact ((C19_fetch_size_and_emission (storeView cmpKeyNumber sampleStore) (some [])
      9223372036854775807 5 11).2.2 k f hf).2.2.1 (by decide) (by decide)

/-- C20: when a fetch of a walk is followed by another, its page has more than
b rows, and the options of the next fetch are those of the fetch with
`startkey` and `startkey_docid` set to the key and the document id of the page
row at index b, the first row that was not sent; every other option, `endkey`,
`endkey_docid` and `limit` among them, is as it was. -/
theorem C20_next_fetch_options (View : Nat → Options → ViewResult)
    (options : Option Options) (batchSize limit : Int) (fuel : Nat) (k : Nat) (f g : Fetch)
    (hf : (fetchesOf View options batchSize limit fuel)[k]? = some f)
    (hg : (fetchesOf View options batchSize limit fuel)[k + 1]? = some g) :
    ∃ rows next, f.outcome = .rows rows ∧
      (rows.length : Int) > effectiveBatchSize batchSize limit ∧
      0 ≤ effectiveBatchSize batchSize limit ∧
      rows[(effectiveBatchSize batchSize limit).toNat]? = some next ∧
      f.sent = rows.take (effectiveBatchSize batchSize limit).toNat ∧
      g.options = (f.options.set "startkey" next.Key).set "startkey_docid" (.docID next.ID) ∧
      g.options.get "startkey" = some next.Key ∧
      g.options.get "startkey_docid" = some (.docID next.ID) ∧
      g.options.get "endkey" = f.options.get "endkey" ∧
      g.options.get "endkey_docid" = f.options.get "endkey_docid" ∧
      g.options.get "limit" = f.options.get "limit" ∧
      ∀ name, name ≠ "startkey" → name ≠ "startkey_docid" →
        g.options.get name = f.options.get name := by
  cases options with
  | none => simp [fetchesOf] at hf
  | some o =>
    simp only [fetchesOf] at hf hg
    obtain ⟨rows, next, hr, hl, hi, ho⟩ := walkFetches_next View _ limit fuel 0 _ 0 k f g hf hg
    obtain ⟨-, -, e3, -⟩ := walkFetches_each View _ limit fuel 0 _ 0 k f hf
    have hother : ∀ name, name ≠ "startkey" → name ≠ "startkey_docid" →
        g.options.get name = f.options.get name := by
      intro name h1 h2
      rw [ho, Options.get_set_other _ _ _ _ (Ne.symm h2),
        Options.get_set_other _ _ _ _ (Ne.symm h1)]
    have hb : 0 ≤ effectiveBatchSize batchSize limit := by
      by_contra hneg
      simp [rowIndex, hneg] at hi
    refine ⟨rows, next, hr, hl, hb, ?_, e3 rows hr, ho, ?_, ?_, hother _ (by decide) (by decide),
      hother _ (by decide) (by decide), hother _ (by decide) (by decide), hother⟩
    · simpa [rowIndex, not_lt.mpr hb] using hi
    · rw [ho, Options.get_set_other _ _ _ _ (by decide), Options.get_set_self]
    · rw [ho, Options.get_set_self]

/-- C20 at a concrete input: the first two fetches over the ten-row sample
store walked three rows at a time; the second starts at the fourth row. -/
theorem C20_next_fetch_options_witness :
    ∃ f g : Fetch,
      (fetchesOf (storeView cmpKeyNumber sampleStore) (some []) 3 0 11)[0]? = some f ∧
      (fetchesOf (storeView cmpKeyNumber sampleStore) (some []) 3 0 11)[1]? = some g ∧
      g.options.get "startkey_docid" = some (.docID [97]) ∧
      g.options.get "limit" = f.options.get "limit" := by
  refine ⟨_, _, rfl, rfl, ?_⟩
  obtain ⟨rows, next, -, -, -, -, -, -, -, -, -, -, h, -⟩ :=
    C20_next_fetch_options (storeView cmpKeyNumber sampleStore) (some []) 3 0 11 0 _ _ rfl rfl
  exact ⟨rfl, h⟩


/-! ### Strings as code points -/

theorem decodeRune_width (b : Fin 256) (rest : GoString) :
    1 ≤ (decodeRune (b :: rest)).2 ∧ (decodeRune (b :: rest)).2 ≤ (b :: rest).length := by
  rcases rest with _ | ⟨b1, _ | ⟨b2, _ | ⟨b3, rest⟩⟩⟩ <;>
    simp only [decodeRune, List.length_cons, List.length_nil] <;>
    split_ifs <;> simp

theorem decodeRune_runeLen (b : Fin 256) (rest : GoString)
    (h : decodeRune (b :: rest) ≠ (RuneError, 1)) :
    (decodeRune (b :: rest)).2 = runeLen (decodeRune (b :: rest)).1 := by
  have hb := b.isLt
  rcases rest with _ | ⟨b1, _ | ⟨b2, _ | ⟨b3, rest⟩⟩⟩ <;>
    simp only [decodeRune, isCont, decide_eq_true_eq] at h ⊢ <;>
    split_ifs at h ⊢ <;> simp only [runeLen, ne_eq, not_true_eq_false] at h ⊢ <;>
    split_ifs <;> omega

theorem rangeStringFrom_runes (fuel : Nat) : ∀ (i j : Nat) (s : GoString),
    (rangeStringFrom fuel i s).map Prod.snd = (rangeStringFrom fuel j s).map Prod.snd := by
  induction fuel with
  | zero => intro i j s; simp [rangeStringFrom]
  | succ fuel ih =>
    intro i j s
    cases s with
    | nil => simp [rangeStringFrom]
    | cons b rest =>
      simp only [rangeStringFrom, List.map_cons]
      rw [ih (i + (decodeRune (b :: rest)).2) (j + (decodeRune (b :: rest)).2)]

/-- On a valid string the loop of `encodeStringAsNumericArray` leaves every
code point at its place and a zero at every further byte of its UTF-8 form. -/
theorem foldl_set_valid (fuel : Nat) : ∀ (s : GoString) (pre : List ℚ), s.length ≤ fuel →
    validUTF8From fuel s = true →
    (rangeStringFrom fuel pre.length s).foldl (fun rv ir => rv.set ir.1 (ir.2 : ℚ))
        (pre ++ List.replicate s.length 0) =
      pre ++ paddedRunes ((rangeStringFrom fuel pre.length s).map Prod.snd) := by
  induction fuel with
  | zero =>
    intro s pre hs _
    have : s = [] := List.length_eq_zero.mp (by omega)
    subst this
    simp [rangeStringFrom, paddedRunes]
  | succ fuel ih =>
    intro s pre hs hv
    cases s with
    | nil => simp [rangeStringFrom, paddedRunes]
    | cons b rest =>
      obtain ⟨hw1, hw2⟩ := decodeRune_width b rest
      simp only [validUTF8From, Bool.and_eq_true, decide_eq_true_eq] at hv
      have hlen := decodeRune_runeLen b rest hv.1
      simp only [rangeStringFrom, List.foldl_cons, List.map_cons, paddedRunes]
      generalize hr : (decodeRune (b :: rest)).1 = r at *
      generalize hw : (decodeRune (b :: rest)).2 = w at *
      have hsplit : (b :: rest).length = 1 + ((w - 1) + ((b :: rest).drop w).length) := by
        rw [List.length_drop]; omega
      have hset : (pre ++ List.replicate (b :: rest).length (0 : ℚ)).set pre.length (r : ℚ) =
          (pre ++ (r : ℚ) :: List.replicate (w - 1) 0) ++
            List.replicate ((b :: rest).drop w).length 0 := by
        rw [hsplit, List.replicate_add, List.replicate_add]
        simp [List.set_append]
      have hpl : (pre ++ (r : ℚ) :: List.replicate (w - 1) 0).length = pre.length + w := by
        simp; omega
      rw [hset, ← hpl, ih _ _ (by rw [List.length_drop]; simp at hs ⊢; omega) hv.2, ← hlen]
      simp

theorem encodeString_valid (s : GoString) (h : validUTF8 s = true) :
    encodeStringAsNumericArray s = paddedRunes (runesOf s) := by
  have := foldl_set_valid s.length s [] (le_refl _) h
  simpa [encodeStringAsNumericArray, rangeString, runesOf] using this

theorem lexCompare_common_front {α : Type} (cmp : α → α → Ordering) (p : List α)
    (hp : ∀ x ∈ p, cmp x x = Ordering.eq) (xs ys : List α) :
    lexCompare cmp (p ++ xs) (p ++ ys) = lexCompare cmp xs ys := by
  induction p with
  | nil => rfl
  | cons x p ih =>
    simp only [List.cons_append, lexCompare, hp x (List.mem_cons_self _ _), Ordering.then]
    exact ih (fun y hy => hp y (List.mem_cons_of_mem _ hy))

theorem compare_natCast (x y : Nat) : compare (x : ℚ) (y : ℚ) = compare x y := by
  rcases lt_trichotomy x y with h | h | h
  · rw [compare_lt_iff_lt.mpr h, compare_lt_iff_lt.mpr (by exact_mod_cast h)]
  · subst h
    rw [compare_eq_iff_eq.mpr rfl, compare_eq_iff_eq.mpr rfl]
  · rw [compare_gt_iff_gt.mpr h, compare_gt_iff_gt.mpr (by exact_mod_cast h)]

theorem lexCompare_paddedRunes (xs : List Nat) : ∀ ys : List Nat,
    lexCompare compare (paddedRunes xs) (paddedRunes ys) = lexCompare compare xs ys := by
  induction xs with
  | nil => intro ys; cases ys <;> simp [paddedRunes, lexCompare]
  | cons x xs ih =>
    intro ys
    cases ys with
    | nil => simp [paddedRunes, lexCompare]
    | cons y ys =>
      simp only [paddedRunes, lexCompare, compare_natCast]
      by_cases hxy : x = y
      · subst hxy
        rw [lexCompare_common_front compare _ (fun z _ => compare_eq_iff_eq.mpr rfl), ih]
      · have hne : compare x y ≠ Ordering.eq := fun h => hxy (compare_eq_iff_eq.mp h)
        cases hc : compare x y with
        | eq => exact absurd hc hne
        | lt => rfl
        | gt => rfl

/-- C11 (the code at inputs where the order differs): the one byte 0xFF and
the three bytes of U+FFFD are both read as the code point U+FFFD, so the two
strings are equal by code point (and the first is greater byte by byte), yet
the array of the first, [65533], is a proper prefix of the array of the second,
[65533, 0, 0], and sorts before it; and with a further letter, 0xFF "a" sorts
before U+FFFD "b" by code point and after it by array. -/
theorem C11_invalid_bytes_order :
    encodeStringAsNumericArray [0xFF] = [65533] ∧
    encodeStringAsNumericArray [0xEF, 0xBF, 0xBD] = [65533, 0, 0] ∧
    lexCompare compare (encodeStringAsNumericArray [0xFF])
      (encodeStringAsNumericArray [0xEF, 0xBF, 0xBD]) = Ordering.lt ∧
    runesOf [0xFF] = [65533] ∧ runesOf [0xEF, 0xBF, 0xBD] = [65533] ∧
    lexCompare compare (runesOf [0xFF]) (runesOf [0xEF, 0xBF, 0xBD]) = Ordering.eq ∧
    lexCompare compare ([0xFF] : GoString) [0xEF, 0xBF, 0xBD] = Ordering.gt ∧
    lexCompare compare (encodeStringAsNumericArray [0xFF, 97])
      (encodeStringAsNumericArray [0xEF, 0xBF, 0xBD, 98]) = Ordering.gt ∧
    lexCompare compare (runesOf [0xFF, 97]) (runesOf [0xEF, 0xBF, 0xBD, 98]) = Ordering.lt ∧
    validUTF8 [0xFF] = false := by
  decide

/-- C11 (amended): for two strings that are valid UTF-8, comparing their
numeric arrays lexicographically, number by number with a proper prefix
sorting first, gives the same result as comparing the strings lexicographically
by code point. -/
theorem C11_valid_strings_order (a b : GoString) (ha : validUTF8 a = true)
    (hb : validUTF8 b = true) :
    lexCompare compare (encodeStringAsNumericArray a) (encodeStringAsNumericArray b) =
      lexCompare compare (runesOf a) (runesOf b) := by
  rw [encodeString_valid a ha, encodeString_valid b hb, lexCompare_paddedRunes]

/-- C11 (amended) at a concrete input: "éa" sorts before "é€", by array as by
code point. -/
theorem C11_valid_strings_order_witness :
    validUTF8 [0xC3, 0xA9, 97] = true ∧ validUTF8 [0xC3, 0xA9, 0xE2, 0x82, 0xAC] = true ∧
    lexCompare compare (encodeStringAsNumericArray [0xC3, 0xA9, 97])
        (encodeStringAsNumericArray [0xC3, 0xA9, 0xE2, 0x82, 0xAC]) =
      lexCompare compare (runesOf [0xC3, 0xA9, 97]) (runesOf [0xC3, 0xA9, 0xE2, 0x82, 0xAC]) ∧
    lexCompare compare (runesOf [0xC3, 0xA9, 97]) (runesOf [0xC3, 0xA9, 0xE2, 0x82, 0xAC]) =
      Ordering.lt :=
  ⟨by decide, by decide,
    C11_valid_strings_order [0xC3, 0xA9, 97] [0xC3, 0xA9, 0xE2, 0x82, 0xAC] (by decide) (by decide),
    by decide⟩

/-! ### Termination over a sorted store -/

/-- On a sorted store the rows at or after the row at index `bn` of a range
that is a suffix of the store are that range from index `bn` on. -/
theorem filter_next_drop (cmp : GoVal → GoVal → Ordering) [Batteries.OrientedCmp cmp]
    (store : List ViewRow) (hs : store.Pairwise (rowLT cmp)) (pre R : List ViewRow)
    (hstore : store = pre ++ R) (opts : Options) (bn : Nat) (hlen : bn < R.length) :
    store.filter (atOrAfterStart cmp
      ((opts.set "startkey" R[bn].Key).set "startkey_docid" (.docID R[bn].ID))) =
        R.drop bn := by
  have hdrop : R.drop bn = R[bn] :: R.drop (bn + 1) := List.drop_eq_getElem_cons hlen
  have hsplit : R = R.take bn ++ R[bn] :: R.drop (bn + 1) := by
    conv_lhs => rw [← List.take_append_drop bn R]
    rw [hdrop]
  have hstore' : store = (pre ++ R.take bn) ++ R[bn] :: R.drop (bn + 1) := by
    rw [List.append_assoc, ← hsplit]; exact hstore
  have hfun : atOrAfterStart cmp
      ((opts.set "startkey" R[bn].Key).set "startkey_docid" (.docID R[bn].ID)) =
        fun row => decide (cmpKeyID cmp row.Key row.ID R[bn].Key R[bn].ID ≠ Ordering.lt) :=
    funext (atOrAfterStart_next cmp opts R[bn])
  rw [hfun, hdrop]
  have hs' := hs
  rw [hstore'] at hs'
  have := filter_from_row cmp (pre ++ R.take bn) (R.drop (bn + 1)) R[bn] hs'
  rw [← hstore'] at this
  exact this

/-- The page of a fetch on the store, whatever the value of its `limit`. -/
theorem storeView_page (cmp : GoVal → GoVal → Ordering) (store : List ViewRow) (call : Nat)
    (opts : Options) :
    ∃ m : Nat, storeView cmp store call opts =
      ViewResult.rows ((store.filter (atOrAfterStart cmp opts)).take m) := by
  unfold storeView
  split
  · rename_i n _
    exact ⟨n.toNat, rfl⟩
  · exact ⟨(store.filter (atOrAfterStart cmp opts)).length, by rw [List.take_length]⟩

/-- Over a sorted store the loop ends normally within one iteration more than
the rows it starts from, for every limit and every value of the `limit`
option: a further fetch starts `batchSize` rows later. -/
theorem walkLoop_store_done (cmp : GoVal → GoVal → Ordering) [Batteries.OrientedCmp cmp]
    (store : List ViewRow) (hs : store.Pairwise (rowLT cmp)) (b limit : Int) (hb : 1 ≤ b) :
    ∀ (fuel : Nat) (R pre : List ViewRow) (opts : Options) (call : Nat) (numRead : Int),
      R.length < fuel → store = pre ++ R →
      store.filter (atOrAfterStart cmp opts) = R →
      (walkLoop (storeView cmp store) b limit fuel call opts numRead).2 = Exit.done := by
  intro fuel
  induction fuel with
  | zero => intro R pre opts call numRead hf; omega
  | succ fuel ih =>
    intro R pre opts call numRead hf hstore hfilter
    obtain ⟨bn, rfl⟩ : ∃ m : Nat, b = (m : Int) := ⟨b.toNat, by omega⟩
    obtain ⟨m, hview⟩ := storeView_page cmp store call opts
    rw [hfilter] at hview
    rw [walkLoop, hview]
    simp only
    split
    · rename_i hc
      have hlen : bn < (R.take m).length := by omega
      have hlenR : bn < R.length := by
        rw [List.length_take] at hlen; omega
      have hidx : rowIndex (R.take m) (bn : Int) = some R[bn] := by
        have h0 : ¬ ((bn : Int) < 0) := by omega
        have hm : bn < m := by rw [List.length_take] at hlen; omega
        simp [rowIndex, h0, List.getElem?_take, hm, hlenR]
      rw [hidx]
      simp only
      exact ih (R.drop bn) (pre ++ R.take bn) _ (call + 1) _
        (by rw [List.length_drop]; omega)
        (by rw [List.append_assoc, List.take_append_drop]; exact hstore)
        (filter_next_drop cmp store hs pre R hstore opts bn hlenR)
    · rfl

/-- Two consecutive fetches over a sorted store: the range of the second is
the range of the first without its first `batchSize` rows. -/
theorem walkFetches_store_later (cmp : GoVal → GoVal → Ordering) [Batteries.TransCmp cmp]
    (store : List ViewRow) (hs : store.Pairwise (rowLT cmp)) (b limit : Int) (hb : 1 ≤ b)
    (fuel call : Nat) (opts : Options) (numRead : Int) (k : Nat) (f g : Fetch)
    (hf : (walkFetches (storeView cmp store) b limit fuel call opts numRead)[k]? = some f)
    (hg : (walkFetches (storeView cmp store) b limit fuel call opts numRead)[k + 1]? = some g) :
    b.toNat < (store.filter (atOrAfterStart cmp f.options)).length ∧
    store.filter (atOrAfterStart cmp g.options) =
      (store.filter (atOrAfterStart cmp f.options)).drop b.toNat := by
  obtain ⟨bn, rfl⟩ : ∃ m : Nat, b = (m : Int) := ⟨b.toNat, by omega⟩
  obtain ⟨rows, next, hr, hl, hi, ho⟩ := walkFetches_next _ _ limit fuel call opts numRead k f g hf hg
  obtain ⟨e1, -, -, -⟩ := walkFetches_each _ _ limit fuel call opts numRead k f hf
  obtain ⟨m, hview⟩ := storeView_page cmp store (call + k) f.options
  rw [← e1, hr] at hview
  simp only [ViewResult.rows.injEq] at hview
  obtain ⟨pre, hpre⟩ := filter_is_suffix cmp f.options store hs
  generalize hR : store.filter (atOrAfterStart cmp f.options) = R at *
  subst hview
  have hlen : bn < (R.take m).length := by omega
  have hlenR : bn < R.length := by rw [List.length_take] at hlen; omega
  have hm : bn < m := by rw [List.length_take] at hlen; omega
  have hnext : next = R[bn] := by
    have h0 : ¬ ((bn : Int) < 0) := by omega
    simp [rowIndex, h0, List.getElem?_take, hm, hlenR] at hi
    exact hi.symm
  subst hnext
  refine ⟨by simpa using hlenR, ?_⟩
  rw [ho, Int.toNat_ofNat]
  exact filter_next_drop cmp store hs pre R hpre f.options bn hlenR

theorem effectiveBatchSize_pos (batchSize limit : Int) (hb : 1 ≤ batchSize) (hl : 0 ≤ limit) :
    1 ≤ effectiveBatchSize batchSize limit := by
  unfold effectiveBatchSize
  split <;> omega

/-- C22: over a store sorted by (key, document id), whose fetches return the
first `limit` rows at or after (`startkey`, `startkey_docid`), a walk with a
batch size from 1 on and a limit from 0 on returns within one loop iteration
more than the store has rows, without an error; and of two consecutive fetches
the second ranges over the rows of the first without the first b of them, b
being the batch size in effect, at least 1 and less than their number. -/
theorem C22_walk_terminates (cmp : GoVal → GoVal → Ordering) [Batteries.TransCmp cmp]
    (store : List ViewRow) (options : Options) (batchSize limit : Int) (fuel : Nat)
    (hsorted : store.Pairwise (rowLT cmp)) (hb : 1 ≤ batchSize) (hl : 0 ≤ limit)
    (hfuel : store.length < fuel) :
    (WalkViewInBatches (storeView cmp store) (some options) batchSize limit fuel).closed = true ∧
    (walkBody (storeView cmp store) (some options) batchSize limit fuel).2 = Exit.done ∧
    errorsOf (WalkViewInBatches (storeView cmp store) (some options) batchSize limit fuel).events
      = [] ∧
    1 ≤ (effectiveBatchSize batchSize limit).toNat ∧
    ∀ (k : Nat) (f g : Fetch),
      (fetchesOf (storeView cmp store) (some options) batchSize limit fuel)[k]? = some f →
      (fetchesOf (storeView cmp store) (some options) batchSize limit fuel)[k + 1]? = some g →
        (effectiveBatchSize batchSize limit).toNat <
          (store.filter (atOrAfterStart cmp f.options)).length ∧
        store.filter (atOrAfterStart cmp g.options) =
          (store.filter (atOrAfterStart cmp f.options)).drop
            (effectiveBatchSize batchSize limit).toNat := by
  have hpos := effectiveBatchSize_pos batchSize limit hb hl
  obtain ⟨pre, hpre⟩ := filter_is_suffix cmp
    (options.set "limit" (.int64 (wrapInt64 (effectiveBatchSize batchSize limit + 1))))
    store hsorted
  have hdone : (walkBody (storeView cmp store) (some options) batchSize limit fuel).2 =
      Exit.done := by
    simp only [walkBody]
    exact walkLoop_store_done cmp store hsorted _ limit hpos fuel _ pre _ 0 0
      (lt_of_le_of_lt (List.length_filter_le _ _) hfuel) hpre rfl
  obtain ⟨rows, hr⟩ := walkLoop_shape (storeView cmp store) (effectiveBatchSize batchSize limit)
    limit fuel 0
    (options.set "limit" (.int64 (wrapInt64 (effectiveBatchSize batchSize limit + 1)))) 0
  refine ⟨?_, hdone, ?_, by omega, ?_⟩
  · simp only [walkBody] at hdone
    simp only [WalkViewInBatches, walkBody]
    generalize walkLoop (storeView cmp store) (effectiveBatchSize batchSize limit) limit fuel 0
      (options.set "limit" (.int64 (wrapInt64 (effectiveBatchSize batchSize limit + 1)))) 0
      = out at hdone
    obtain ⟨sent, exit⟩ := out
    simp only at hdone
    subst hdone
    rfl
  · simp only [walkBody] at hdone
    simp only [WalkViewInBatches, walkBody]
    generalize walkLoop (storeView cmp store) (effectiveBatchSize batchSize limit) limit fuel 0
      (options.set "limit" (.int64 (wrapInt64 (effectiveBatchSize batchSize limit + 1)))) 0
      = out at hdone hr
    obtain ⟨sent, exit⟩ := out
    simp only at hdone hr
    subst hdone
    simp only [reduceCtorEq, if_false, List.append_nil] at hr
    subst hr
    exact errorsOf_map_result _
  · intro k f g hf hg
    simp only [fetchesOf] at hf hg
    exact walkFetches_store_later cmp store hsorted _ limit hpos fuel 0 _ 0 k f g hf hg

/-- C22 at a concrete input: the ten-row sample store walked three rows at a
time with limit 5 returns, after two fetches. -/
theorem C22_walk_terminates_witness :
    (WalkViewInBatches (storeView cmpKeyNumber sampleStore) (some []) 3 5 11).closed = true ∧
    (fetchesOf (storeView cmpKeyNumber sampleStore) (some []) 3 5 11).length = 2 :=
  ⟨(@C22_walk_terminates cmpKeyNumber transCmp_cmpKeyNumber sampleStore [] 3 5 11
    (by decide) (by decide) (by decide) (by decide)).1, by decide⟩


/-! ### The limit, page by page -/

/-- The count of delivered rows after a page, as long as it fits an `int64`. -/
theorem emitRows_snd (batchSize : Int) (rows : List ViewRow) : ∀ (i : Nat) (numRead : Int),
    -(2 ^ 63) ≤ numRead → numRead + rows.length < 2 ^ 63 →
    (emitRows batchSize i rows numRead).2 =
      numRead + ((rows.take (batchSize - i).toNat).length : Int) := by
  induction rows with
  | nil => intro i numRead _ _; simp [emitRows]
  | cons row rest ih =>
    intro i numRead h1 h2
    simp only [List.length_cons, Nat.cast_add, Nat.cast_one] at h2
    rw [emitRows]
    split
    · rename_i h
      have e : (batchSize - (i : Int)).toNat = (batchSize - ((i + 1 : Nat) : Int)).toNat + 1 := by
        omega
      have hw : wrapInt64 (numRead + 1) = numRead + 1 := wrapInt64_id _ (by omega) (by omega)
      simp only
      rw [hw, ih (i + 1) (numRead + 1) (by omega) (by omega), e, List.take_succ_cons,
        List.length_cons]
      push_cast
      ring
    · rename_i h
      have e : (batchSize - (i : Int)).toNat = 0 := by omega
      rw [ih (i + 1) numRead h1 (by omega), e]
      have e' : (batchSize - ((i + 1 : Nat) : Int)).toNat = 0 := by omega
      rw [e']
      simp

theorem ceilDiv_one (x bn : Nat) (hx : 0 < x) (hxb : x ≤ bn) : (x + bn - 1) / bn = 1 := by
  apply Nat.div_eq_of_lt_le <;> omega

theorem ceilDiv_step (x bn : Nat) (hb : 1 ≤ bn) (hxb : bn < x) :
    (x + bn - 1) / bn = (x - bn + bn - 1) / bn + 1 := by
  have h : x + bn - 1 = (x - bn + bn - 1) + bn := by omega
  rw [h, Nat.add_div_right _ (by omega)]

theorem ceilDiv_pos (x bn : Nat) (hb : 1 ≤ bn) (hx : 0 < x) : 1 ≤ (x + bn - 1) / bn := by
  rw [Nat.le_div_iff_mul_le (by omega)]
  omega

/-- With a limit `L`, the loop over a sorted store that has delivered `nr` rows
sends the next b * ceil((L - nr) / b) rows of its range, or all that are left
when they are fewer, and ends normally. -/
theorem walkLoop_store_limit (cmp : GoVal → GoVal → Ordering) [Batteries.OrientedCmp cmp]
    (store : List ViewRow) (hs : store.Pairwise (rowLT cmp)) (bn L : Nat) (hb : 1 ≤ bn)
    (hbs : (bn : Int) + 1 < 2 ^ 63) :
    ∀ (n : Nat) (R pre : List ViewRow) (opts : Options) (call : Nat) (nr : Nat)
      (fuel : Nat), R.length ≤ n → n < fuel → store = pre ++ R →
      store.filter (atOrAfterStart cmp opts) = R →
      opts.get "limit" = some (.int64 ((bn : Int) + 1)) → nr < L →
      (nr : Int) + R.length < 2 ^ 63 →
      walkLoop (storeView cmp store) bn L fuel call opts nr =
        ((R.take (bn * ((L - nr + bn - 1) / bn))).map Event.result, Exit.done) := by
  intro n
  induction n with
  | zero =>
    intro R pre opts call nr fuel hR hf hstore hfilter hlimit hnr hfit
    obtain ⟨fuel, rfl⟩ : ∃ f, fuel = f + 1 := ⟨fuel - 1, by omega⟩
    have hnil : R = [] := List.length_eq_zero.mp (by omega)
    subst hnil
    rw [walkLoop]
    have hview : storeView cmp store call opts = ViewResult.rows [] := by
      simp [storeView, hlimit, hfilter]
    rw [hview]
    have : ¬ ((0 : Int) > (bn : Int)) := by omega
    simp [emitRows, this]
  | succ n ih =>
    intro R pre opts call nr fuel hR hf hstore hfilter hlimit hnr hfit
    obtain ⟨fuel, rfl⟩ : ∃ f, fuel = f + 1 := ⟨fuel - 1, by omega⟩
    rw [walkLoop]
    have hview : storeView cmp store call opts = ViewResult.rows (R.take (bn + 1)) := by
      have : ((bn : Int) + 1).toNat = bn + 1 := by omega
      simp [storeView, hlimit, hfilter, this]
    rw [hview]
    have hmin : min bn (bn + 1) = bn := by omega
    have hsent1 : (emitRows (bn : Int) 0 (R.take (bn + 1)) (nr : Int)).1 = R.take bn := by
      rw [emitRows_fst]
      simp [List.take_take, hmin]
    have hsent2 : (emitRows (bn : Int) 0 (R.take (bn + 1)) (nr : Int)).2 =
        (nr : Int) + ((min bn R.length : Nat) : Int) := by
      rw [emitRows_snd _ _ 0 _ (by omega)
        (by rw [List.length_take]; omega)]
      simp only [Nat.cast_zero, sub_zero, Int.toNat_ofNat, List.take_take, hmin,
        List.length_take]
    simp only [hsent1, hsent2, List.length_take]
    have hc1 := ceilDiv_pos (L - nr) bn hb (by omega)
    by_cases hcont : bn < R.length ∧ nr + bn < L
    · obtain ⟨hlen, hlim⟩ := hcont
      have hcond : ((min (bn + 1) R.length : Nat) : Int) > (bn : Int) ∧
          ((L : Int) = 0 ∨ ((L : Int) ≠ 0 ∧
            (nr : Int) + ((min bn R.length : Nat) : Int) < (L : Int))) := by
        refine ⟨by omega, Or.inr ⟨by omega, by omega⟩⟩
      rw [if_pos hcond]
      have hidx : rowIndex (R.take (bn + 1)) (bn : Int) = some R[bn] := by
        have h0 : ¬ ((bn : Int) < 0) := by omega
        simp [rowIndex, h0, List.getElem?_take, hlen]
      rw [hidx]
      simp only
      have hlimit' : ((opts.set "startkey" R[bn].Key).set "startkey_docid"
          (.docID R[bn].ID)).get "limit" = some (.int64 ((bn : Int) + 1)) := by
        rw [Options.get_set_other _ _ _ _ (by decide),
          Options.get_set_other _ _ _ _ (by decide), hlimit]
      have hnr' : (nr : Int) + ((min bn R.length : Nat) : Int) = ((nr + bn : Nat) : Int) := by
        have : min bn R.length = bn := by omega
        rw [this]; push_cast; rfl
      rw [hnr']
      have hrec := ih (R.drop bn) (pre ++ R.take bn) _ (call + 1) (nr + bn) fuel
        (by rw [List.length_drop]; omega) (by omega)
        (by rw [List.append_assoc, List.take_append_drop]; exact hstore)
        (filter_next_drop cmp store hs pre R hstore opts bn hlen) hlimit' hlim
        (by rw [List.length_drop]; push_cast; omega)
      rw [hrec]
      simp only
      have hstep := ceilDiv_step (L - nr) bn hb (by omega)
      have hsub : L - (nr + bn) = L - nr - bn := by omega
      have hc : bn * ((L - nr + bn - 1) / bn) =
          bn + bn * ((L - (nr + bn) + bn - 1) / bn) := by
        rw [hstep, hsub, Nat.mul_add, Nat.mul_one, Nat.add_comm]
      rw [hc, List.take_add, List.map_append]
    · have hcond : ¬ (((min (bn + 1) R.length : Nat) : Int) > (bn : Int) ∧
          ((L : Int) = 0 ∨ ((L : Int) ≠ 0 ∧
            (nr : Int) + ((min bn R.length : Nat) : Int) < (L : Int)))) := by
        rintro ⟨h1, h2 | ⟨-, h2⟩⟩
        · omega
        · apply hcont
          constructor <;> omega
      rw [if_neg hcond]
      by_cases hlen : bn < R.length
      · have hone : (L - nr + bn - 1) / bn = 1 :=
          ceilDiv_one (L - nr) bn (by omega) (by omega)
        rw [hone, Nat.mul_one]
      · have hle : bn ≤ bn * ((L - nr + bn - 1) / bn) := Nat.le_mul_of_pos_right _ hc1
        rw [List.take_of_length_le (by omega), List.take_of_length_le (by omega)]


theorem effectiveBatchSize_min (b L : Nat) (hL : 0 < L) :
    effectiveBatchSize (b : Int) (L : Int) = ((min b L : Nat) : Int) := by
  unfold effectiveBatchSize
  split <;> omega

/-- C21 (amended): with a limit L > 0 and a batch size b ≥ 1 such that
b' = min(b, L) is below the largest `int64`, over a sorted store whose fetches
return the first `limit` rows at or after the start of the request, the walk
delivers, in store order and without an error, the first b' * ceil(L / b')
rows at or after the start of its request, or all of them when they are fewer:
with no `startkey`, a prefix of the store of length
min(N, b' * ceil(L / b')).  The store length fits an `int64`. -/
theorem C21_limit_delivery (cmp : GoVal → GoVal → Ordering) [Batteries.TransCmp cmp]
    (store : List ViewRow) (options : Options) (b L : Nat) (fuel : Nat)
    (hsorted : store.Pairwise (rowLT cmp)) (hb : 1 ≤ b) (hL : 0 < L)
    (hbs : ((min b L : Nat) : Int) + 1 < 2 ^ 63) (hN : (store.length : Int) < 2 ^ 63)
    (hfuel : store.length < fuel) :
    (WalkViewInBatches (storeView cmp store) (some options) b L fuel).events =
      ((store.filter (atOrAfterStart cmp options)).take
        (min b L * ((L + min b L - 1) / min b L))).map Event.result ∧
    (options.get "startkey" = none →
      (WalkViewInBatches (storeView cmp store) (some options) b L fuel).events =
        (store.take (min b L * ((L + min b L - 1) / min b L))).map Event.result ∧
      (resultsOf (WalkViewInBatches (storeView cmp store) (some options) b L fuel).events).length
        = min store.length (min b L * ((L + min b L - 1) / min b L))) ∧
    errorsOf (WalkViewInBatches (storeView cmp store) (some options) b L fuel).events = [] ∧
    (WalkViewInBatches (storeView cmp store) (some options) b L fuel).closed = true := by
  have heff := effectiveBatchSize_min b L hL
  have hwrap : wrapInt64 (((min b L : Nat) : Int) + 1) = ((min b L : Nat) : Int) + 1 :=
    wrapInt64_id _ (by omega) hbs
  obtain ⟨pre, hpre⟩ := filter_is_suffix cmp options store hsorted
  have hlenR : (store.filter (atOrAfterStart cmp options)).length ≤ store.length :=
    List.length_filter_le _ _
  have hloop := walkLoop_store_limit cmp store hsorted (min b L) L (by omega) hbs store.length
    (store.filter (atOrAfterStart cmp options)) pre
    (options.set "limit" (.int64 (((min b L : Nat) : Int) + 1))) 0 0 fuel hlenR hfuel hpre
    (by rw [atOrAfterStart_set_limit]) (Options.get_set_self _ _ _) hL
    (by push_cast; omega)
  have hW : WalkViewInBatches (storeView cmp store) (some options) b L fuel =
      ⟨((store.filter (atOrAfterStart cmp options)).take
        (min b L * ((L + min b L - 1) / min b L))).map Event.result, true⟩ := by
    simp only [WalkViewInBatches, walkBody, heff, hwrap]
    have h0 : ((0 : Nat) : Int) = 0 := rfl
    rw [← h0, hloop]
    simp
  refine ⟨by rw [hW], ?_, by rw [hW]; exact errorsOf_map_result _, by rw [hW]⟩
  intro hnone
  have hall : store.filter (atOrAfterStart cmp options) = store := by
    rw [List.filter_eq_self]
    intro r _
    simp [atOrAfterStart, hnone]
  rw [hW, hall]
  refine ⟨rfl, ?_⟩
  simp only [resultsOf_map_result, List.length_take]
  exact Nat.min_comm _ _

/-- C21 (amended) at a concrete input: the ten-row sample store with limit 5 and batch
size 3 delivers its first 3 * ceil(5 / 3) = 6 rows. -/
theorem C21_limit_delivery_witness :
    (WalkViewInBatches (storeView cmpKeyNumber sampleStore) (some []) 3 5 11).events =
      (sampleStore.take 6).map Event.result ∧
    (resultsOf (WalkViewInBatches (storeView cmpKeyNumber sampleStore) (some [])
      3 5 11).events).length = 6 := by
  have h := (@C21_limit_delivery cmpKeyNumber transCmp_cmpKeyNumber sampleStore [] 3 5 11
    (by decide) (by decide) (by decide) (by decide) (by decide) (by decide)).2.1 rfl
  exact ⟨h.1, h.2⟩


/-! ### The index expression of the walker -/

theorem effectiveBatchSize_nonneg (batchSize limit : Int) (hb : 0 ≤ batchSize) (hl : 0 ≤ limit) :
    0 ≤ effectiveBatchSize batchSize limit := by
  unfold effectiveBatchSize
  split <;> omega

/-- C23: with a batch size and a limit that are not negative, the index
expression `vres.Rows[batchSize]` is within bounds on every page that passes
the guard `len(vres.Rows) > batchSize` in front of it, a fetch is followed by
another only when its page passed that guard, and the body of the walk ends in
a panic only when a fetch panicked: with fetches that do not panic, the walk
delivers no "Panic In View Walking". -/
theorem C23_index_in_bounds (View : Nat → Options → ViewResult) (options : Options)
    (batchSize limit : Int) (fuel : Nat) (hb : 0 ≤ batchSize) (hl : 0 ≤ limit) :
    0 ≤ effectiveBatchSize batchSize limit ∧
    (∀ rows : List ViewRow, (rows.length : Int) > effectiveBatchSize batchSize limit →
      (effectiveBatchSize batchSize limit).toNat < rows.length ∧
      ∃ next, rowIndex rows (effectiveBatchSize batchSize limit) = some next) ∧
    (∀ (k : Nat) (f g : Fetch),
      (fetchesOf View (some options) batchSize limit fuel)[k]? = some f →
      (fetchesOf View (some options) batchSize limit fuel)[k + 1]? = some g →
      ∃ rows, f.outcome = .rows rows ∧
        (rows.length : Int) > effectiveBatchSize batchSize limit) ∧
    ((walkBody View (some options) batchSize limit fuel).2 = Exit.panicked →
      ∃ c o msg, View c o = ViewResult.panicked msg) ∧
    ((∀ c o msg, View c o ≠ ViewResult.panicked msg) →
      errorsOf (WalkViewInBatches View (some options) batchSize limit fuel).events = [] ∨
      errorsOf (WalkViewInBatches View (some options) batchSize limit fuel).events =
        ["Unable to access view"]) := by
  have h0 := effectiveBatchSize_nonneg batchSize limit hb hl
  have hpanic : (walkBody View (some options) batchSize limit fuel).2 = Exit.panicked →
      ∃ c o msg, View c o = ViewResult.panicked msg := by
    intro hp
    rcases (walkLoop_exit_cause View (effectiveBatchSize batchSize limit) limit fuel 0
      (options.set "limit" (.int64 (wrapInt64 (effectiveBatchSize batchSize limit + 1)))) 0).2
      hp with h | h
    · exact h
    · omega
  refine ⟨h0, ?_, ?_, hpanic, ?_⟩
  · intro rows hr
    exact ⟨by omega, rowIndex_isSome rows _ h0 hr⟩
  · intro k f g hf hg
    simp only [fetchesOf] at hf hg
    obtain ⟨rows, next, hr, hl', -, -⟩ := walkFetches_next View _ limit fuel 0 _ 0 k f g hf hg
    exact ⟨rows, hr, hl'⟩
  · intro hnp
    obtain ⟨rows, hr⟩ := walkLoop_shape View (effectiveBatchSize batchSize limit) limit fuel 0
      (options.set "limit" (.int64 (wrapInt64 (effectiveBatchSize batchSize limit + 1)))) 0
    have hne : (walkBody View (some options) batchSize limit fuel).2 ≠ Exit.panicked := by
      intro hp
      obtain ⟨c, o, msg, h⟩ := hpanic hp
      exact hnp c o msg h
    simp only [walkBody] at hne
    simp only [WalkViewInBatches, walkBody]
    generalize walkLoop View (effectiveBatchSize batchSize limit) limit fuel 0
      (options.set "limit" (.int64 (wrapInt64 (effectiveBatchSize batchSize limit + 1)))) 0
      = out at hr hne
    obtain ⟨sent, exit⟩ := out
    simp only at hr hne
    cases exit with
    | done =>
      simp only [reduceIte, reduceCtorEq, List.append_nil] at hr
      subst hr
      exact Or.inl (by simp [errorsOf_map_result])
    | running =>
      simp only [reduceIte, reduceCtorEq, List.append_nil] at hr
      subst hr
      exact Or.inl (by simp [errorsOf_map_result])
    | fetchFailed =>
      simp only [reduceIte] at hr
      subst hr
      exact Or.inr (by simp [errorsOf_append, errorsOf_map_result, errorsOf])
    | panicked => exact absurd rfl hne

/-- C23 at a concrete input: batch size 0 on the ten-row sample store, where
every page has one row and the row at index 0 is read. -/
theorem C23_index_in_bounds_witness :
    (0 : Int) ≤ effectiveBatchSize 0 0 ∧
    (∀ rows : List ViewRow, (rows.length : Int) > effectiveBatchSize 0 0 →
      ∃ next, rowIndex rows (effectiveBatchSize 0 0) = some next) ∧
    errorsOf (WalkViewInBatches (storeView cmpKeyNumber sampleStore) (some []) 0 0 5).events
      = [] := by
  have h := C23_index_in_bounds (storeView cmpKeyNumber sampleStore) [] 0 0 5
    (le_refl _) (le_refl _)
  exact ⟨h.1, fun rows hr => (h.2.1 rows hr).2, by decide⟩


/-! ### Copy of a Distinct operator -/

/-- C24 (the code at the failing input): the copy of a Distinct operator made
with collect = true has collect = false.  Its set is a newly allocated, empty
one, and for an operator made with collect = false the setting is kept; on
every operator `Copy` returns collect = false. -/
theorem C24_copy_drops_collect :
    (NewDistinct () id ⟨[]⟩ true).2.collect = true ∧
    (Distinct.Copy id (NewDistinct () id ⟨[]⟩ true).1
      (NewDistinct () id ⟨[]⟩ true).2).2.collect = false ∧
    (NewDistinct () id ⟨[]⟩ true).2.set = some 0 ∧
    (Distinct.Copy id (NewDistinct () id ⟨[]⟩ true).1
      (NewDistinct () id ⟨[]⟩ true).2).2.set = some 1 ∧
    ((Distinct.Copy id (NewDistinct () id ⟨[]⟩ true).1
      (NewDistinct () id ⟨[]⟩ true).2).1.sets.map (fun s => (s.capacity, s.values.length))) =
        [(1024, 0), (1024, 0)] ∧
    (Distinct.Copy id (NewDistinct () id ⟨[]⟩ false).1
      (NewDistinct () id ⟨[]⟩ false).2).2.collect = false ∧
    (∀ (Base : Type) (copy : Base → Base) (h : Heap) (this : Distinct Base),
      (Distinct.Copy copy h this).2.collect = false ∧
      (Distinct.Copy copy h this).2.set = some h.sets.length ∧
      (Distinct.Copy copy h this).1.sets = h.sets ++ [⟨1024, []⟩]) :=
  ⟨rfl, rfl, rfl, rfl, rfl, rfl, fun _ _ _ _ => ⟨rfl, rfl, rfl⟩⟩


/-! ### A failing fetch and what the walk delivers -/

/-- The deliveries of the loop are the rows its iterations sent, followed by
the error of a failed fetch when the loop ended on one. -/
theorem walkLoop_events (View : Nat → Options → ViewResult) (batchSize limit : Int)
    (fuel call : Nat) (options : Options) (numRead : Int) :
    (walkLoop View batchSize limit fuel call options numRead).1 =
      ((walkFetches View batchSize limit fuel call options numRead).flatMap Fetch.sent).map
          Event.result ++
        (if (walkLoop View batchSize limit fuel call options numRead).2 = Exit.fetchFailed
          then [Event.errs "Unable to access view"] else []) := by
  obtain ⟨rows, hr⟩ := walkLoop_shape View batchSize limit fuel call options numRead
  have hf := walkLoop_results_eq_fetches View batchSize limit fuel call options numRead
  have hrows : resultsOf (walkLoop View batchSize limit fuel call options numRead).1 = rows := by
    rw [hr, resultsOf_append, resultsOf_map_result]
    split <;> simp [resultsOf]
  rw [← hf, hrows]
  exact hr

/-- How the loop ends, read off the outcomes of its fetches. -/
theorem walkLoop_exit_fetches (View : Nat → Options → ViewResult) (batchSize limit : Int) :
    ∀ (fuel call : Nat) (options : Options) (numRead : Int),
      ((∃ (k : Nat) (f : Fetch) (err : String), (walkFetches View batchSize limit fuel call options numRead)[k]? = some f ∧
          f.outcome = ViewResult.failed err) →
        (walkLoop View batchSize limit fuel call options numRead).2 = Exit.fetchFailed) ∧
      ((∃ (k : Nat) (f : Fetch) (msg : String), (walkFetches View batchSize limit fuel call options numRead)[k]? = some f ∧
          f.outcome = ViewResult.panicked msg) →
        (walkLoop View batchSize limit fuel call options numRead).2 = Exit.panicked) ∧
      ((walkLoop View batchSize limit fuel call options numRead).2 = Exit.fetchFailed →
        ∃ (k : Nat) (f : Fetch) (err : String), (walkFetches View batchSize limit fuel call options numRead)[k]? = some f ∧
          f.outcome = ViewResult.failed err) ∧
      ((walkLoop View batchSize limit fuel call options numRead).2 = Exit.panicked →
        (∃ (k : Nat) (f : Fetch) (msg : String), (walkFetches View batchSize limit fuel call options numRead)[k]? = some f ∧
          f.outcome = ViewResult.panicked msg) ∨ batchSize < 0) := by
  intro fuel
  induction fuel with
  | zero => intro call options numRead; simp [walkLoop, walkFetches]
  | succ fuel ih =>
    intro call options numRead
    have hone : ∀ (rows sent : List ViewRow) (k : Nat) (f : Fetch),
        [Fetch.mk options (.rows rows) sent][k]? = some f → f.outcome = .rows rows := by
      intro rows sent k f hk
      cases k with
      | zero => simp at hk; rw [← hk]
      | succ k => simp at hk
    rw [walkLoop, walkFetches]
    cases hv : View call options with
    | panicked msg =>
      refine ⟨?_, fun _ => rfl, by simp, fun _ => Or.inl ⟨0, _, msg, rfl, rfl⟩⟩
      rintro ⟨k, f, err, hk, hf⟩
      cases k with
      | zero => simp at hk; rw [← hk] at hf; simp at hf
      | succ k => simp at hk
    | failed err =>
      refine ⟨fun _ => rfl, ?_, fun _ => ⟨0, _, err, rfl, rfl⟩, by simp⟩
      rintro ⟨k, f, msg, hk, hf⟩
      cases k with
      | zero => simp at hk; rw [← hk] at hf; simp at hf
      | succ k => simp at hk
    | rows rows =>
      simp only
      split
      · rename_i hc
        cases hi : rowIndex rows batchSize with
        | none =>
          simp only
          refine ⟨?_, ?_, by simp, fun _ => Or.inr ?_⟩
          · rintro ⟨k, f, err, hk, hf⟩
            rw [hone _ _ k f hk] at hf
            simp at hf
          · rintro ⟨k, f, msg, hk, hf⟩
            rw [hone _ _ k f hk] at hf
            simp at hf
          · by_contra hneg
            obtain ⟨next, hn⟩ := rowIndex_isSome rows batchSize (not_lt.mp hneg) hc.1
            rw [hn] at hi
            exact absurd hi (by simp)
        | some next =>
          simp only
          obtain ⟨h1, h2, h3, h4⟩ := ih (call + 1)
            ((options.set "startkey" next.Key).set "startkey_docid" (.docID next.ID))
            (emitRows batchSize 0 rows numRead).2
          refine ⟨?_, ?_, ?_, ?_⟩
          · rintro ⟨k, f, err, hk, hf⟩
            cases k with
            | zero => simp at hk; rw [← hk] at hf; simp at hf
            | succ k => exact h1 ⟨k, f, err, by simpa using hk, hf⟩
          · rintro ⟨k, f, msg, hk, hf⟩
            cases k with
            | zero => simp at hk; rw [← hk] at hf; simp at hf
            | succ k => exact h2 ⟨k, f, msg, by simpa using hk, hf⟩
          · intro he
            obtain ⟨k, f, err, hk, hf⟩ := h3 he
            exact ⟨k + 1, f, err, by simpa using hk, hf⟩
          · intro he
            rcases h4 he with ⟨k, f, msg, hk, hf⟩ | hneg
            · exact Or.inl ⟨k + 1, f, msg, by simpa using hk, hf⟩
            · exact Or.inr hneg
      · simp only
        refine ⟨?_, ?_, by simp, by simp⟩
        · rintro ⟨k, f, err, hk, hf⟩
          rw [hone _ _ k f hk] at hf
          simp at hf
        · rintro ⟨k, f, msg, hk, hf⟩
          rw [hone _ _ k f hk] at hf
          simp at hf

/-- A fetch that did not return rows is the last one of its walk. -/
theorem walkFetches_stop (View : Nat → Options → ViewResult) (batchSize limit : Int)
    (fuel call : Nat) (options : Options) (numRead : Int) (k : Nat) (f : Fetch)
    (hf : (walkFetches View batchSize limit fuel call options numRead)[k]? = some f)
    (hn : ∀ rows, f.outcome ≠ ViewResult.rows rows) :
    (walkFetches View batchSize limit fuel call options numRead).length = k + 1 := by
  have hk : k < (walkFetches View batchSize limit fuel call options numRead).length := by
    by_contra hge
    rw [List.getElem?_eq_none (by omega)] at hf
    simp at hf
  by_contra hne
  have hk1 : k + 1 < (walkFetches View batchSize limit fuel call options numRead).length := by
    omega
  obtain ⟨rows, next, hr, -⟩ := walkFetches_next View batchSize limit fuel call options numRead
    k f _ hf (List.getElem?_eq_getElem hk1)
  exact hn rows hr


/-- What a walk on a non-nil option map delivers, by the way its loop ends. -/
theorem walk_events_by_exit (View : Nat → Options → ViewResult) (o : Options)
    (batchSize limit : Int) (fuel : Nat) :
    ((walkBody View (some o) batchSize limit fuel).2 = Exit.fetchFailed →
      (WalkViewInBatches View (some o) batchSize limit fuel).events =
        ((fetchesOf View (some o) batchSize limit fuel).flatMap Fetch.sent).map Event.result ++
          [Event.errs "Unable to access view"] ∧
      (WalkViewInBatches View (some o) batchSize limit fuel).closed = true) ∧
    ((walkBody View (some o) batchSize limit fuel).2 = Exit.panicked →
      (WalkViewInBatches View (some o) batchSize limit fuel).events =
        ((fetchesOf View (some o) batchSize limit fuel).flatMap Fetch.sent).map Event.result ++
          [Event.errs "Panic In View Walking"] ∧
      (WalkViewInBatches View (some o) batchSize limit fuel).closed = true) ∧
    ((walkBody View (some o) batchSize limit fuel).2 = Exit.done →
      (WalkViewInBatches View (some o) batchSize limit fuel).events =
        ((fetchesOf View (some o) batchSize limit fuel).flatMap Fetch.sent).map Event.result ∧
      (WalkViewInBatches View (some o) batchSize limit fuel).closed = true) ∧
    ((walkBody View (some o) batchSize limit fuel).2 = Exit.running →
      (WalkViewInBatches View (some o) batchSize limit fuel).events =
        ((fetchesOf View (some o) batchSize limit fuel).flatMap Fetch.sent).map Event.result ∧
      (WalkViewInBatches View (some o) batchSize limit fuel).closed = false) := by
  have he := walkLoop_events View (effectiveBatchSize batchSize limit) limit fuel 0
    (o.set "limit" (.int64 (wrapInt64 (effectiveBatchSize batchSize limit + 1)))) 0
  simp only [WalkViewInBatches, walkBody, fetchesOf]
  generalize walkLoop View (effectiveBatchSize batchSize limit) limit fuel 0
    (o.set "limit" (.int64 (wrapInt64 (effectiveBatchSize batchSize limit + 1)))) 0 = out at he
  obtain ⟨sent, exit⟩ := out
  simp only at he
  cases exit <;> simp_all

/-- C6: a walk delivers rows and then at most one error, never a row after an
error.  A fetch that fails is the last fetch of its walk: the walk delivers the
rows sent before it, then the one error "Unable to access view", and returns.
A fetch that panics, a nil option map, or a negative batch size at
`vres.Rows[batchSize]` likewise ends the walk with the rows sent before, then
the one error "Panic In View Walking".  When every fetch returns rows, on a
non-nil option map and a batch size that is not negative, the walk delivers the
rows its fetches sent and no error. -/
theorem C6_single_error (View : Nat → Options → ViewResult) (options : Option Options)
    (batchSize limit : Int) (fuel : Nat) :
    (∃ (rows : List ViewRow) (errs : List String),
      (WalkViewInBatches View options batchSize limit fuel).events =
        rows.map Event.result ++ errs.map Event.errs ∧
      errs.length ≤ 1 ∧
      rows = resultsOf (walkBody View options batchSize limit fuel).1 ∧
      (((walkBody View options batchSize limit fuel).2 = Exit.fetchFailed ∨
          (walkBody View options batchSize limit fuel).2 = Exit.panicked) →
        errs.length = 1 ∧ (WalkViewInBatches View options batchSize limit fuel).closed = true) ∧
      (((walkBody View options batchSize limit fuel).2 = Exit.done ∨
          (walkBody View options batchSize limit fuel).2 = Exit.running) → errs = []) ∧
      ((walkBody View options batchSize limit fuel).2 = Exit.fetchFailed →
        ∃ c o err, View c o = ViewResult.failed err) ∧
      ((walkBody View options batchSize limit fuel).2 = Exit.panicked →
        options = none ∨ (∃ c o msg, View c o = ViewResult.panicked msg) ∨
          effectiveBatchSize batchSize limit < 0)) ∧
    (options = none →
      (WalkViewInBatches View options batchSize limit fuel).events =
        [Event.errs "Panic In View Walking"] ∧
      (WalkViewInBatches View options batchSize limit fuel).closed = true) ∧
    (∀ (k : Nat) (f : Fetch) (err : String),
      (fetchesOf View options batchSize limit fuel)[k]? = some f →
      f.outcome = ViewResult.failed err →
        View k f.options = ViewResult.failed err ∧
        (fetchesOf View options batchSize limit fuel).length = k + 1 ∧
        (WalkViewInBatches View options batchSize limit fuel).events =
          ((fetchesOf View options batchSize limit fuel).flatMap Fetch.sent).map Event.result ++
            [Event.errs "Unable to access view"] ∧
        (WalkViewInBatches View options batchSize limit fuel).closed = true) ∧
    (∀ (k : Nat) (f : Fetch) (msg : String),
      (fetchesOf View options batchSize limit fuel)[k]? = some f →
      f.outcome = ViewResult.panicked msg →
        View k f.options = ViewResult.panicked msg ∧
        (fetchesOf View options batchSize limit fuel).length = k + 1 ∧
        (WalkViewInBatches View options batchSize limit fuel).events =
          ((fetchesOf View options batchSize limit fuel).flatMap Fetch.sent).map Event.result ++
            [Event.errs "Panic In View Walking"] ∧
        (WalkViewInBatches View options batchSize limit fuel).closed = true) ∧
    (∀ (o : Options) (err : String), options = some o → 0 < fuel →
      View 0 (o.set "limit" (.int64 (wrapInt64 (effectiveBatchSize batchSize limit + 1)))) =
        ViewResult.failed err →
      (WalkViewInBatches View options batchSize limit fuel).events =
        [Event.errs "Unable to access view"] ∧
      (WalkViewInBatches View options batchSize limit fuel).closed = true) ∧
    (∀ (o : Options) (msg : String), options = some o → 0 < fuel →
      View 0 (o.set "limit" (.int64 (wrapInt64 (effectiveBatchSize batchSize limit + 1)))) =
        ViewResult.panicked msg →
      (WalkViewInBatches View options batchSize limit fuel).events =
        [Event.errs "Panic In View Walking"] ∧
      (WalkViewInBatches View options batchSize limit fuel).closed = true) ∧
    (∀ (o : Options) (rows : List ViewRow), options = some o → 0 < fuel →
      batchSize < 0 → limit = 0 →
      View 0 (o.set "limit" (.int64 (wrapInt64 (effectiveBatchSize batchSize limit + 1)))) =
        ViewResult.rows rows →
      (WalkViewInBatches View options batchSize limit fuel).events =
        [Event.errs "Panic In View Walking"] ∧
      (WalkViewInBatches View options batchSize limit fuel).closed = true) ∧
    ((∀ (k : Nat) (f : Fetch), (fetchesOf View options batchSize limit fuel)[k]? = some f →
        ∃ rows, f.outcome = ViewResult.rows rows) →
      options ≠ none → 0 ≤ effectiveBatchSize batchSize limit →
      (WalkViewInBatches View options batchSize limit fuel).events =
        ((fetchesOf View options batchSize limit fuel).flatMap Fetch.sent).map Event.result ∧
      errorsOf (WalkViewInBatches View options batchSize limit fuel).events = []) := by
  refine ⟨walk_single_error View options batchSize limit fuel, ?_, ?_, ?_, ?_, ?_, ?_, ?_⟩
  · rintro rfl
    exact ⟨rfl, rfl⟩
  · intro k f err hf ho
    cases options with
    | none => simp [fetchesOf] at hf
    | some o =>
      have hf' := hf
      simp only [fetchesOf] at hf'
      obtain ⟨e1, -, -, -⟩ := walkFetches_each View _ limit fuel 0 _ 0 k f hf'
      have hstop := walkFetches_stop View _ limit fuel 0 _ 0 k f hf'
        (fun rows h => by rw [ho] at h; simp at h)
      have hexit : (walkBody View (some o) batchSize limit fuel).2 = Exit.fetchFailed :=
        (walkLoop_exit_fetches View _ limit fuel 0 _ 0).1 ⟨k, f, err, hf', ho⟩
      obtain ⟨hev, hcl⟩ := (walk_events_by_exit View o batchSize limit fuel).1 hexit
      exact ⟨by rw [← ho, e1]; simp, hstop, hev, hcl⟩
  · intro k f msg hf ho
    cases options with
    | none => simp [fetchesOf] at hf
    | some o =>
      have hf' := hf
      simp only [fetchesOf] at hf'
      obtain ⟨e1, -, -, -⟩ := walkFetches_each View _ limit fuel 0 _ 0 k f hf'
      have hstop := walkFetches_stop View _ limit fuel 0 _ 0 k f hf'
        (fun rows h => by rw [ho] at h; simp at h)
      have hexit : (walkBody View (some o) batchSize limit fuel).2 = Exit.panicked :=
        (walkLoop_exit_fetches View _ limit fuel 0 _ 0).2.1 ⟨k, f, msg, hf', ho⟩
      obtain ⟨hev, hcl⟩ := (walk_events_by_exit View o batchSize limit fuel).2.1 hexit
      exact ⟨by rw [← ho, e1]; simp, hstop, hev, hcl⟩
  · rintro o err rfl hfuel hv
    obtain ⟨fuel, rfl⟩ : ∃ n, fuel = n + 1 := ⟨fuel - 1, by omega⟩
    simp [WalkViewInBatches, walkBody, walkLoop, hv]
  · rintro o msg rfl hfuel hv
    obtain ⟨fuel, rfl⟩ : ∃ n, fuel = n + 1 := ⟨fuel - 1, by omega⟩
    simp [WalkViewInBatches, walkBody, walkLoop, hv]
  · rintro o rows rfl hfuel hb rfl hv
    obtain ⟨fuel, rfl⟩ : ∃ n, fuel = n + 1 := ⟨fuel - 1, by omega⟩
    have heff : effectiveBatchSize batchSize 0 = batchSize := by simp [effectiveBatchSize]
    rw [heff] at hv
    have hsent : (emitRows batchSize 0 rows 0).1 = [] := by
      rw [emitRows_fst]
      have : (batchSize - ((0 : Nat) : Int)).toNat = 0 := by omega
      rw [this]; rfl
    have hidx : rowIndex rows batchSize = none := by simp [rowIndex, hb]
    have hlen : (rows.length : Int) > batchSize := by omega
    simp [WalkViewInBatches, walkBody, walkLoop, heff, hv, hsent, hidx, hlen]
  · intro hall hne h0
    cases options with
    | none => exact absurd rfl hne
    | some o =>
      have hx := walkLoop_exit_fetches View (effectiveBatchSize batchSize limit) limit fuel 0
        (o.set "limit" (.int64 (wrapInt64 (effectiveBatchSize batchSize limit + 1)))) 0
      have hnf : (walkBody View (some o) batchSize limit fuel).2 ≠ Exit.fetchFailed := by
        intro he
        obtain ⟨k, f, err, hk, hf⟩ := hx.2.2.1 he
        obtain ⟨rows, hr⟩ := hall k f (by simpa [fetchesOf] using hk)
        rw [hr] at hf; simp at hf
      have hnp : (walkBody View (some o) batchSize limit fuel).2 ≠ Exit.panicked := by
        intro he
        rcases hx.2.2.2 he with ⟨k, f, msg, hk, hf⟩ | hneg
        · obtain ⟨rows, hr⟩ := hall k f (by simpa [fetchesOf] using hk)
          rw [hr] at hf; simp at hf
        · omega
      have hby := walk_events_by_exit View o batchSize limit fuel
      have hev : (WalkViewInBatches View (some o) batchSize limit fuel).events =
          ((fetchesOf View (some o) batchSize limit fuel).flatMap Fetch.sent).map
            Event.result := by
        cases hexit : (walkBody View (some o) batchSize limit fuel).2 with
        | done => exact (hby.2.2.1 hexit).1
        | running => exact (hby.2.2.2 hexit).1
        | fetchFailed => exact absurd hexit hnf
        | panicked => exact absurd hexit hnp
      exact ⟨hev, by rw [hev]; exact errorsOf_map_result _⟩

/-- C6 at a concrete input: over the ten-row sample store walked three rows at
a time, a second fetch that fails leaves the first three rows followed by one
error, and a second fetch that panics leaves them followed by the other. -/
theorem C6_single_error_witness :
    (WalkViewInBatches (fun call o => if call = 1 then ViewResult.failed "timeout"
        else storeView cmpKeyNumber sampleStore call o) (some []) 3 0 11).events =
      (sampleStore.take 3).map Event.result ++ [Event.errs "Unable to access view"] ∧
    (WalkViewInBatches (fun call o => if call = 1 then ViewResult.failed "timeout"
        else storeView cmpKeyNumber sampleStore call o) (some []) 3 0 11).closed = true ∧
    (WalkViewInBatches (fun call o => if call = 1 then ViewResult.panicked "nil pointer"
        else storeView cmpKeyNumber sampleStore call o) (some []) 3 0 11).events =
      (sampleStore.take 3).map Event.result ++ [Event.errs "Panic In View Walking"] := by
  have h := (C6_single_error (fun call o => if call = 1 then ViewResult.failed "timeout"
    else storeView cmpKeyNumber sampleStore call o) (some []) 3 0 11).2.2.1 1 _ "timeout"
    rfl rfl
  exact ⟨h.2.2.1, h.2.2.2, rfl⟩


/-! ### Batch sizes at the end of the `int64` range -/

/-- C19 (the code at the input where the request differs): with the largest
`int64` as batch size and no limit, b is 9223372036854775807 and the sum b + 1
wraps around: the one fetch of the walk over the ten-row sample store carries
`limit` = -9223372036854775808, not b + 1, and sends no row. -/
theorem C19_fetch_size_overflow :
    effectiveBatchSize 9223372036854775807 0 = 9223372036854775807 ∧
    (fetchesOf (storeView cmpKeyNumber sampleStore) (some []) 9223372036854775807 0 11).map
        (fun f => f.options.get "limit") = [some (.int64 (-9223372036854775808))] ∧
    (-9223372036854775808 : Int) ≠ 9223372036854775807 + 1 ∧
    (fetchesOf (storeView cmpKeyNumber sampleStore) (some []) 9223372036854775807 0 11).map
        (fun f => f.sent.length) = [0] := by
  refine ⟨by decide, rfl, by decide, by decide⟩

/-- C21 (the code at the input where the count differs): with the largest
`int64` as batch size and as limit, b' + 1 wraps around to
-9223372036854775808; the fetch over the sorted ten-row sample store returns no
row and the walk delivers none, where min(N, b' * ceil(L / b')) is 10. -/
theorem C21_limit_overflow :
    sampleStore.Pairwise (rowLT cmpKeyNumber) ∧
    (WalkViewInBatches (storeView cmpKeyNumber sampleStore) (some [])
      9223372036854775807 9223372036854775807 11).events = [] ∧
    (WalkViewInBatches (storeView cmpKeyNumber sampleStore) (some [])
      9223372036854775807 9223372036854775807 11).closed = true ∧
    (fetchesOf (storeView cmpKeyNumber sampleStore) (some [])
      9223372036854775807 9223372036854775807 11).map
        (fun f => f.options.get "limit") = [some (.int64 (-9223372036854775808))] ∧
    min sampleStore.length (min 9223372036854775807 9223372036854775807 *
      ((9223372036854775807 + min 9223372036854775807 9223372036854775807 - 1) /
        min 9223372036854775807 9223372036854775807)) = 10 := by
  refine ⟨by decide, rfl, rfl, rfl, by decide⟩


end Query
